import Mathlib

/-!
Verification of the sorting-algorithm visualizer engine.

This file shallowly embeds the core of the repository:
* `src/lib/events.ts` — the event protocol (`SortEvent`, `getEventFamily`);
* `src/lib/helpers.ts` — the instrumented array access layer (`createHelpers`);
* `src/lib/algorithms.ts` — the six algorithm units (generator functions; the
  `yield` points only suspend and have no effect on the array or the emitted
  events, so running a unit to exhaustion is embedded as a plain function on
  the instrumented state);
* the worker / scheduler (`onmessage`, `runLoop`, `finish`) that lives in the
  same source file.

Arrays are embedded as `List ℕ` (the source only ever compares, reads, swaps
and writes numeric values, so any linearly ordered value type is faithful).
JavaScript index arithmetic that can go below zero (`i = low - 1` in the
quick-sort partition, the insertion-sort scan counter, the heap build counter)
is embedded with `ℤ` counters exactly where the source can be negative.
-/

namespace SV

/-- Event protocol of `events.ts`: the `type` discriminator values. -/
inductive EventType where
  | swap | write | copy | bulkWrite
  | compare | read | scan
  | pivot | select | partition | range | merge | heapify | bucket | pass
  | start | checkpoint | done
deriving DecidableEq, Repr

/-- Event families of `events.ts` (`EventFamily`). -/
inductive EventFamily where
  | structural | comparison | marker | lifecycle
deriving DecidableEq, Repr

/-- Embedding of `getEventFamily` from `events.ts`. -/
def getEventFamily : EventType → EventFamily
  | .swap => .structural
  | .write => .structural
  | .copy => .structural
  | .bulkWrite => .structural
  | .compare => .comparison
  | .read => .comparison
  | .scan => .comparison
  | .pivot => .marker
  | .select => .marker
  | .partition => .marker
  | .range => .marker
  | .merge => .marker
  | .heapify => .marker
  | .bucket => .marker
  | .pass => .marker
  | .start => .lifecycle
  | .checkpoint => .lifecycle
  | .done => .lifecycle

/-- Embedding of the `SortEvent` union of `events.ts`, restricted to the
constructors the engine actually produces (`copy`, `bulkWrite`, `scan`,
`select`, `heapify`, `bucket` and `pass` are declared in the protocol but
never emitted by any code in the repository).  The monotonically increasing
`id` field is not stored per event: the worker assigns ids sequentially in
emission order, so a trace (a `List SortEvent`) carries the id order as its
list order. -/
inductive SortEvent where
  | swapE (i j : ℕ)
  | writeE (index value : ℕ)
  | compareE (i j : ℕ) (result : ℤ)
  | readE (index value : ℕ)
  | pivotE (index : ℕ)
  | partitionE (lo hi : ℕ)
  | rangeE (lo hi : ℕ) (label : String)
  | mergeE (lo mid hi : ℕ)
  | checkpointE (label : String)
  | startE (algorithmName : String) (arrayLength : ℕ) (seed : Option ℕ)
  | doneE
deriving DecidableEq, Repr

/-- Discriminator of an embedded event, as in `events.ts`. -/
def SortEvent.etype : SortEvent → EventType
  | .swapE .. => .swap
  | .writeE .. => .write
  | .compareE .. => .compare
  | .readE .. => .read
  | .pivotE .. => .pivot
  | .partitionE .. => .partition
  | .rangeE .. => .range
  | .mergeE .. => .merge
  | .checkpointE .. => .checkpoint
  | .startE .. => .start
  | .doneE => .done

/-- State threaded through the access layer: the working array plus the trace
of emitted events (in emission = id order). -/
structure HState where
  arr : List ℕ
  trace : List SortEvent
deriving DecidableEq, Repr

/-- JavaScript array read `arr[i]` (all uses in the repository are in range;
out-of-range reads default to `0` in the embedding). -/
def aget (a : List ℕ) (i : ℕ) : ℕ := a.getD i 0

/-- JavaScript array write `arr[i] = v` (`List.set` is the identity when `i`
is out of range; all uses in the repository are in range). -/
def aset (a : List ℕ) (i v : ℕ) : List ℕ := a.set i v

/-- Destructuring swap `[arr[i], arr[j]] = [arr[j], arr[i]]` from
`helpers.ts`. -/
def aswap (a : List ℕ) (i j : ℕ) : List ℕ :=
  aset (aset a i (aget a j)) j (aget a i)

/-- Tri-state comparison `v1 < v2 ? -1 : v1 > v2 ? 1 : 0` from
`helpers.ts`. -/
def cmpInt (v1 v2 : ℕ) : ℤ :=
  if v1 < v2 then -1 else if v1 > v2 then 1 else 0

/-- Helper `compare(i, j)` of `createHelpers`: compares `arr[i]` and `arr[j]`,
emits a `compare` event carrying both indices and the result. -/
def compareH (i j : ℕ) (s : HState) : ℤ × HState :=
  let result := cmpInt (aget s.arr i) (aget s.arr j)
  (result, { s with trace := s.trace ++ [.compareE i j result] })

/-- Helper `compareValues(v1, v2, i1, i2)` of `createHelpers`: compares the
two supplied values and emits a `compare` event (the same event kind as
`compare`) attributed to indices `i1`, `i2`. -/
def compareValues (v1 v2 i1 i2 : ℕ) (s : HState) : ℤ × HState :=
  let result := cmpInt v1 v2
  (result, { s with trace := s.trace ++ [.compareE i1 i2 result] })

/-- Helper `swap(i, j)` of `createHelpers`: exchanges the two slots in place
and emits a `swap` event. -/
def swapH (i j : ℕ) (s : HState) : HState :=
  { arr := aswap s.arr i j, trace := s.trace ++ [.swapE i j] }

/-- Helper `read(i)` of `createHelpers`: reads `arr[i]` and emits a `read`
event carrying index and value. -/
def readH (i : ℕ) (s : HState) : ℕ × HState :=
  let value := aget s.arr i
  (value, { s with trace := s.trace ++ [.readE i value] })

/-- Helper `write(i, value)` of `createHelpers`: stores `value` at `arr[i]`
and emits a `write` event. -/
def writeH (i v : ℕ) (s : HState) : HState :=
  { arr := aset s.arr i v, trace := s.trace ++ [.writeE i v] }

/-- Helper `pivot(i)` (advisory marker). -/
def pivotH (i : ℕ) (s : HState) : HState :=
  { s with trace := s.trace ++ [.pivotE i] }

/-- Helper `partition(lo, hi)` (advisory marker). -/
def partitionH (lo hi : ℕ) (s : HState) : HState :=
  { s with trace := s.trace ++ [.partitionE lo hi] }

/-- Helper `range(lo, hi, label)` (advisory marker). -/
def rangeH (lo hi : ℕ) (label : String) (s : HState) : HState :=
  { s with trace := s.trace ++ [.rangeE lo hi label] }

/-- Helper `merge(lo, mid, hi)` (advisory marker). -/
def mergeH (lo mid hi : ℕ) (s : HState) : HState :=
  { s with trace := s.trace ++ [.mergeE lo mid hi] }

/-- Helper `checkpoint(label)` (advisory marker). -/
def checkpointH (label : String) (s : HState) : HState :=
  { s with trace := s.trace ++ [.checkpointE label] }

/-- Helper getter `length`. -/
def lengthH (s : HState) : ℕ := s.arr.length


/-! ### Projection lemmas for the access layer -/

theorem compareH_fst (i j : ℕ) (s : HState) :
    (compareH i j s).1 = cmpInt (aget s.arr i) (aget s.arr j) := rfl

theorem compareH_snd (i j : ℕ) (s : HState) :
    (compareH i j s).2 =
      { s with trace := s.trace ++ [.compareE i j (cmpInt (aget s.arr i) (aget s.arr j))] } := rfl

theorem compareH_arr (i j : ℕ) (s : HState) : (compareH i j s).2.arr = s.arr := rfl

theorem compareValues_fst (v1 v2 i1 i2 : ℕ) (s : HState) :
    (compareValues v1 v2 i1 i2 s).1 = cmpInt v1 v2 := rfl

theorem compareValues_arr (v1 v2 i1 i2 : ℕ) (s : HState) :
    (compareValues v1 v2 i1 i2 s).2.arr = s.arr := rfl

theorem readH_fst (i : ℕ) (s : HState) : (readH i s).1 = aget s.arr i := rfl

theorem readH_arr (i : ℕ) (s : HState) : (readH i s).2.arr = s.arr := rfl

theorem swapH_arr (i j : ℕ) (s : HState) : (swapH i j s).arr = aswap s.arr i j := rfl

theorem writeH_arr (i v : ℕ) (s : HState) : (writeH i v s).arr = aset s.arr i v := rfl

theorem pivotH_arr (i : ℕ) (s : HState) : (pivotH i s).arr = s.arr := rfl

theorem partitionH_arr (lo hi : ℕ) (s : HState) : (partitionH lo hi s).arr = s.arr := rfl

theorem rangeH_arr (lo hi : ℕ) (label : String) (s : HState) :
    (rangeH lo hi label s).arr = s.arr := rfl

theorem mergeH_arr (lo mid hi : ℕ) (s : HState) : (mergeH lo mid hi s).arr = s.arr := rfl

theorem checkpointH_arr (label : String) (s : HState) : (checkpointH label s).arr = s.arr := rfl

/-! ### Bubble Sort (`bubbleSort` in `algorithms.ts`) -/

/-- Loop `for (j = 0; j < n - i - 1; j++)` of `bubbleSort`: compare adjacent
slots and swap when out of order (the comparison's state is threaded by
projection since `compareH` is pure). -/
def bubbleInner (n i j : ℕ) (s : HState) : HState :=
  if j < n - i - 1 then
    bubbleInner n i (j+1)
      (if (compareH j (j+1) s).1 > 0 then swapH j (j+1) (compareH j (j+1) s).2
       else (compareH j (j+1) s).2)
  else s
termination_by n - i - 1 - j

/-- Outer loop `for (i = 0; i < n - 1; i++)` of `bubbleSort`. -/
def bubbleOuter (n i : ℕ) (s : HState) : HState :=
  if i < n - 1 then
    bubbleOuter n (i+1) (bubbleInner n i 0 (rangeH 0 (n - i - 1) "unsorted" s))
  else s
termination_by n - 1 - i

/-- Embedding of `bubbleSort` run to exhaustion. -/
def bubbleSort (s : HState) : HState := bubbleOuter (lengthH s) 0 s

/-! ### Insertion Sort (`insertionSort` in `algorithms.ts`) -/

/-- Scan loop `while (j >= 0 && h.compare(j, i) > 0) { j--; }` of
`insertionSort`; `j` is a JavaScript number that reaches `-1`, embedded as
`ℤ`.  The conjunction is short-circuiting: no comparison happens once
`j < 0`. -/
def insFind (i : ℕ) (j : ℤ) (s : HState) : ℤ × HState :=
  if 0 ≤ j then
    if (compareH j.toNat i s).1 > 0 then insFind i (j - 1) (compareH j.toNat i s).2
    else (j, (compareH j.toNat i s).2)
  else (j, s)
termination_by (j + 1).toNat

/-- Shift loop `for (k = i; k > j + 1; k--) { h.write(k, h.read(k - 1)); }`
of `insertionSort`; `stop` stands for `j + 1`, which is never negative (the
scan above never returns `j < -1`). -/
def insShift (stop k : ℕ) (s : HState) : HState :=
  if stop < k then insShift stop (k - 1) (writeH k (readH (k - 1) s).1 (readH (k - 1) s).2)
  else s
termination_by k - stop

/-- Tail of one `insertionSort` iteration after the scan: read the key value
(`const keyVal = h.read(i)`), shift, then write the key at `j + 1`. -/
def insPlace (i : ℕ) (f : ℤ × HState) : HState :=
  writeH (f.1 + 1).toNat (readH i f.2).1 (insShift (f.1 + 1).toNat i (readH i f.2).2)

/-- Outer loop `for (i = 1; i < n; i++)` of `insertionSort` (note the source
also performs an unused `h.read(i)` before the scan). -/
def insOuter (n i : ℕ) (s : HState) : HState :=
  if i < n then
    insOuter n (i+1) (insPlace i (insFind i ((i : ℤ) - 1) (readH i (rangeH 0 i "sorted" s)).2))
  else s
termination_by n - i

/-- Embedding of `insertionSort` run to exhaustion. -/
def insertionSort (s : HState) : HState := insOuter (lengthH s) 1 s

/-! ### Selection Sort (`selectionSort` in `algorithms.ts`) -/

/-- Inner loop `for (j = i + 1; j < n; j++)` of `selectionSort`, returning the
final `minIdx`. -/
def selInner (n j minIdx : ℕ) (s : HState) : ℕ × HState :=
  if j < n then
    selInner n (j+1) (if (compareH j minIdx s).1 < 0 then j else minIdx) (compareH j minIdx s).2
  else (minIdx, s)
termination_by n - j

/-- Conditional swap `if (minIdx !== i) h.swap(i, minIdx);` of
`selectionSort`. -/
def selSwap (i : ℕ) (m : ℕ × HState) : HState :=
  if m.1 ≠ i then swapH i m.1 m.2 else m.2

/-- Outer loop `for (i = 0; i < n - 1; i++)` of `selectionSort`. -/
def selOuter (n i : ℕ) (s : HState) : HState :=
  if i < n - 1 then
    selOuter n (i+1) (selSwap i (selInner n (i+1) i (rangeH i (n - 1) "unsorted" s)))
  else s
termination_by n - 1 - i

/-- Embedding of `selectionSort` run to exhaustion. -/
def selectionSort (s : HState) : HState := selOuter (lengthH s) 0 s

/-! ### Quick Sort (`quickSort` in `algorithms.ts`) -/

/-- Loop `for (j = low; j < high; j++)` of `partition`; the running index `i`
starts at `low - 1` (possibly `-1`) and is embedded as `ℤ`.  On
`compare(j, high) < 0` the source increments `i` and swaps `arr[i]` with
`arr[j]`. -/
def partitionLoop (high : ℕ) (i : ℤ) (j : ℕ) (s : HState) : ℤ × HState :=
  if j < high then
    if (compareH j high s).1 < 0 then
      partitionLoop high (i + 1) (j+1) (swapH (i + 1).toNat j (compareH j high s).2)
    else partitionLoop high i (j+1) (compareH j high s).2
  else (i, s)
termination_by high - j

/-- Embedding of `partition(h, low, high)`: marks the pivot (`h.pivot(high)`),
runs the loop, swaps the pivot into place (`h.swap(i + 1, high)`) and returns
its final index `i + 1`. -/
def partitionQ (low high : ℕ) (s : HState) : ℕ × HState :=
  (((partitionLoop high ((low : ℤ) - 1) low (pivotH high s)).1 + 1).toNat,
   swapH ((partitionLoop high ((low : ℤ) - 1) low (pivotH high s)).1 + 1).toNat high
     (partitionLoop high ((low : ℤ) - 1) low (pivotH high s)).2)

theorem partitionLoop_i_ge (high : ℕ) (i : ℤ) (j : ℕ) (s : HState) :
    i ≤ (partitionLoop high i j s).1 := by
  induction i, j, s using partitionLoop.induct high with
  | case1 i j s hj hc ih =>
    rw [partitionLoop]
    rw [if_pos hj, if_pos hc]
    omega
  | case2 i j s hj hc ih =>
    rw [partitionLoop]
    rw [if_pos hj, if_neg hc]
    exact ih
  | case3 i j s hj =>
    rw [partitionLoop]
    rw [if_neg hj]

theorem partitionLoop_i_lt (high : ℕ) (i : ℤ) (j : ℕ) (s : HState)
    (hij : i < j) (hjh : j ≤ high) : (partitionLoop high i j s).1 < high := by
  induction i, j, s using partitionLoop.induct high with
  | case1 i j s hj hc ih =>
    rw [partitionLoop]
    rw [if_pos hj, if_pos hc]
    exact ih (by omega) (by omega)
  | case2 i j s hj hc ih =>
    rw [partitionLoop]
    rw [if_pos hj, if_neg hc]
    exact ih (by omega) (by omega)
  | case3 i j s hj =>
    rw [partitionLoop]
    rw [if_neg hj]
    simp only
    omega

theorem partitionQ_bounds (low high : ℕ) (s : HState) (h : low < high) :
    low ≤ (partitionQ low high s).1 ∧ (partitionQ low high s).1 ≤ high := by
  unfold partitionQ
  have h1 := partitionLoop_i_ge high ((low : ℤ) - 1) low (pivotH high s)
  have h2 := partitionLoop_i_lt high ((low : ℤ) - 1) low (pivotH high s)
    (by omega) (by omega)
  constructor <;> simp only <;> omega

/-- Embedding of `quickSortHelper(h, low, high)`.  The upper bound is a
JavaScript number that reaches `-1` (`pivotIdx - 1`, and the initial
`h.length - 1` on an empty array), embedded as `ℤ`; the lower bound is `0`
or `pivotIdx + 1` in every call, hence a `ℕ`.  The source first emits the
`partition` range marker (`h.partition(low, high)`), then partitions, then
recurses left and right of the returned pivot index. -/
def quickSortHelper (low : ℕ) (high : ℤ) (s : HState) : HState :=
  if hlh : (low : ℤ) < high then
    quickSortHelper ((partitionQ low high.toNat (partitionH low high.toNat s)).1 + 1) high
      (quickSortHelper low
        (((partitionQ low high.toNat (partitionH low high.toNat s)).1 : ℤ) - 1)
        (partitionQ low high.toNat (partitionH low high.toNat s)).2)
  else s
termination_by (high - low + 1).toNat
decreasing_by
  · have hb := partitionQ_bounds low high.toNat
      (partitionH low high.toNat s) (by omega)
    omega
  · have hb := partitionQ_bounds low high.toNat
      (partitionH low high.toNat s) (by omega)
    omega

/-- Embedding of `quickSort` run to exhaustion. -/
def quickSort (s : HState) : HState :=
  quickSortHelper 0 ((lengthH s : ℤ) - 1) s

/-! ### Merge Sort (`mergeSort` in `algorithms.ts`)

The auxiliary buffer `aux` is allocated once (`new Array(h.length)`) and
threaded through the recursion; within each merge it is fully overwritten on
`[lo, hi]` before being read, so its initial (undefined) contents are
embedded as zeros. -/

/-- Copy loop `for (k = lo; k <= hi; k++) aux[k] = h.read(k);` of
`mergeArrays`. -/
def copyAux (hi k : ℕ) (s : HState) (aux : List ℕ) : HState × List ℕ :=
  if k ≤ hi then copyAux hi (k+1) (readH k s).2 (aset aux k (readH k s).1)
  else (s, aux)
termination_by hi + 1 - k

/-- Merge loop `for (k = lo; k <= hi; k++)` of `mergeArrays`, including the
source's redundant re-test `if (aux[j] < aux[i])` in the final branch (that
branch is only reached when `compareValues` returned a negative result, so
the re-test is always true and its `else` arm is dead code). -/
def mergeLoop (aux : List ℕ) (mid hi i j k : ℕ) (s : HState) : HState :=
  if k ≤ hi then
    if i > mid then
      mergeLoop aux mid hi i (j+1) (k+1) (writeH k (aget aux j) s)
    else if j > hi then
      mergeLoop aux mid hi (i+1) j (k+1) (writeH k (aget aux i) s)
    else if (compareValues (aget aux j) (aget aux i) j i s).1 ≥ 0 then
      mergeLoop aux mid hi (i+1) j (k+1)
        (writeH k (aget aux i) (compareValues (aget aux j) (aget aux i) j i s).2)
    else if aget aux j < aget aux i then
      mergeLoop aux mid hi i (j+1) (k+1)
        (writeH k (aget aux j) (compareValues (aget aux j) (aget aux i) j i s).2)
    else
      mergeLoop aux mid hi (i+1) j (k+1)
        (writeH k (aget aux i) (compareValues (aget aux j) (aget aux i) j i s).2)
  else s
termination_by hi + 1 - k

/-- Embedding of `mergeArrays(h, aux, lo, mid, hi)`: emit the `merge` marker,
copy the live segment to `aux`, then merge back. -/
def mergeArrays (lo mid hi : ℕ) (s : HState) (aux : List ℕ) :
    HState × List ℕ :=
  match copyAux hi lo (mergeH lo mid hi s) aux with
  | (s2, aux2) => (mergeLoop aux2 mid hi lo (mid+1) lo s2, aux2)

/-- Embedding of `mergeSortHelper(h, aux, lo, hi)`.  In the source `lo` and
`hi` are JavaScript numbers; the only call with a possibly negative bound is
the top-level `hi = h.length - 1` on an empty array, where the `lo >= hi`
guard exits immediately in both the source and this `ℕ` embedding. -/
def mergeSortHelper (lo hi : ℕ) (s : HState) (aux : List ℕ) :
    HState × List ℕ :=
  if lo ≥ hi then (s, aux)
  else
    match mergeSortHelper lo ((lo + hi) / 2) (rangeH lo hi "divide" s) aux with
    | (s2, aux2) =>
      match mergeSortHelper ((lo + hi) / 2 + 1) hi s2 aux2 with
      | (s3, aux3) => mergeArrays lo ((lo + hi) / 2) hi s3 aux3
termination_by hi - lo
decreasing_by all_goals omega

/-- Embedding of `mergeSort` run to exhaustion. -/
def mergeSort (s : HState) : HState :=
  (mergeSortHelper 0 (lengthH s - 1) s (List.replicate (lengthH s) 0)).1

/-! ### Heap Sort (`heapSort` in `algorithms.ts`) -/

/-- First guarded comparison of `heapify`
(`if (left < heapSize && h.compare(left, largest) > 0) largest = left;` with
`largest = i`), returning the updated `largest` (the comparison only happens
when `left < heapSize`, mirroring the short-circuit `&&`). -/
def siftLeft (heapSize i : ℕ) (s : HState) : ℕ × HState :=
  if 2*i + 1 < heapSize then
    (if (compareH (2*i + 1) i s).1 > 0 then 2*i + 1 else i, (compareH (2*i + 1) i s).2)
  else (i, s)

/-- Second guarded comparison of `heapify`
(`if (right < heapSize && h.compare(right, largest) > 0) largest = right;`),
applied to the result of `siftLeft`. -/
def siftTarget (heapSize i : ℕ) (s : HState) : ℕ × HState :=
  if 2*i + 2 < heapSize then
    (if (compareH (2*i + 2) (siftLeft heapSize i s).1 (siftLeft heapSize i s).2).1 > 0
       then 2*i + 2 else (siftLeft heapSize i s).1,
     (compareH (2*i + 2) (siftLeft heapSize i s).1 (siftLeft heapSize i s).2).2)
  else siftLeft heapSize i s

theorem siftLeft_range (heapSize i : ℕ) (s : HState) :
    (siftLeft heapSize i s).1 = i ∨
      (i < (siftLeft heapSize i s).1 ∧ (siftLeft heapSize i s).1 < heapSize) := by
  unfold siftLeft
  split_ifs <;> simp <;> omega

theorem siftTarget_range (heapSize i : ℕ) (s : HState) :
    (siftTarget heapSize i s).1 = i ∨
      (i < (siftTarget heapSize i s).1 ∧ (siftTarget heapSize i s).1 < heapSize) := by
  have hl := siftLeft_range heapSize i s
  unfold siftTarget
  split_ifs <;> first | omega | (simp only; omega)

/-- Embedding of `heapify(h, heapSize, i)`: select `largest` via the two
guarded comparisons, and when it differs from `i`, swap and sift down
recursively. -/
def heapify (heapSize i : ℕ) (s : HState) : HState :=
  match ht : siftTarget heapSize i s with
  | (largest, s2) =>
    if largest ≠ i then heapify heapSize largest (swapH i largest s2) else s2
termination_by heapSize - i
decreasing_by
  have hr := siftTarget_range heapSize i s
  rw [ht] at hr
  simp only at hr
  omega

/-- Build loop `for (i = Math.floor(n / 2) - 1; i >= 0; i--)` of `heapSort`;
the counter is a JavaScript number that ends at `-1` (and starts there when
`n ≤ 1`), embedded as `ℤ`. -/
def buildHeap (n : ℕ) (i : ℤ) (s : HState) : HState :=
  if 0 ≤ i then buildHeap n (i - 1) (heapify n i.toNat s) else s
termination_by (i + 1).toNat

/-- Extraction loop `for (i = n - 1; i > 0; i--)` of `heapSort`:
`h.swap(0, i)` then `heapify(h, i, 0)`. -/
def extractLoop (i : ℕ) (s : HState) : HState :=
  if 0 < i then extractLoop (i - 1) (heapify i 0 (swapH 0 i s)) else s
termination_by i

/-- Embedding of `heapSort` run to exhaustion. -/
def heapSort (s : HState) : HState :=
  extractLoop (lengthH s - 1) (buildHeap (lengthH s) ((lengthH s : ℤ) / 2 - 1) s)

/-- Embedding of the algorithm registry (`algorithms` in `algorithms.ts`):
an association list from identifier to the algorithm unit run to
exhaustion. -/
def algorithms : List (String × (HState → HState)) :=
  [("Bubble Sort", bubbleSort),
   ("Insertion Sort", insertionSort),
   ("Selection Sort", selectionSort),
   ("Quick Sort", quickSort),
   ("Merge Sort", mergeSort),
   ("Heap Sort", heapSort)]

/-- Key set of the registry. -/
def algorithmKeys : List String := algorithms.map Prod.fst

/-- Running one algorithm unit to exhaustion on an input array, through a
freshly constructed access layer (empty trace), as the scheduler does. -/
def runUnit (f : HState → HState) (l : List ℕ) : HState := f { arr := l, trace := [] }


/-! ### Worker / scheduler model

Embedding of the worker that hosts the engine (the `onmessage` dispatcher,
`runLoop` and `finish` in the same source file as the algorithms).  The
algorithm unit is a suspendable generator; one call of `generator.next()`
runs the unit up to its next `yield`, emitting zero or more events through
the shared `emit` closure and mutating the shared `currentArray`.  A
generator is therefore modelled as the list of its remaining suspension
steps: a step either completes normally (with the events it emits and its
effect on the array) or raises.  An exhausted generator is the empty list
(a JavaScript generator that threw is also exhausted afterwards: every
later `next()` reports `done`).  Timing (`delayMs`, `setTimeout`) is not
modelled beyond whether a continuation timer is armed. -/

/-- One suspension step of an algorithm unit, as observed by the scheduler. -/
inductive GStep where
  | ok (evts : List SortEvent) (tr : List ℕ → List ℕ)
  | raise (msg : String)

/-- Remaining suspension steps of a generator. -/
def Gen : Type := List GStep

/-- Module-level mutable state of the worker (`eventId`, `currentArray`,
`generator`, `isPaused`, `isRunning`, `eventsPerSecond`). -/
structure WState where
  eventId : ℕ
  currentArray : List ℕ
  generator : Option Gen
  isPaused : Bool
  isRunning : Bool
  eventsPerSecond : ℕ

/-- Messages the worker posts back to the host (`self.postMessage`). -/
inductive WorkerMsg where
  | eventMsg (id : ℕ) (e : SortEvent)
  | completeMsg (arr : List ℕ)
  | resetMsg
  | errorMsg (msg : String)
deriving DecidableEq

/-- Result of handling one command (or of one `runLoop` invocation): the new
worker state, the messages posted (in order), an exception that escaped the
handler uncaught (the source has no try/catch anywhere), and whether a
`setTimeout(runLoop, delayMs)` continuation was armed. -/
structure RunOut where
  state : WState
  posted : List WorkerMsg
  thrown : Option String
  timerArmed : Bool

/-- Embedding of the `emit` closure applied to each event of one step:
ids are assigned from the current `eventId` counter in emission order. -/
def emitIds (n : ℕ) : List SortEvent → List WorkerMsg
  | [] => []
  | e :: rest => .eventMsg n e :: emitIds (n+1) rest

/-- Embedding of `finish()`: emit `done` (consuming one event id), clear the
running flag and the generator, and post the final array as a `complete`
message. -/
def finishW (s : WState) (acc : List WorkerMsg) : RunOut :=
  { state := { s with
      eventId := s.eventId + 1
      isRunning := false
      generator := none }
    posted := acc ++ [.eventMsg s.eventId .doneE, .completeMsg s.currentArray]
    thrown := none
    timerArmed := false }

/-- Batch size `eventsPerFrame = Math.max(1, Math.ceil(eventsPerSecond / 60))`
of `runLoop`. -/
def eventsPerFrame (eps : ℕ) : ℕ := max 1 ((eps + 59) / 60)

/-- Body of `runLoop`'s `while (!isPaused && isRunning && count < eventsPerFrame)`
loop; `fuel` is `eventsPerFrame - count`.  A normal step advances the
generator, posts its events and applies its array effect; an exhausted
generator triggers `finish()` (and `runLoop` returns); a raising step lets
the exception escape `runLoop` (there is no handler), with the messages
posted so far already delivered and no timer armed.  When the loop ends
normally the source arms the continuation timer iff
`!isPaused && isRunning`. -/
def drainLoop : ℕ → Gen → WState → List WorkerMsg → RunOut
  | 0, gen, s, acc =>
      { state := { s with generator := some gen }
        posted := acc
        thrown := none
        timerArmed := !s.isPaused && s.isRunning }
  | fuel+1, gen, s, acc =>
      if s.isPaused || !s.isRunning then
        { state := { s with generator := some gen }
          posted := acc
          thrown := none
          timerArmed := false }
      else
        match gen with
        | [] => finishW s acc
        | .raise m :: _ =>
            { state := { s with generator := some ([] : List GStep) }
              posted := acc
              thrown := some m
              timerArmed := false }
        | .ok evts tr :: rest =>
            drainLoop fuel rest
              { s with
                eventId := s.eventId + evts.length
                currentArray := tr s.currentArray }
              (acc ++ emitIds s.eventId evts)

/-- Embedding of `runLoop()`:
`if (!generator || !isRunning || isPaused) return;` then the rate-limited
drain. -/
def runLoopW (s : WState) : RunOut :=
  match s.generator with
  | none => { state := s, posted := [], thrown := none, timerArmed := false }
  | some gen =>
      if s.isPaused || !s.isRunning then
        { state := s, posted := [], thrown := none, timerArmed := false }
      else drainLoop (eventsPerFrame s.eventsPerSecond) gen s []

/-- State mutations performed by the `start` handler before anything else:
`currentArray = [...array]; eventId = 0; isPaused = false; isRunning = true;
eventsPerSecond = speed || 200` (JavaScript `||`: a zero speed falls back to
200). -/
def startState (array : List ℕ) (speed : ℕ) (s : WState) : WState :=
  { s with
    currentArray := array
    eventId := 0
    isPaused := false
    isRunning := true
    eventsPerSecond := if speed = 0 then 200 else speed }

/-- Registry lookup `algorithms[algorithm]` over a generator-level registry
(an association list keyed like the source registry; the generator bodies
are whatever the `start` handler will drive). -/
def lookupG (regG : List (String × (List ℕ → Gen))) (name : String) :
    Option (List ℕ → Gen) :=
  (regG.find? (fun p => p.1 == name)).map Prod.snd

/-- Embedding of the `'start'` command handler.  Note the source's order of
operations: it mutates the run state and emits the `start` event (id 0)
BEFORE looking up the algorithm; on an unknown identifier it posts the error
reply and returns, leaving the stale `generator` field untouched. -/
def handleStart (regG : List (String × (List ℕ → Gen))) (algorithm : String)
    (array : List ℕ) (seed : Option ℕ) (speed : ℕ) (s : WState) : RunOut :=
  match lookupG regG algorithm with
  | none =>
      { state := { startState array speed s with eventId := 1 }
        posted := [.eventMsg 0 (.startE algorithm array.length seed),
                   .errorMsg ("Unknown algorithm: " ++ algorithm)]
        thrown := none
        timerArmed := false }
  | some g =>
      { runLoopW { startState array speed s with eventId := 1, generator := some (g array) }
          with
        posted :=
          .eventMsg 0 (.startE algorithm array.length seed)
            :: (runLoopW { startState array speed s with
                  eventId := 1, generator := some (g array) }).posted }

/-- Embedding of the `'step'` command handler:
`if (generator && isPaused) { const result = generator.next(); if (result.done) finish(); }`.
A raising `next()` escapes uncaught here as well. -/
def handleStep (s : WState) : RunOut :=
  match s.generator with
  | none => { state := s, posted := [], thrown := none, timerArmed := false }
  | some gen =>
      if s.isPaused then
        match gen with
        | ([] : List GStep) => finishW s []
        | .raise m :: _ =>
            { state := { s with generator := some ([] : List GStep) }
              posted := []
              thrown := some m
              timerArmed := false }
        | .ok evts tr :: rest =>
            { state := { s with
                eventId := s.eventId + evts.length
                currentArray := tr s.currentArray
                generator := some rest }
              posted := emitIds s.eventId evts
              thrown := none
              timerArmed := false }
      else { state := s, posted := [], thrown := none, timerArmed := false }

/-- Embedding of the `'pause'` command handler (`isPaused = true`,
unconditionally). -/
def handlePause (s : WState) : RunOut :=
  { state := { s with isPaused := true }, posted := [], thrown := none, timerArmed := false }

/-- Embedding of the `'resume'` command handler:
`isPaused = false; if (isRunning) runLoop();`. -/
def handleResume (s : WState) : RunOut :=
  if s.isRunning then runLoopW { s with isPaused := false }
  else
    { state := { s with isPaused := false }
      posted := []
      thrown := none
      timerArmed := false }

/-- Embedding of the `'reset'` command handler. -/
def handleReset (s : WState) : RunOut :=
  { state := { s with
      generator := none
      isRunning := false
      isPaused := false
      eventId := 0 }
    posted := [.resetMsg]
    thrown := none
    timerArmed := false }

/-- Embedding of the `'setSpeed'` command handler. -/
def handleSetSpeed (rate : ℕ) (s : WState) : RunOut :=
  { state := { s with eventsPerSecond := rate }
    posted := []
    thrown := none
    timerArmed := false }

/-- Inbound command vocabulary of the worker's `onmessage`. -/
inductive Command where
  | startC (algorithm : String) (array : List ℕ) (seed : Option ℕ) (speed : ℕ)
  | stepC
  | pauseC
  | resumeC
  | resetC
  | setSpeedC (rate : ℕ)

/-- Embedding of the `onmessage` dispatcher. -/
def onmessageW (regG : List (String × (List ℕ → Gen))) :
    Command → WState → RunOut
  | .startC algorithm array seed speed, s => handleStart regG algorithm array seed speed s
  | .stepC, s => handleStep s
  | .pauseC, s => handlePause s
  | .resumeC, s => handleResume s
  | .resetC, s => handleReset s
  | .setSpeedC rate, s => handleSetSpeed rate s

/-- Generator-level registry with the same key set as the source registry
(used to exercise the unknown-identifier path of `handleStart`, which never
consults the generator bodies). -/
def trivialGenRegistry : List (String × (List ℕ → Gen)) :=
  algorithms.map (fun p => (p.1, fun _ => ([] : List GStep)))

/-- Membership test of a worker message in the event channel's event stream. -/
def WorkerMsg.isEvent : WorkerMsg → Bool
  | .eventMsg .. => true
  | _ => false


/-- Compare-event test (the `compare` kind of the protocol). -/
def SortEvent.isCompare : SortEvent → Bool
  | .compareE .. => true
  | _ => false

/-- Pivot-event test. -/
def SortEvent.isPivot : SortEvent → Bool
  | .pivotE .. => true
  | _ => false

/-! ### Claim theorems -/

/-- C5: running Quick Sort to exhaustion on `[3,1,2]` (pivot = last element
of the range): the first `pivot` event marks index 2, the first partition
returns final pivot index 1, the final array is the literal `[1,2,3]`, and
exactly 2 `compare` events are emitted over the whole run. -/
theorem C5_quickSort_case :
    (runUnit quickSort [3,1,2]).arr = [1,2,3] ∧
    ((runUnit quickSort [3,1,2]).trace.find? SortEvent.isPivot) = some (.pivotE 2) ∧
    (partitionQ 0 2 (partitionH 0 2 { arr := [3,1,2], trace := [] })).1 = 1 ∧
    ((runUnit quickSort [3,1,2]).trace.filter SortEvent.isCompare).length = 2 := by
  refine ⟨?_, ?_, ?_, ?_⟩ <;>
    simp [runUnit, quickSort, quickSortHelper, partitionQ, partitionLoop, partitionH,
      pivotH, swapH, compareH, cmpInt, aget, aswap, aset, lengthH,
      SortEvent.isCompare, SortEvent.isPivot]

/-- C8: `compareValues(v1, v2, i1, i2)` returns -1, 0 or 1 according as `v1`
is less than, equal to or greater than `v2`, leaves the array untouched, and
emits exactly one event of the identical `compare` kind that `compare`
emits, carrying indices `i1`, `i2` and the result. -/
theorem C8_compareValues_contract (v1 v2 i1 i2 : ℕ) (s : HState) :
    ((compareValues v1 v2 i1 i2 s).1 = -1 ↔ v1 < v2) ∧
    ((compareValues v1 v2 i1 i2 s).1 = 0 ↔ v1 = v2) ∧
    ((compareValues v1 v2 i1 i2 s).1 = 1 ↔ v2 < v1) ∧
    (compareValues v1 v2 i1 i2 s).2.arr = s.arr ∧
    (compareValues v1 v2 i1 i2 s).2.trace
      = s.trace ++ [SortEvent.compareE i1 i2 (compareValues v1 v2 i1 i2 s).1] ∧
    (((compareValues v1 v2 i1 i2 s).2.trace.drop s.trace.length).map SortEvent.etype
      = [EventType.compare]) ∧
    (∀ (a b : ℕ) (t : HState),
      ((compareH a b t).2.trace.drop t.trace.length).map SortEvent.etype
        = [EventType.compare]) := by
  refine ⟨?_, ?_, ?_, rfl, rfl, ?_, ?_⟩
  · simp only [compareValues_fst, cmpInt]
    split_ifs <;> constructor <;> intro h <;> first | omega | exact h.elim
  · simp only [compareValues_fst, cmpInt]
    split_ifs <;> constructor <;> intro h <;> first | omega | exact h.elim
  · simp only [compareValues_fst, cmpInt]
    split_ifs <;> constructor <;> intro h <;> first | omega | exact h.elim
  · simp [compareValues, SortEvent.etype]
  · intro a b t
    simp [compareH, SortEvent.etype]

/-- C10: every access-layer operation other than `swap` and `write` —
`compare`, `compareValues`, `read`, `pivot`, `partition`, `range`, `merge`,
`checkpoint` and reading `length` — leaves the contents of the working array
unchanged. -/
theorem C10_non_structural_ops_frame (s : HState) (i j v1 v2 lo mid hi : ℕ)
    (label : String) :
    (compareH i j s).2.arr = s.arr ∧
    (compareValues v1 v2 i j s).2.arr = s.arr ∧
    (readH i s).2.arr = s.arr ∧
    (pivotH i s).arr = s.arr ∧
    (partitionH lo hi s).arr = s.arr ∧
    (rangeH lo hi label s).arr = s.arr ∧
    (mergeH lo mid hi s).arr = s.arr ∧
    (checkpointH label s).arr = s.arr ∧
    lengthH s = s.arr.length :=
  ⟨rfl, rfl, rfl, rfl, rfl, rfl, rfl, rfl, rfl⟩


/-- C6 (counterexample): starting with an identifier that is not a key of the
registry, from an idle worker with a stale event counter, the engine DOES
emit a `start` event (id 0) before the error reply, and DOES change run
state (`isRunning` becomes true, the event counter is reset and advanced,
the working array is replaced) — contradicting the claim that an unknown
identifier leaves state unchanged and emits no events. -/
theorem C6_unknown_algorithm_cex :
    (handleStart trivialGenRegistry "Bogo Sort" [3,1] none 100
        { eventId := 5, currentArray := [], generator := none, isPaused := false,
          isRunning := false, eventsPerSecond := 200 }).posted
      = [.eventMsg 0 (.startE "Bogo Sort" 2 none),
         .errorMsg "Unknown algorithm: Bogo Sort"] ∧
    (handleStart trivialGenRegistry "Bogo Sort" [3,1] none 100
        { eventId := 5, currentArray := [], generator := none, isPaused := false,
          isRunning := false, eventsPerSecond := 200 }).state.isRunning = true ∧
    (handleStart trivialGenRegistry "Bogo Sort" [3,1] none 100
        { eventId := 5, currentArray := [], generator := none, isPaused := false,
          isRunning := false, eventsPerSecond := 200 }).state.eventId = 1 ∧
    (handleStart trivialGenRegistry "Bogo Sort" [3,1] none 100
        { eventId := 5, currentArray := [], generator := none, isPaused := false,
          isRunning := false, eventsPerSecond := 200 }).state.currentArray = [3,1] ∧
    ((handleStart trivialGenRegistry "Bogo Sort" [3,1] none 100
        { eventId := 5, currentArray := [], generator := none, isPaused := false,
          isRunning := false, eventsPerSecond := 200 }).posted.filter WorkerMsg.isEvent
      ≠ []) ∧
    "Bogo Sort" ∉ algorithmKeys := by
  refine ⟨rfl, rfl, rfl, rfl, ?_, ?_⟩
  · intro h
    simp [handleStart, lookupG, trivialGenRegistry, algorithms, WorkerMsg.isEvent] at h
  · intro h
    simp [algorithmKeys, algorithms] at h

/-- C6 (amended): for every start command whose algorithm identifier is not a
key of the registry, the engine posts the error reply, but only after it has
already copied the input array, reset and advanced the event counter, set
the running flags, and emitted the `start` event (id 0); the stale generator
is left in place and no further events are emitted after the error reply. -/
theorem C6_unknown_algorithm_amended (regG : List (String × (List ℕ → Gen)))
    (algorithm : String) (array : List ℕ) (seed : Option ℕ) (speed : ℕ)
    (s : WState) (h : lookupG regG algorithm = none) :
    handleStart regG algorithm array seed speed s =
      { state := { s with
          currentArray := array
          eventId := 1
          isPaused := false
          isRunning := true
          eventsPerSecond := if speed = 0 then 200 else speed }
        posted := [.eventMsg 0 (.startE algorithm array.length seed),
                   .errorMsg ("Unknown algorithm: " ++ algorithm)]
        thrown := none
        timerArmed := false } := by
  unfold handleStart
  rw [h]
  rfl

/-- C6 (witness): the amended behaviour at the concrete unknown identifier
"Bogo Sort". -/
theorem C6_unknown_algorithm_amended_witness :
    handleStart trivialGenRegistry "Bogo Sort" [3,1] none 100
      { eventId := 5, currentArray := [], generator := none, isPaused := false,
        isRunning := false, eventsPerSecond := 200 } =
    { state :=
        { eventId := 1
          currentArray := [3,1]
          generator := none
          isPaused := false
          isRunning := true
          eventsPerSecond := 100 }
      posted := [.eventMsg 0 (.startE "Bogo Sort" 2 none),
                 .errorMsg ("Unknown algorithm: " ++ "Bogo Sort")]
      thrown := none
      timerArmed := false } :=
  C6_unknown_algorithm_amended trivialGenRegistry "Bogo Sort" [3,1] none 100
    { eventId := 5, currentArray := [], generator := none, isPaused := false,
      isRunning := false, eventsPerSecond := 200 } rfl

/-- C7 (counterexample): with a running worker whose unit raises on its next
suspension step, one `runLoop` invocation lets the exception escape uncaught
(`thrown` is set), posts NO message on the error channel, and leaves the
engine `running` with the dead unit — contradicting the claim that the
scheduler catches the fault, reports it and forces a transition to idle. -/
theorem C7_fault_cex :
    (runLoopW
        { eventId := 7
          currentArray := [2,1]
          generator := some [GStep.raise "boom"]
          isPaused := false
          isRunning := true
          eventsPerSecond := 60 }).thrown = some "boom" ∧
    (runLoopW
        { eventId := 7
          currentArray := [2,1]
          generator := some [GStep.raise "boom"]
          isPaused := false
          isRunning := true
          eventsPerSecond := 60 }).posted = [] ∧
    (runLoopW
        { eventId := 7
          currentArray := [2,1]
          generator := some [GStep.raise "boom"]
          isPaused := false
          isRunning := true
          eventsPerSecond := 60 }).state.isRunning = true :=
  ⟨rfl, rfl, rfl⟩

/-- C7 (amended): an exception raised by the algorithm unit while being
drained is NOT caught at the scheduler boundary: both in `runLoop` and in
the `step` handler it escapes the worker uncaught, nothing is posted on the
error channel by the faulting invocation (beyond events already posted by
earlier steps of the same batch), the running/paused flags are left exactly
as they were (the engine stays `running` with a dead unit in the `runLoop`
case), and no continuation timer is armed. -/
theorem C7_fault_escapes_amended :
    (∀ (s : WState) (msg : String) (rest : List GStep),
      s.generator = some (GStep.raise msg :: rest) →
      s.isRunning = true → s.isPaused = false →
      runLoopW s =
        { state := { s with generator := some ([] : List GStep) }
          posted := []
          thrown := some msg
          timerArmed := false }) ∧
    (∀ (s : WState) (msg : String) (rest : List GStep),
      s.generator = some (GStep.raise msg :: rest) →
      s.isPaused = true →
      handleStep s =
        { state := { s with generator := some ([] : List GStep) }
          posted := []
          thrown := some msg
          timerArmed := false }) := by
  constructor
  · intro s msg rest hgen hrun hpause
    unfold runLoopW
    rw [hgen]
    simp only [hrun, hpause]
    have h1 : eventsPerFrame s.eventsPerSecond
        = (eventsPerFrame s.eventsPerSecond - 1) + 1 := by
      unfold eventsPerFrame
      omega
    rw [h1]
    unfold drainLoop
    simp [hrun, hpause]
  · intro s msg rest hgen hpause
    unfold handleStep
    rw [hgen]
    simp [hpause]

/-- C9 (counterexample): a `resume` received while the engine is running (not
paused) is NOT a silent no-op: it immediately re-enters the run loop,
drains a batch (here one step), posts that step's event and advances the
unit — contradicting the claim that `resume` outside `paused` emits no
events and does not advance the unit. -/
theorem C9_resume_running_cex :
    (handleResume
        { eventId := 7
          currentArray := [5,6]
          generator := some [GStep.ok [.compareE 0 1 (-1)] id]
          isPaused := false
          isRunning := true
          eventsPerSecond := 60 }).posted
      = [.eventMsg 7 (.compareE 0 1 (-1))] ∧
    (handleResume
        { eventId := 7
          currentArray := [5,6]
          generator := some [GStep.ok [.compareE 0 1 (-1)] id]
          isPaused := false
          isRunning := true
          eventsPerSecond := 60 }).state.generator
      = some ([] : List GStep) ∧
    (handleResume
        { eventId := 7
          currentArray := [5,6]
          generator := some [GStep.ok [.compareE 0 1 (-1)] id]
          isPaused := false
          isRunning := true
          eventsPerSecond := 60 }).state.eventId = 8 :=
  ⟨rfl, rfl, rfl⟩

/-- C9 (amended): a `resume` received while the engine is idle or complete
(`isRunning` false, `isPaused` false) is an exact no-op — state unchanged,
unit untouched, nothing posted; but a `resume` received while running
re-invokes the run loop (which drains up to a batch of suspension points,
possibly emitting events and advancing the unit) rather than being a
no-op. -/
theorem C9_resume_amended :
    (∀ s : WState, s.isRunning = false → s.isPaused = false →
      handleResume s =
        { state := s, posted := [], thrown := none, timerArmed := false }) ∧
    (∀ s : WState, s.isRunning = true →
      handleResume s = runLoopW { s with isPaused := false }) := by
  constructor
  · intro s hrun hpause
    cases s
    simp only at hrun hpause
    subst hrun
    subst hpause
    unfold handleResume
    simp
  · intro s hrun
    unfold handleResume
    rw [hrun]
    simp


/-! ### Pure views of the algorithm units

Each algorithm's effect on the working array factors through a trace-free
function on plain lists (the emitted events never feed back into control
flow, and every branch condition is a function of the array alone).  The
`p`-prefixed definitions below are those pure views; the equivalence
theorems following them prove, for each instrumented unit, that the array it
leaves behind is the pure view of its input array.  All order-theoretic
reasoning (sortedness, permutation, stability) is then carried out on the
pure views. -/

theorem cmpInt_pos_iff (a b : ℕ) : cmpInt a b > 0 ↔ b < a := by
  unfold cmpInt
  split_ifs <;> constructor <;> intro h <;> omega

theorem cmpInt_neg_iff (a b : ℕ) : cmpInt a b < 0 ↔ a < b := by
  unfold cmpInt
  split_ifs <;> constructor <;> intro h <;> omega

theorem cmpInt_nonneg_iff (a b : ℕ) : cmpInt a b ≥ 0 ↔ b ≤ a := by
  unfold cmpInt
  split_ifs <;> constructor <;> intro h <;> omega

/-- Pure view of `bubbleInner`. -/
def pbubbleInner (n i j : ℕ) (a : List ℕ) : List ℕ :=
  if j < n - i - 1 then
    pbubbleInner n i (j+1)
      (if cmpInt (aget a j) (aget a (j+1)) > 0 then aswap a j (j+1) else a)
  else a
termination_by n - i - 1 - j

/-- Pure view of `bubbleOuter`. -/
def pbubbleOuter (n i : ℕ) (a : List ℕ) : List ℕ :=
  if i < n - 1 then pbubbleOuter n (i+1) (pbubbleInner n i 0 a) else a
termination_by n - 1 - i

/-- Pure view of `bubbleSort`. -/
def pbubbleSort (a : List ℕ) : List ℕ := pbubbleOuter a.length 0 a

/-- Pure view of `insFind` (the scan emits comparisons but never writes, so
only the returned index matters). -/
def pinsFind (i : ℕ) (j : ℤ) (a : List ℕ) : ℤ :=
  if 0 ≤ j then
    if cmpInt (aget a j.toNat) (aget a i) > 0 then pinsFind i (j - 1) a else j
  else j
termination_by (j + 1).toNat

/-- Pure view of `insShift`. -/
def pinsShift (stop k : ℕ) (a : List ℕ) : List ℕ :=
  if stop < k then pinsShift stop (k - 1) (aset a k (aget a (k - 1))) else a
termination_by k - stop

/-- Pure view of one `insOuter` iteration tail (`insPlace`). -/
def pinsPlace (i : ℕ) (j : ℤ) (a : List ℕ) : List ℕ :=
  aset (pinsShift (j + 1).toNat i a) (j + 1).toNat (aget a i)

/-- Pure view of `insOuter`. -/
def pinsOuter (n i : ℕ) (a : List ℕ) : List ℕ :=
  if i < n then pinsOuter n (i+1) (pinsPlace i (pinsFind i ((i : ℤ) - 1) a) a) else a
termination_by n - i

/-- Pure view of `insertionSort`. -/
def pinsertionSort (a : List ℕ) : List ℕ := pinsOuter a.length 1 a

/-- Pure view of `selInner` (comparison-only: returns the final `minIdx`). -/
def pselInner (n j minIdx : ℕ) (a : List ℕ) : ℕ :=
  if j < n then
    pselInner n (j+1) (if cmpInt (aget a j) (aget a minIdx) < 0 then j else minIdx) a
  else minIdx
termination_by n - j

/-- Pure view of `selOuter`. -/
def pselOuter (n i : ℕ) (a : List ℕ) : List ℕ :=
  if i < n - 1 then
    pselOuter n (i+1)
      (if pselInner n (i+1) i a ≠ i then aswap a i (pselInner n (i+1) i a) else a)
  else a
termination_by n - 1 - i

/-- Pure view of `selectionSort`. -/
def pselectionSort (a : List ℕ) : List ℕ := pselOuter a.length 0 a

/-- Pure view of `partitionLoop`. -/
def ppartitionLoop (high : ℕ) (i : ℤ) (j : ℕ) (a : List ℕ) : ℤ × List ℕ :=
  if j < high then
    if cmpInt (aget a j) (aget a high) < 0 then
      ppartitionLoop high (i + 1) (j+1) (aswap a (i + 1).toNat j)
    else ppartitionLoop high i (j+1) a
  else (i, a)
termination_by high - j

/-- Pure view of `partitionQ`. -/
def ppartitionQ (low high : ℕ) (a : List ℕ) : ℕ × List ℕ :=
  (((ppartitionLoop high ((low : ℤ) - 1) low a).1 + 1).toNat,
   aswap (ppartitionLoop high ((low : ℤ) - 1) low a).2
     ((ppartitionLoop high ((low : ℤ) - 1) low a).1 + 1).toNat high)

theorem ppartitionLoop_i_ge (high : ℕ) (i : ℤ) (j : ℕ) (a : List ℕ) :
    i ≤ (ppartitionLoop high i j a).1 := by
  induction i, j, a using ppartitionLoop.induct high with
  | case1 i j a hj hc ih =>
    rw [ppartitionLoop]
    rw [if_pos hj, if_pos hc]
    omega
  | case2 i j a hj hc ih =>
    rw [ppartitionLoop]
    rw [if_pos hj, if_neg hc]
    exact ih
  | case3 i j a hj =>
    rw [ppartitionLoop]
    rw [if_neg hj]

theorem ppartitionLoop_i_lt (high : ℕ) (i : ℤ) (j : ℕ) (a : List ℕ)
    (hij : i < j) (hjh : j ≤ high) : (ppartitionLoop high i j a).1 < high := by
  induction i, j, a using ppartitionLoop.induct high with
  | case1 i j a hj hc ih =>
    rw [ppartitionLoop]
    rw [if_pos hj, if_pos hc]
    exact ih (by omega) (by omega)
  | case2 i j a hj hc ih =>
    rw [ppartitionLoop]
    rw [if_pos hj, if_neg hc]
    exact ih (by omega) (by omega)
  | case3 i j a hj =>
    rw [ppartitionLoop]
    rw [if_neg hj]
    simp only
    omega

theorem ppartitionQ_bounds (low high : ℕ) (a : List ℕ) (h : low < high) :
    low ≤ (ppartitionQ low high a).1 ∧ (ppartitionQ low high a).1 ≤ high := by
  unfold ppartitionQ
  have h1 := ppartitionLoop_i_ge high ((low : ℤ) - 1) low a
  have h2 := ppartitionLoop_i_lt high ((low : ℤ) - 1) low a (by omega) (by omega)
  constructor <;> simp only <;> omega

/-- Pure view of `quickSortHelper`. -/
def pquickSortHelper (low : ℕ) (high : ℤ) (a : List ℕ) : List ℕ :=
  if hlh : (low : ℤ) < high then
    pquickSortHelper ((ppartitionQ low high.toNat a).1 + 1) high
      (pquickSortHelper low (((ppartitionQ low high.toNat a).1 : ℤ) - 1)
        (ppartitionQ low high.toNat a).2)
  else a
termination_by (high - low + 1).toNat
decreasing_by
  · have hb := ppartitionQ_bounds low high.toNat a (by omega)
    omega
  · have hb := ppartitionQ_bounds low high.toNat a (by omega)
    omega

/-- Pure view of `quickSort`. -/
def pquickSort (a : List ℕ) : List ℕ := pquickSortHelper 0 ((a.length : ℤ) - 1) a

/-- Pure view of `copyAux` (reads only: returns the updated `aux`). -/
def pcopyAux (hi k : ℕ) (a aux : List ℕ) : List ℕ :=
  if k ≤ hi then pcopyAux hi (k+1) a (aset aux k (aget a k)) else aux
termination_by hi + 1 - k

/-- Pure view of `mergeLoop`. -/
def pmergeLoop (aux : List ℕ) (mid hi i j k : ℕ) (a : List ℕ) : List ℕ :=
  if k ≤ hi then
    if i > mid then
      pmergeLoop aux mid hi i (j+1) (k+1) (aset a k (aget aux j))
    else if j > hi then
      pmergeLoop aux mid hi (i+1) j (k+1) (aset a k (aget aux i))
    else if cmpInt (aget aux j) (aget aux i) ≥ 0 then
      pmergeLoop aux mid hi (i+1) j (k+1) (aset a k (aget aux i))
    else if aget aux j < aget aux i then
      pmergeLoop aux mid hi i (j+1) (k+1) (aset a k (aget aux j))
    else
      pmergeLoop aux mid hi (i+1) j (k+1) (aset a k (aget aux i))
  else a
termination_by hi + 1 - k

/-- Pure view of `mergeArrays`. -/
def pmergeArrays (lo mid hi : ℕ) (a aux : List ℕ) : List ℕ × List ℕ :=
  (pmergeLoop (pcopyAux hi lo a aux) mid hi lo (mid+1) lo a, pcopyAux hi lo a aux)

/-- Pure view of `mergeSortHelper`. -/
def pmergeSortHelper (lo hi : ℕ) (a aux : List ℕ) : List ℕ × List ℕ :=
  if lo ≥ hi then (a, aux)
  else
    match pmergeSortHelper lo ((lo + hi) / 2) a aux with
    | (a2, aux2) =>
      match pmergeSortHelper ((lo + hi) / 2 + 1) hi a2 aux2 with
      | (a3, aux3) => pmergeArrays lo ((lo + hi) / 2) hi a3 aux3
termination_by hi - lo
decreasing_by all_goals omega

/-- Pure view of `mergeSort`. -/
def pmergeSort (a : List ℕ) : List ℕ :=
  (pmergeSortHelper 0 (a.length - 1) a (List.replicate a.length 0)).1

/-- Pure view of `siftLeft`. -/
def psiftLeft (heapSize i : ℕ) (a : List ℕ) : ℕ :=
  if 2*i + 1 < heapSize then
    if cmpInt (aget a (2*i + 1)) (aget a i) > 0 then 2*i + 1 else i
  else i

/-- Pure view of `siftTarget`. -/
def psiftTarget (heapSize i : ℕ) (a : List ℕ) : ℕ :=
  if 2*i + 2 < heapSize then
    if cmpInt (aget a (2*i + 2)) (aget a (psiftLeft heapSize i a)) > 0 then 2*i + 2
    else psiftLeft heapSize i a
  else psiftLeft heapSize i a

theorem psiftLeft_range (heapSize i : ℕ) (a : List ℕ) :
    psiftLeft heapSize i a = i ∨
      (i < psiftLeft heapSize i a ∧ psiftLeft heapSize i a < heapSize) := by
  unfold psiftLeft
  split_ifs <;> omega

theorem psiftTarget_range (heapSize i : ℕ) (a : List ℕ) :
    psiftTarget heapSize i a = i ∨
      (i < psiftTarget heapSize i a ∧ psiftTarget heapSize i a < heapSize) := by
  have hl := psiftLeft_range heapSize i a
  unfold psiftTarget
  split_ifs <;> first | omega | (simp only; omega)

/-- Pure view of `heapify`. -/
def pheapify (heapSize i : ℕ) (a : List ℕ) : List ℕ :=
  if psiftTarget heapSize i a ≠ i then
    pheapify heapSize (psiftTarget heapSize i a) (aswap a i (psiftTarget heapSize i a))
  else a
termination_by heapSize - i
decreasing_by
  have hr := psiftTarget_range heapSize i a
  omega

/-- Pure view of `buildHeap`. -/
def pbuildHeap (n : ℕ) (i : ℤ) (a : List ℕ) : List ℕ :=
  if 0 ≤ i then pbuildHeap n (i - 1) (pheapify n i.toNat a) else a
termination_by (i + 1).toNat

/-- Pure view of `extractLoop`. -/
def pextractLoop (i : ℕ) (a : List ℕ) : List ℕ :=
  if 0 < i then pextractLoop (i - 1) (pheapify i 0 (aswap a 0 i)) else a
termination_by i

/-- Pure view of `heapSort`. -/
def pheapSort (a : List ℕ) : List ℕ :=
  pextractLoop (a.length - 1) (pbuildHeap a.length ((a.length : ℤ) / 2 - 1) a)


/-! ### Equivalence of the instrumented units with their pure views -/

theorem bubbleInner_arr (n i j : ℕ) (s : HState) :
    (bubbleInner n i j s).arr = pbubbleInner n i j s.arr := by
  induction j, s using bubbleInner.induct n i with
  | case1 j s hj ih =>
    rw [bubbleInner, pbubbleInner, if_pos hj, if_pos hj]
    simp only [dite_eq_ite] at ih
    rw [ih]
    congr 1
    rw [apply_ite HState.arr]
    simp [swapH_arr, compareH_arr, compareH_snd, compareH_fst]
  | case2 j s hj =>
    rw [bubbleInner, pbubbleInner, if_neg hj, if_neg hj]

theorem bubbleOuter_arr (n i : ℕ) (s : HState) :
    (bubbleOuter n i s).arr = pbubbleOuter n i s.arr := by
  induction i, s using bubbleOuter.induct n with
  | case1 i s hi ih =>
    rw [bubbleOuter, pbubbleOuter, if_pos hi, if_pos hi, ih, bubbleInner_arr]
    congr 1
  | case2 i s hi =>
    rw [bubbleOuter, pbubbleOuter, if_neg hi, if_neg hi]

theorem bubbleSort_arr (s : HState) : (bubbleSort s).arr = pbubbleSort s.arr := by
  rw [bubbleSort, pbubbleSort, bubbleOuter_arr, lengthH]

theorem insFind_arr (i : ℕ) (j : ℤ) (s : HState) :
    (insFind i j s).2.arr = s.arr ∧ (insFind i j s).1 = pinsFind i j s.arr := by
  induction j, s using insFind.induct i with
  | case1 j s hj hc ih =>
    rw [insFind, pinsFind, if_pos hj, if_pos hj]
    simp only [compareH_fst, dite_eq_ite] at hc ih ⊢
    rw [if_pos hc, if_pos hc]
    simpa [compareH_snd] using ih
  | case2 j s hj hc =>
    rw [insFind, pinsFind, if_pos hj, if_pos hj]
    simp only [compareH_fst, dite_eq_ite] at hc ⊢
    rw [if_neg hc, if_neg hc]
    exact ⟨rfl, rfl⟩
  | case3 j s hj =>
    rw [insFind, pinsFind, if_neg hj, if_neg hj]
    exact ⟨rfl, rfl⟩

theorem insShift_arr (stop k : ℕ) (s : HState) :
    (insShift stop k s).arr = pinsShift stop k s.arr := by
  induction k, s using insShift.induct stop with
  | case1 k s hk ih =>
    rw [insShift, pinsShift, if_pos hk, if_pos hk, ih]
    congr 1
  | case2 k s hk =>
    rw [insShift, pinsShift, if_neg hk, if_neg hk]

theorem insPlace_arr (i : ℕ) (f : ℤ × HState) :
    (insPlace i f).arr = pinsPlace i f.1 f.2.arr := by
  rw [insPlace, pinsPlace, writeH_arr, insShift_arr]
  rw [readH_fst, readH_arr]

theorem insOuter_arr (n i : ℕ) (s : HState) :
    (insOuter n i s).arr = pinsOuter n i s.arr := by
  induction i, s using insOuter.induct n with
  | case1 i s hi ih =>
    rw [insOuter, pinsOuter, if_pos hi, if_pos hi, ih, insPlace_arr]
    have hf := insFind_arr i ((i : ℤ) - 1) (readH i (rangeH 0 i "sorted" s)).2
    rw [hf.1, hf.2]
    congr 1
  | case2 i s hi =>
    rw [insOuter, pinsOuter, if_neg hi, if_neg hi]

theorem insertionSort_arr (s : HState) :
    (insertionSort s).arr = pinsertionSort s.arr := by
  rw [insertionSort, pinsertionSort, insOuter_arr, lengthH]

theorem selInner_spec (n j minIdx : ℕ) (s : HState) :
    (selInner n j minIdx s).2.arr = s.arr ∧
      (selInner n j minIdx s).1 = pselInner n j minIdx s.arr := by
  induction j, minIdx, s using selInner.induct n with
  | case1 j minIdx s hj ih =>
    rw [selInner, pselInner, if_pos hj, if_pos hj]
    simpa [compareH_snd, compareH_fst] using ih
  | case2 j minIdx s hj =>
    rw [selInner, pselInner, if_neg hj, if_neg hj]
    exact ⟨rfl, rfl⟩

theorem selOuter_arr (n i : ℕ) (s : HState) :
    (selOuter n i s).arr = pselOuter n i s.arr := by
  induction i, s using selOuter.induct n with
  | case1 i s hi ih =>
    rw [selOuter, pselOuter, if_pos hi, if_pos hi, ih]
    congr 1
    have hm := selInner_spec n (i+1) i (rangeH i (n - 1) "unsorted" s)
    rw [selSwap, apply_ite HState.arr]
    rw [hm.1, hm.2]
    simp only [rangeH_arr]
    split_ifs <;> simp [swapH_arr, hm.1, hm.2, rangeH_arr]
  | case2 i s hi =>
    rw [selOuter, pselOuter, if_neg hi, if_neg hi]

theorem selectionSort_arr (s : HState) :
    (selectionSort s).arr = pselectionSort s.arr := by
  rw [selectionSort, pselectionSort, selOuter_arr, lengthH]


theorem partitionLoop_spec (high : ℕ) (i : ℤ) (j : ℕ) (s : HState) :
    (partitionLoop high i j s).1 = (ppartitionLoop high i j s.arr).1 ∧
      (partitionLoop high i j s).2.arr = (ppartitionLoop high i j s.arr).2 := by
  induction i, j, s using partitionLoop.induct high with
  | case1 i j s hj hc ih =>
    rw [partitionLoop, ppartitionLoop, if_pos hj, if_pos hj]
    simp only [compareH_fst, dite_eq_ite] at hc ih ⊢
    rw [if_pos hc, if_pos hc]
    simpa [swapH_arr, compareH_snd, compareH_arr] using ih
  | case2 i j s hj hc ih =>
    rw [partitionLoop, ppartitionLoop, if_pos hj, if_pos hj]
    simp only [compareH_fst, dite_eq_ite] at hc ih ⊢
    rw [if_neg hc, if_neg hc]
    simpa [compareH_snd, compareH_arr] using ih
  | case3 i j s hj =>
    rw [partitionLoop, ppartitionLoop, if_neg hj, if_neg hj]
    exact ⟨rfl, rfl⟩

theorem partitionQ_spec (low high : ℕ) (s : HState) :
    (partitionQ low high s).1 = (ppartitionQ low high s.arr).1 ∧
      (partitionQ low high s).2.arr = (ppartitionQ low high s.arr).2 := by
  have hp := partitionLoop_spec high ((low : ℤ) - 1) low (pivotH high s)
  rw [pivotH_arr] at hp
  unfold partitionQ ppartitionQ
  rw [swapH_arr, hp.1, hp.2]
  exact ⟨rfl, rfl⟩

theorem quickSortHelper_arr (low : ℕ) (high : ℤ) (s : HState) :
    (quickSortHelper low high s).arr = pquickSortHelper low high s.arr := by
  induction low, high, s using quickSortHelper.induct with
  | case1 low high s hlh ih1 ih2 =>
    rw [quickSortHelper, pquickSortHelper, dif_pos hlh, dif_pos hlh]
    have hp := partitionQ_spec low high.toNat (partitionH low high.toNat s)
    rw [partitionH_arr] at hp
    rw [ih2, ih1, hp.1, hp.2]
  | case2 low high s hlh =>
    rw [quickSortHelper, pquickSortHelper, dif_neg hlh, dif_neg hlh]

theorem quickSort_arr (s : HState) : (quickSort s).arr = pquickSort s.arr := by
  rw [quickSort, pquickSort, quickSortHelper_arr, lengthH]


theorem copyAux_spec (hi k : ℕ) (s : HState) (aux : List ℕ) :
    (copyAux hi k s aux).1.arr = s.arr ∧
      (copyAux hi k s aux).2 = pcopyAux hi k s.arr aux := by
  induction k, s, aux using copyAux.induct hi with
  | case1 k s aux hk ih =>
    rw [copyAux, pcopyAux, if_pos hk, if_pos hk]
    simpa [readH_arr, readH_fst] using ih
  | case2 k s aux hk =>
    rw [copyAux, pcopyAux, if_neg hk, if_neg hk]
    exact ⟨rfl, rfl⟩

theorem mergeLoop_arr (aux : List ℕ) (mid hi i j k : ℕ) (s : HState) :
    (mergeLoop aux mid hi i j k s).arr = pmergeLoop aux mid hi i j k s.arr := by
  induction i, j, k, s using mergeLoop.induct aux mid hi with
  | case1 i j k s hk hi2 ih =>
    rw [mergeLoop, pmergeLoop, if_pos hk, if_pos hk, if_pos hi2, if_pos hi2, ih]
    congr 1
  | case2 i j k s hk hi2 hj2 ih =>
    rw [mergeLoop, pmergeLoop, if_pos hk, if_pos hk, if_neg hi2, if_neg hi2,
      if_pos hj2, if_pos hj2, ih]
    congr 1
  | case3 i j k s hk hi2 hj2 hc ih =>
    rw [mergeLoop, pmergeLoop, if_pos hk, if_pos hk, if_neg hi2, if_neg hi2,
      if_neg hj2, if_neg hj2]
    simp only [compareValues_fst, dite_eq_ite] at hc ih ⊢
    rw [if_pos hc, if_pos hc, ih]
    congr 1
  | case4 i j k s hk hi2 hj2 hc hlt ih =>
    rw [mergeLoop, pmergeLoop, if_pos hk, if_pos hk, if_neg hi2, if_neg hi2,
      if_neg hj2, if_neg hj2]
    simp only [compareValues_fst, dite_eq_ite] at hc ih ⊢
    rw [if_neg hc, if_neg hc, if_pos hlt, if_pos hlt, ih]
    congr 1
  | case5 i j k s hk hi2 hj2 hc hlt ih =>
    rw [mergeLoop, pmergeLoop, if_pos hk, if_pos hk, if_neg hi2, if_neg hi2,
      if_neg hj2, if_neg hj2]
    simp only [compareValues_fst, dite_eq_ite] at hc ih ⊢
    rw [if_neg hc, if_neg hc, if_neg hlt, if_neg hlt, ih]
    congr 1
  | case6 i j k s hk =>
    rw [mergeLoop, pmergeLoop, if_neg hk, if_neg hk]

theorem mergeArrays_spec (lo mid hi : ℕ) (s : HState) (aux : List ℕ) :
    (mergeArrays lo mid hi s aux).1.arr = (pmergeArrays lo mid hi s.arr aux).1 ∧
      (mergeArrays lo mid hi s aux).2 = (pmergeArrays lo mid hi s.arr aux).2 := by
  have hc := copyAux_spec hi lo (mergeH lo mid hi s) aux
  rw [mergeH_arr] at hc
  unfold mergeArrays pmergeArrays
  rw [show copyAux hi lo (mergeH lo mid hi s) aux
      = ((copyAux hi lo (mergeH lo mid hi s) aux).1,
         (copyAux hi lo (mergeH lo mid hi s) aux).2) from rfl]
  simp only
  rw [mergeLoop_arr, hc.1, hc.2]
  exact ⟨rfl, rfl⟩

theorem mergeSortHelper_spec (lo hi : ℕ) (s : HState) (aux : List ℕ) :
    (mergeSortHelper lo hi s aux).1.arr = (pmergeSortHelper lo hi s.arr aux).1 ∧
      (mergeSortHelper lo hi s aux).2 = (pmergeSortHelper lo hi s.arr aux).2 := by
  induction lo, hi, s, aux using mergeSortHelper.induct with
  | case1 lo hi s aux hlh =>
    rw [mergeSortHelper, pmergeSortHelper, if_pos hlh, if_pos hlh]
    exact ⟨rfl, rfl⟩
  | case2 lo hi s aux hlh a2 aux2 heq2 a3 aux3 heq3 ih1 ih2 =>
    obtain ⟨ih1a, ih1b⟩ := ih1
    obtain ⟨ih2a, ih2b⟩ := ih2
    rw [heq2] at ih1a ih1b
    rw [heq3] at ih2a ih2b
    simp only [rangeH_arr] at ih1a ih1b
    have hpure2 : pmergeSortHelper lo ((lo + hi) / 2) s.arr aux = (a2.arr, aux2) := by
      rw [ih1a, ih1b]
    dsimp only at ih2a ih2b
    have hpure3 : pmergeSortHelper ((lo + hi) / 2 + 1) hi a2.arr aux2 = (a3.arr, aux3) := by
      rw [ih2a, ih2b]
    rw [mergeSortHelper, pmergeSortHelper, if_neg hlh, if_neg hlh]
    rw [heq2]
    simp only
    rw [heq3, hpure2]
    simp only
    rw [hpure3]
    simp only
    exact mergeArrays_spec lo ((lo + hi) / 2) hi a3 aux3

theorem mergeSort_arr (s : HState) : (mergeSort s).arr = pmergeSort s.arr := by
  rw [mergeSort, pmergeSort, lengthH, (mergeSortHelper_spec 0 (s.arr.length - 1) s
    (List.replicate s.arr.length 0)).1]


theorem siftLeft_spec (heapSize i : ℕ) (s : HState) :
    (siftLeft heapSize i s).1 = psiftLeft heapSize i s.arr ∧
      (siftLeft heapSize i s).2.arr = s.arr := by
  unfold siftLeft psiftLeft
  simp only [compareH_fst]
  split_ifs <;> exact ⟨rfl, rfl⟩

theorem siftTarget_spec (heapSize i : ℕ) (s : HState) :
    (siftTarget heapSize i s).1 = psiftTarget heapSize i s.arr ∧
      (siftTarget heapSize i s).2.arr = s.arr := by
  have hl := siftLeft_spec heapSize i s
  unfold siftTarget psiftTarget
  simp only [compareH_fst, compareH_arr, hl.1, hl.2]
  split_ifs <;>
    exact ⟨by simp [hl.1], by first | rw [compareH_arr, hl.2] | exact hl.2⟩

theorem heapify_eq (heapSize i : ℕ) (s : HState) :
    heapify heapSize i s =
      if (siftTarget heapSize i s).1 ≠ i then
        heapify heapSize (siftTarget heapSize i s).1
          (swapH i (siftTarget heapSize i s).1 (siftTarget heapSize i s).2)
      else (siftTarget heapSize i s).2 := by
  rw [heapify]

theorem heapify_arr (heapSize i : ℕ) (s : HState) :
    (heapify heapSize i s).arr = pheapify heapSize i s.arr := by
  have main : ∀ (d i : ℕ) (s : HState), heapSize - i ≤ d →
      (heapify heapSize i s).arr = pheapify heapSize i s.arr := by
    intro d
    induction d with
    | zero =>
      intro i s hd
      have hst := siftTarget_spec heapSize i s
      have hr := psiftTarget_range heapSize i s.arr
      rw [heapify_eq, pheapify, hst.1]
      have : ¬ psiftTarget heapSize i s.arr ≠ i := by omega
      rw [if_neg this, if_neg this, hst.2]
    | succ d ih =>
      intro i s hd
      have hst := siftTarget_spec heapSize i s
      have hr := psiftTarget_range heapSize i s.arr
      rw [heapify_eq, pheapify, hst.1]
      by_cases hne : psiftTarget heapSize i s.arr ≠ i
      · rw [if_pos hne, if_pos hne]
        rw [ih (psiftTarget heapSize i s.arr) _ (by omega)]
        congr 1
        rw [swapH_arr, hst.2]
      · rw [if_neg hne, if_neg hne, hst.2]
  exact main (heapSize - i) i s le_rfl

theorem buildHeap_arr (n : ℕ) (i : ℤ) (s : HState) :
    (buildHeap n i s).arr = pbuildHeap n i s.arr := by
  induction i, s using buildHeap.induct n with
  | case1 i s hi ih =>
    rw [buildHeap, pbuildHeap, if_pos hi, if_pos hi, ih, heapify_arr]
  | case2 i s hi =>
    rw [buildHeap, pbuildHeap, if_neg hi, if_neg hi]

theorem extractLoop_arr (i : ℕ) (s : HState) :
    (extractLoop i s).arr = pextractLoop i s.arr := by
  induction i, s using extractLoop.induct with
  | case1 i s hi ih =>
    rw [extractLoop, pextractLoop, if_pos hi, if_pos hi, ih, heapify_arr, swapH_arr]
  | case2 i s hi =>
    rw [extractLoop, pextractLoop, if_neg hi, if_neg hi]

theorem heapSort_arr (s : HState) : (heapSort s).arr = pheapSort s.arr := by
  rw [heapSort, pheapSort, extractLoop_arr, buildHeap_arr, lengthH]


/-! ### List toolkit: indexed reads, segments, swap permutations -/

theorem length_aset (a : List ℕ) (i v : ℕ) : (aset a i v).length = a.length :=
  List.length_set a i v

theorem length_aswap (a : List ℕ) (i j : ℕ) : (aswap a i j).length = a.length := by
  unfold aswap
  rw [length_aset, length_aset]

theorem aget_eq_getElem (a : List ℕ) (i : ℕ) (h : i < a.length) : aget a i = a[i] := by
  unfold aget
  rw [List.getD_eq_getElem?_getD, List.getElem?_eq_getElem h]
  rfl

theorem aget_aset_self (a : List ℕ) (i v : ℕ) (h : i < a.length) :
    aget (aset a i v) i = v := by
  unfold aget aset
  rw [List.getD_eq_getElem?_getD, List.getElem?_set_self]
  · rfl
  · exact h

theorem aget_aset_ne (a : List ℕ) (i j v : ℕ) (h : i ≠ j) :
    aget (aset a i v) j = aget a j := by
  unfold aget aset
  rw [List.getD_eq_getElem?_getD, List.getElem?_set_ne h, ← List.getD_eq_getElem?_getD]

theorem aget_aswap_fst (a : List ℕ) (i j : ℕ) (hi : i < a.length) (hj : j < a.length) :
    aget (aswap a i j) i = aget a j := by
  unfold aswap
  by_cases hij : i = j
  · subst hij
    rw [aget_aset_self _ _ _ (by rw [length_aset]; exact hi)]
  · rw [aget_aset_ne _ _ _ _ (Ne.symm hij), aget_aset_self _ _ _ hi]

theorem aget_aswap_snd (a : List ℕ) (i j : ℕ) (hj : j < a.length) :
    aget (aswap a i j) j = aget a i := by
  unfold aswap
  rw [aget_aset_self _ _ _ (by rw [length_aset]; exact hj)]

theorem aget_aswap_other (a : List ℕ) (i j k : ℕ) (hki : k ≠ i) (hkj : k ≠ j) :
    aget (aswap a i j) k = aget a k := by
  unfold aswap
  rw [aget_aset_ne _ _ _ _ (Ne.symm hkj), aget_aset_ne _ _ _ _ (Ne.symm hki)]

theorem count_aset (a : List ℕ) (i v x : ℕ) (h : i < a.length) :
    (aset a i v).count x
      = a.count x - (if aget a i = x then 1 else 0) + (if v = x then 1 else 0) := by
  unfold aset
  rw [List.count_set v x a i h, aget_eq_getElem a i h]
  simp [beq_iff_eq]

theorem count_aget_pos (a : List ℕ) (i x : ℕ) (h : i < a.length) (hx : aget a i = x) :
    1 ≤ a.count x := by
  rw [aget_eq_getElem a i h] at hx
  have hmem : x ∈ a := hx ▸ a.getElem_mem h
  exact List.count_pos_iff_mem.mpr hmem

theorem aswap_perm (a : List ℕ) (i j : ℕ) (hi : i < a.length) (hj : j < a.length) :
    List.Perm (aswap a i j) a := by
  rw [List.perm_iff_count]
  intro x
  have h1 : j < (aset a i (aget a j)).length := by rw [length_aset]; exact hj
  have hgj : aget (aset a i (aget a j)) j = aget a j := by
    by_cases hij : i = j
    · subst hij
      rw [aget_aset_self _ _ _ hi]
    · rw [aget_aset_ne _ _ _ _ hij]
  unfold aswap
  rw [count_aset _ _ _ _ h1, count_aset _ _ _ _ hi, hgj]
  have c1 := count_aget_pos a i x hi
  have c2 := count_aget_pos a j x hj
  split_ifs <;> simp_all <;> omega

/-- Contiguous segment `l[lo..hi]` (inclusive) as a list. -/
def seg (l : List ℕ) (lo hi : ℕ) : List ℕ := (l.drop lo).take (hi + 1 - lo)

theorem length_seg (l : List ℕ) (lo hi : ℕ) (h : hi < l.length) (hlo : lo ≤ hi + 1) :
    (seg l lo hi).length = hi + 1 - lo := by
  unfold seg
  rw [List.length_take, List.length_drop]
  omega

theorem seg_decomp (l : List ℕ) (lo hi : ℕ) (hlo : lo ≤ hi + 1) :
    l.take lo ++ (seg l lo hi ++ l.drop (hi + 1)) = l := by
  unfold seg
  have h := List.drop_take_append_drop l lo (hi + 1 - lo)
  rw [show lo + (hi + 1 - lo) = hi + 1 by omega] at h
  rw [h, List.take_append_drop]

theorem getElem_seg (l : List ℕ) (lo hi t : ℕ) (h : t < (seg l lo hi).length) :
    (seg l lo hi)[t] = aget l (lo + t) := by
  unfold seg at h ⊢
  rw [List.getElem_take, List.getElem_drop]
  rw [aget_eq_getElem]

theorem seg_congr (l1 l2 : List ℕ) (lo hi : ℕ)
    (hlen : l1.length = l2.length)
    (h : ∀ t, lo ≤ t → t ≤ hi → aget l1 t = aget l2 t) :
    seg l1 lo hi = seg l2 lo hi := by
  apply List.ext_getElem
  · unfold seg
    rw [List.length_take, List.length_take, List.length_drop, List.length_drop, hlen]
  · intro t h1 h2
    rw [getElem_seg _ _ _ _ h1, getElem_seg _ _ _ _ h2]
    unfold seg at h1
    rw [List.length_take, List.length_drop] at h1
    exact h (lo + t) (by omega) (by omega)

theorem take_congr (l1 l2 : List ℕ) (n : ℕ)
    (hlen : l1.length = l2.length)
    (h : ∀ t, t < n → aget l1 t = aget l2 t) :
    l1.take n = l2.take n := by
  apply List.ext_getElem
  · rw [List.length_take, List.length_take, hlen]
  · intro t h1 h2
    rw [List.getElem_take, List.getElem_take]
    rw [List.length_take] at h1
    have ht : t < l1.length := by omega
    rw [← aget_eq_getElem _ _ ht, ← aget_eq_getElem _ _ (hlen ▸ ht)]
    exact h t (by omega)

theorem drop_congr (l1 l2 : List ℕ) (n : ℕ)
    (hlen : l1.length = l2.length)
    (h : ∀ t, n ≤ t → aget l1 t = aget l2 t) :
    l1.drop n = l2.drop n := by
  apply List.ext_getElem
  · rw [List.length_drop, List.length_drop, hlen]
  · intro t h1 h2
    rw [List.getElem_drop, List.getElem_drop]
    rw [List.length_drop] at h1
    rw [← aget_eq_getElem _ _ (by omega), ← aget_eq_getElem _ _ (by omega)]
    exact h (n + t) (by omega)

/-- Two equal-length lists agreeing outside `[lo, hi]` whose `[lo, hi]`
segments are permutations of one another are permutations. -/
theorem perm_of_seg_perm (l1 l2 : List ℕ) (lo hi : ℕ)
    (hlo : lo ≤ hi + 1)
    (hlen : l1.length = l2.length)
    (hout : ∀ t, t < lo ∨ hi < t → aget l1 t = aget l2 t)
    (hseg : List.Perm (seg l1 lo hi) (seg l2 lo hi)) : List.Perm l1 l2 := by
  have d1 := seg_decomp l1 lo hi hlo
  have d2 := seg_decomp l2 lo hi hlo
  have htake : l1.take lo = l2.take lo :=
    take_congr l1 l2 lo hlen (fun t ht => hout t (Or.inl ht))
  have hdrop : l1.drop (hi + 1) = l2.drop (hi + 1) :=
    drop_congr l1 l2 (hi + 1) hlen (fun t ht => hout t (Or.inr (by omega)))
  have hp : List.Perm (l1.take lo ++ (seg l1 lo hi ++ l1.drop (hi + 1)))
      (l2.take lo ++ (seg l2 lo hi ++ l2.drop (hi + 1))) := by
    rw [htake, hdrop]
    exact List.Perm.append_left _ (List.Perm.append_right _ hseg)
  rw [d1, d2] at hp
  exact hp


/-! ### Permutation lemmas (swap-based algorithms) -/

theorem pbubbleInner_perm (n i j : ℕ) (a : List ℕ) (hn : n ≤ a.length) :
    List.Perm (pbubbleInner n i j a) a := by
  induction j, a using pbubbleInner.induct n i with
  | case1 j a hj ih =>
    rw [pbubbleInner, if_pos hj]
    simp only [dite_eq_ite] at ih
    have hstep : List.Perm
        (if cmpInt (aget a j) (aget a (j+1)) > 0 then aswap a j (j+1) else a) a := by
      split_ifs
      · exact aswap_perm a j (j+1) (by omega) (by omega)
      · exact List.Perm.refl a
    exact (ih (by rw [hstep.length_eq]; exact hn)).trans hstep
  | case2 j a hj =>
    rw [pbubbleInner, if_neg hj]

theorem pbubbleOuter_perm (n i : ℕ) (a : List ℕ) (hn : n ≤ a.length) :
    List.Perm (pbubbleOuter n i a) a := by
  induction i, a using pbubbleOuter.induct n with
  | case1 i a hi ih =>
    rw [pbubbleOuter, if_pos hi]
    have hinner := pbubbleInner_perm n i 0 a hn
    exact (ih (by rw [hinner.length_eq]; exact hn)).trans hinner
  | case2 i a hi =>
    rw [pbubbleOuter, if_neg hi]

theorem pbubbleSort_perm (a : List ℕ) : List.Perm (pbubbleSort a) a :=
  pbubbleOuter_perm a.length 0 a le_rfl

theorem pselInner_lt (n j minIdx : ℕ) (a : List ℕ) (h : minIdx < n) :
    pselInner n j minIdx a < n := by
  induction j, minIdx, a using pselInner.induct n with
  | case1 j minIdx a hj ih =>
    rw [pselInner, if_pos hj]
    apply ih
    split_ifs <;> omega
  | case2 j minIdx a hj =>
    rw [pselInner, if_neg hj]
    exact h

theorem pselOuter_perm (n i : ℕ) (a : List ℕ) (hn : n ≤ a.length) :
    List.Perm (pselOuter n i a) a := by
  induction i, a using pselOuter.induct n with
  | case1 i a hi ih =>
    rw [pselOuter, if_pos hi]
    have hm : pselInner n (i+1) i a < n := pselInner_lt n (i+1) i a (by omega)
    have hstep : List.Perm
        (if pselInner n (i+1) i a ≠ i then aswap a i (pselInner n (i+1) i a) else a) a := by
      split_ifs
      · exact aswap_perm a i _ (by omega) (by omega)
      · exact List.Perm.refl a
    simp only [dite_eq_ite] at ih
    exact (ih (by rw [hstep.length_eq]; exact hn)).trans hstep
  | case2 i a hi =>
    rw [pselOuter, if_neg hi]

theorem pselectionSort_perm (a : List ℕ) : List.Perm (pselectionSort a) a :=
  pselOuter_perm a.length 0 a le_rfl

theorem ppartitionLoop_perm (high : ℕ) (i : ℤ) (j : ℕ) (a : List ℕ)
    (hhigh : high < a.length) (hij : i < j) :
    List.Perm (ppartitionLoop high i j a).2 a := by
  induction i, j, a using ppartitionLoop.induct high with
  | case1 i j a hj hc ih =>
    rw [ppartitionLoop, if_pos hj, if_pos hc]
    have hswap : List.Perm (aswap a (i + 1).toNat j) a :=
      aswap_perm a (i + 1).toNat j (by omega) (by omega)
    exact (ih (by rw [hswap.length_eq]; exact hhigh) (by omega)).trans hswap
  | case2 i j a hj hc ih =>
    rw [ppartitionLoop, if_pos hj, if_neg hc]
    exact ih hhigh (by omega)
  | case3 i j a hj =>
    rw [ppartitionLoop, if_neg hj]

theorem ppartitionQ_perm (low high : ℕ) (a : List ℕ)
    (hlh : low < high) (hhigh : high < a.length) :
    List.Perm (ppartitionQ low high a).2 a := by
  have hloop := ppartitionLoop_perm high ((low : ℤ) - 1) low a hhigh (by omega)
  have hge := ppartitionLoop_i_ge high ((low : ℤ) - 1) low a
  have hlt := ppartitionLoop_i_lt high ((low : ℤ) - 1) low a (by omega) (by omega)
  unfold ppartitionQ
  refine List.Perm.trans (aswap_perm _ _ _ ?_ ?_) hloop
  · rw [hloop.length_eq]
    omega
  · rw [hloop.length_eq]
    exact hhigh

theorem pquickSortHelper_perm (low : ℕ) (high : ℤ) (a : List ℕ)
    (hhigh : high < (a.length : ℤ)) :
    List.Perm (pquickSortHelper low high a) a := by
  induction low, high, a using pquickSortHelper.induct with
  | case1 low high a hlh ih1 ih2 =>
    rw [pquickSortHelper, dif_pos hlh]
    have hb := ppartitionQ_bounds low high.toNat a (by omega)
    have hpp := ppartitionQ_perm low high.toNat a (by omega) (by omega)
    have h1 := ih1 (by rw [hpp.length_eq]; omega)
    have h2 := ih2 (by rw [h1.length_eq, hpp.length_eq]; omega)
    exact (h2.trans h1).trans hpp
  | case2 low high a hlh =>
    rw [pquickSortHelper, dif_neg hlh]

theorem pquickSort_perm (a : List ℕ) : List.Perm (pquickSort a) a :=
  pquickSortHelper_perm 0 ((a.length : ℤ) - 1) a (by omega)

theorem pheapify_perm (heapSize i : ℕ) (a : List ℕ) (hn : heapSize ≤ a.length) :
    List.Perm (pheapify heapSize i a) a := by
  induction i, a using pheapify.induct heapSize with
  | case1 i a hne ih =>
    rw [pheapify, if_pos hne]
    have hr := psiftTarget_range heapSize i a
    have hswap : List.Perm (aswap a i (psiftTarget heapSize i a)) a :=
      aswap_perm a i _ (by omega) (by omega)
    exact (ih (by rw [hswap.length_eq]; exact hn)).trans hswap
  | case2 i a hne =>
    rw [pheapify, if_neg hne]

theorem pbuildHeap_perm (n : ℕ) (i : ℤ) (a : List ℕ) (hn : n ≤ a.length) :
    List.Perm (pbuildHeap n i a) a := by
  induction i, a using pbuildHeap.induct n with
  | case1 i a hi ih =>
    rw [pbuildHeap, if_pos hi]
    have hh := pheapify_perm n i.toNat a hn
    exact (ih (by rw [hh.length_eq]; exact hn)).trans hh
  | case2 i a hi =>
    rw [pbuildHeap, if_neg hi]

theorem pextractLoop_perm (i : ℕ) (a : List ℕ) (hi : i < a.length) :
    List.Perm (pextractLoop i a) a := by
  induction i, a using pextractLoop.induct with
  | case1 i a hpos ih =>
    rw [pextractLoop, if_pos hpos]
    have hswap : List.Perm (aswap a 0 i) a := aswap_perm a 0 i (by omega) hi
    have hh : List.Perm (pheapify i 0 (aswap a 0 i)) (aswap a 0 i) :=
      pheapify_perm i 0 (aswap a 0 i) (by rw [hswap.length_eq]; omega)
    have hcomb := hh.trans hswap
    exact (ih (by rw [hcomb.length_eq]; omega)).trans hcomb
  | case2 i a hpos =>
    rw [pextractLoop, if_neg hpos]

theorem pheapSort_perm (a : List ℕ) : List.Perm (pheapSort a) a := by
  unfold pheapSort
  have hb := pbuildHeap_perm a.length ((a.length : ℤ) / 2 - 1) a le_rfl
  by_cases hlen : a.length = 0
  · rw [hlen]
    rw [pextractLoop, if_neg (by omega)]
    simpa [hlen] using hb
  · have he := pextractLoop_perm (a.length - 1) (pbuildHeap a.length ((a.length : ℤ) / 2 - 1) a)
      (by rw [hb.length_eq]; omega)
    exact he.trans hb


/-! ### List-level merge: the two-pointer merge of `mergeArrays` as a pure
function on segments, and the divide-and-conquer structure of
`mergeSortHelper` as a pure function `msort` on lists.  The tie-break is the
source's: on equal candidates the left element is taken. -/

/-- Left-biased two-pointer merge (ties take the left element, as the
source's `compareValues(aux[j], aux[i], j, i) >= 0` branch does). -/
def mergePure : List ℕ → List ℕ → List ℕ
  | [], ys => ys
  | x :: xs, [] => x :: xs
  | x :: xs, y :: ys =>
      if x ≤ y then x :: mergePure xs (y :: ys) else y :: mergePure (x :: xs) ys
termination_by xs ys => xs.length + ys.length

theorem mergePure_nil_left (ys : List ℕ) : mergePure [] ys = ys := by
  rw [mergePure]

theorem mergePure_nil_right (xs : List ℕ) : mergePure xs [] = xs := by
  match xs with
  | [] => rw [mergePure]
  | x :: xs => rw [mergePure]

theorem mergePure_cons_cons (x y : ℕ) (xs ys : List ℕ) :
    mergePure (x :: xs) (y :: ys)
      = if x ≤ y then x :: mergePure xs (y :: ys) else y :: mergePure (x :: xs) ys := by
  rw [mergePure]

theorem mergePure_perm (xs ys : List ℕ) :
    List.Perm (mergePure xs ys) (xs ++ ys) := by
  induction xs, ys using mergePure.induct with
  | case1 ys => rw [mergePure_nil_left]; exact List.Perm.refl _
  | case2 x xs => rw [mergePure_nil_right, List.append_nil]
  | case3 x xs y ys hle ih =>
    rw [mergePure_cons_cons, if_pos hle]
    exact List.Perm.cons x ih
  | case4 x xs y ys hle ih =>
    rw [mergePure_cons_cons, if_neg hle]
    exact (List.Perm.cons y ih).trans List.perm_middle.symm

theorem mem_mergePure (z : ℕ) (xs ys : List ℕ) :
    z ∈ mergePure xs ys ↔ z ∈ xs ∨ z ∈ ys := by
  rw [(mergePure_perm xs ys).mem_iff, List.mem_append]

theorem length_mergePure (xs ys : List ℕ) :
    (mergePure xs ys).length = xs.length + ys.length := by
  rw [(mergePure_perm xs ys).length_eq, List.length_append]

theorem mergePure_sorted (xs ys : List ℕ)
    (hxs : List.Sorted (· ≤ ·) xs) (hys : List.Sorted (· ≤ ·) ys) :
    List.Sorted (· ≤ ·) (mergePure xs ys) := by
  induction xs, ys using mergePure.induct with
  | case1 ys => rw [mergePure_nil_left]; exact hys
  | case2 x xs => rw [mergePure_nil_right]; exact hxs
  | case3 x xs y ys hle ih =>
    rw [mergePure_cons_cons, if_pos hle]
    rw [List.sorted_cons] at hxs ⊢
    refine ⟨?_, ih hxs.2 hys⟩
    intro b hb
    rw [mem_mergePure] at hb
    rcases hb with hb | hb
    · exact hxs.1 b hb
    · rcases List.mem_cons.mp hb with hb | hb
      · omega
      · rw [List.sorted_cons] at hys
        exact hle.trans (hys.1 b hb)
  | case4 x xs y ys hle ih =>
    rw [mergePure_cons_cons, if_neg hle]
    rw [List.sorted_cons] at hys ⊢
    refine ⟨?_, ih hxs hys.2⟩
    intro b hb
    rw [mem_mergePure] at hb
    rcases hb with hb | hb
    · rcases List.mem_cons.mp hb with hb | hb
      · omega
      · rw [List.sorted_cons] at hxs
        have := hxs.1 b hb
        omega
    · exact hys.1 b hb

/-- Top-down split point of `mergeSortHelper` on a segment of length `m`:
the left half gets `(m + 1) / 2` elements (`mid = (lo + hi) / 2`
inclusive). -/
def msort (l : List ℕ) : List ℕ :=
  if l.length ≤ 1 then l
  else
    mergePure (msort (l.take ((l.length + 1) / 2))) (msort (l.drop ((l.length + 1) / 2)))
termination_by l.length
decreasing_by
  · rw [List.length_take]
    omega
  · rw [List.length_drop]
    omega

theorem msort_perm (l : List ℕ) : List.Perm (msort l) l := by
  induction l using msort.induct with
  | case1 l h => rw [msort, if_pos h]
  | case2 l h ih1 ih2 =>
    rw [msort, if_neg h]
    refine (mergePure_perm _ _).trans ?_
    refine List.Perm.trans (List.Perm.append ih1 ih2) ?_
    rw [List.take_append_drop]

theorem length_msort (l : List ℕ) : (msort l).length = l.length :=
  (msort_perm l).length_eq

theorem msort_sorted (l : List ℕ) : List.Sorted (· ≤ ·) (msort l) := by
  induction l using msort.induct with
  | case1 l h =>
    rw [msort, if_pos h]
    match l, h with
    | [], _ => exact List.sorted_nil
    | [x], _ => exact List.sorted_singleton x
  | case2 l h ih1 ih2 =>
    rw [msort, if_neg h]
    exact mergePure_sorted _ _ ih1 ih2


theorem seg_nil (l : List ℕ) (lo hi : ℕ) (h : hi + 1 ≤ lo) : seg l lo hi = [] := by
  unfold seg
  rw [show hi + 1 - lo = 0 by omega, List.take_zero]

theorem seg_cons (l : List ℕ) (lo hi : ℕ) (hlo : lo ≤ hi) (hl : lo < l.length) :
    seg l lo hi = aget l lo :: seg l (lo + 1) hi := by
  unfold seg
  rw [show hi + 1 - (lo + 1) = hi - lo by omega]
  rw [show hi + 1 - lo = (hi - lo) + 1 by omega]
  rw [List.drop_eq_getElem_cons hl, List.take_succ_cons, aget_eq_getElem _ _ hl]

theorem aset_eq_surgery (a : List ℕ) (k v : ℕ) (h : k < a.length) :
    aset a k v = a.take k ++ v :: a.drop (k + 1) := by
  unfold aset
  rw [List.set_eq_take_append_cons_drop, if_pos h]

theorem take_succ_aset (a : List ℕ) (k v : ℕ) (h : k < a.length) :
    (aset a k v).take (k + 1) = a.take k ++ [v] := by
  rw [aset_eq_surgery a k v h]
  rw [List.take_append_eq_append_take]
  rw [List.length_take]
  rw [show min k a.length = k by omega]
  rw [show k + 1 - k = 1 by omega]
  simp

theorem drop_aset_of_lt (a : List ℕ) (k v m : ℕ) (h : k < m) :
    (aset a k v).drop m = a.drop m := by
  apply drop_congr
  · rw [length_aset]
  · intro t ht
    exact aget_aset_ne a k t v (by omega)

theorem take_aset_of_le (a : List ℕ) (k v m : ℕ) (h : m ≤ k) :
    (aset a k v).take m = a.take m := by
  apply take_congr
  · rw [length_aset]
  · intro t ht
    exact aget_aset_ne a k t v (by omega)

theorem length_pcopyAux (hi k : ℕ) (a aux : List ℕ) :
    (pcopyAux hi k a aux).length = aux.length := by
  induction k, a, aux using pcopyAux.induct hi with
  | case1 k a aux hk ih =>
    rw [pcopyAux, if_pos hk, ih, length_aset]
  | case2 k a aux hk =>
    rw [pcopyAux, if_neg hk]

theorem pcopyAux_aget (hi k : ℕ) (a aux : List ℕ) (hlen : hi < aux.length) (t : ℕ) :
    aget (pcopyAux hi k a aux) t
      = if k ≤ t ∧ t ≤ hi then aget a t else aget aux t := by
  induction k, a, aux using pcopyAux.induct hi with
  | case1 k a aux hk ih =>
    rw [pcopyAux, if_pos hk, ih (by rw [length_aset]; exact hlen)]
    by_cases hkt : k = t
    · subst hkt
      rw [if_neg (by omega), if_pos (by omega), aget_aset_self _ _ _ (by omega)]
    · rw [aget_aset_ne _ _ _ _ hkt]
      by_cases htk : k + 1 ≤ t ∧ t ≤ hi
      · rw [if_pos htk, if_pos (by omega)]
      · rw [if_neg htk, if_neg (by omega)]
  | case2 k a aux hk =>
    rw [pcopyAux, if_neg hk, if_neg (by omega)]

theorem seg_pcopyAux (hi k : ℕ) (a aux : List ℕ) (hlen : hi < aux.length)
    (hlenA : hi < a.length) (x y : ℕ) (hx : k ≤ x) (hy : y ≤ hi) :
    seg (pcopyAux hi k a aux) x y = seg a x y := by
  by_cases hxy : x ≤ y
  · apply List.ext_getElem
    · unfold seg
      simp only [List.length_take, List.length_drop, length_pcopyAux]
      omega
    · intro t h1 h2
      have hl1 : t < y + 1 - x := by
        have ht := h1
        unfold seg at ht
        rw [List.length_take, List.length_drop, length_pcopyAux] at ht
        omega
      rw [getElem_seg _ _ _ _ h1, getElem_seg _ _ _ _ h2]
      rw [pcopyAux_aget hi k a aux hlen (x + t), if_pos (by omega)]
  · rw [seg_nil _ _ _ (by omega), seg_nil _ _ _ (by omega)]


theorem pmergeLoop_eq (aux : List ℕ) (mid hi : ℕ) (i j k : ℕ) (a : List ℕ)
    (hi1 : i ≤ mid + 1) (hj1 : mid + 1 ≤ j) (hj2 : j ≤ hi + 1)
    (hk : k ≤ hi + 1)
    (hcount : hi + 1 - k = (mid + 1 - i) + (hi + 1 - j))
    (hlen : hi < a.length) (hlenx : hi < aux.length) (hmh : mid ≤ hi) :
    pmergeLoop aux mid hi i j k a
      = a.take k ++ (mergePure (seg aux i mid) (seg aux j hi) ++ a.drop (hi + 1)) := by
  induction i, j, k, a using pmergeLoop.induct aux mid hi with
  | case1 i j k a hkle hi2 ih =>
    rw [pmergeLoop, if_pos hkle, if_pos hi2]
    rw [ih (by omega) (by omega) (by omega) (by omega) (by omega)
      (by rw [length_aset]; exact hlen)]
    rw [take_succ_aset _ _ _ (by omega), drop_aset_of_lt _ _ _ _ (by omega)]
    rw [seg_nil aux i mid (by omega), mergePure_nil_left, mergePure_nil_left]
    rw [seg_cons aux j hi (by omega) (by omega)]
    simp [List.append_assoc]
  | case2 i j k a hkle hi2 hj3 ih =>
    rw [pmergeLoop, if_pos hkle, if_neg hi2, if_pos hj3]
    rw [ih (by omega) (by omega) (by omega) (by omega) (by omega)
      (by rw [length_aset]; exact hlen)]
    rw [take_succ_aset _ _ _ (by omega), drop_aset_of_lt _ _ _ _ (by omega)]
    rw [seg_nil aux j hi (by omega), mergePure_nil_right, mergePure_nil_right]
    rw [seg_cons aux i mid (by omega) (by omega)]
    simp [List.append_assoc]
  | case3 i j k a hkle hi2 hj3 hc ih =>
    rw [pmergeLoop, if_pos hkle, if_neg hi2, if_neg hj3]
    simp only [dite_eq_ite] at hc ih ⊢
    rw [if_pos hc]
    rw [ih (by omega) (by omega) (by omega) (by omega) (by omega)
      (by rw [length_aset]; exact hlen)]
    rw [take_succ_aset _ _ _ (by omega), drop_aset_of_lt _ _ _ _ (by omega)]
    rw [seg_cons aux i mid (by omega) (by omega), seg_cons aux j hi (by omega) (by omega)]
    rw [mergePure_cons_cons, if_pos (by rw [cmpInt_nonneg_iff] at hc; omega)]
    rw [← seg_cons aux j hi (by omega) (by omega)]
    simp [List.append_assoc]
  | case4 i j k a hkle hi2 hj3 hc hlt ih =>
    rw [pmergeLoop, if_pos hkle, if_neg hi2, if_neg hj3]
    simp only [dite_eq_ite] at hc ih ⊢
    rw [if_neg hc, if_pos hlt]
    rw [ih (by omega) (by omega) (by omega) (by omega) (by omega)
      (by rw [length_aset]; exact hlen)]
    rw [take_succ_aset _ _ _ (by omega), drop_aset_of_lt _ _ _ _ (by omega)]
    rw [seg_cons aux i mid (by omega) (by omega), seg_cons aux j hi (by omega) (by omega)]
    rw [mergePure_cons_cons, if_neg (by omega)]
    rw [← seg_cons aux i mid (by omega) (by omega)]
    simp [List.append_assoc]
  | case5 i j k a hkle hi2 hj3 hc hlt ih =>
    exfalso
    rw [ge_iff_le, ← Int.not_lt, cmpInt_neg_iff] at hc
    omega
  | case6 i j k a hkle =>
    rw [pmergeLoop, if_neg hkle]
    rw [seg_nil aux i mid (by omega), seg_nil aux j hi (by omega), mergePure_nil_left]
    rw [List.nil_append, show k = hi + 1 by omega, List.take_append_drop]


theorem seg_split (a : List ℕ) (lo mid hi : ℕ) (h1 : lo ≤ mid + 1) (h2 : mid ≤ hi) :
    seg a lo hi = seg a lo mid ++ seg a (mid + 1) hi := by
  unfold seg
  rw [show hi + 1 - lo = (mid + 1 - lo) + (hi - mid) by omega, List.take_add,
    List.drop_drop]
  rw [show lo + (mid + 1 - lo) = mid + 1 by omega,
    show hi + 1 - (mid + 1) = hi - mid by omega]

theorem seg_eq (l : List ℕ) (lo hi : ℕ) :
    seg l lo hi = (l.drop lo).take (hi + 1 - lo) := rfl

theorem pmergeArrays_fst (lo mid hi : ℕ) (a aux : List ℕ)
    (hlo : lo ≤ mid) (hmh : mid < hi) (hhi : hi < a.length) (hlenx : hi < aux.length) :
    (pmergeArrays lo mid hi a aux).1
      = a.take lo ++ (mergePure (seg a lo mid) (seg a (mid + 1) hi) ++ a.drop (hi + 1)) := by
  unfold pmergeArrays
  simp only
  rw [pmergeLoop_eq _ _ _ _ _ _ _ (by omega) (by omega) (by omega) (by omega)
    (by omega) hhi (by rw [length_pcopyAux]; exact hlenx) (by omega)]
  rw [seg_pcopyAux hi lo a aux hlenx hhi lo mid (le_refl lo) (by omega),
    seg_pcopyAux hi lo a aux hlenx hhi (mid + 1) hi (by omega) (le_refl hi)]

theorem pmergeArrays_snd_length (lo mid hi : ℕ) (a aux : List ℕ) :
    (pmergeArrays lo mid hi a aux).2.length = aux.length := by
  unfold pmergeArrays
  simp only
  rw [length_pcopyAux]

/-- Divide-and-conquer characterization of `pmergeSortHelper`: it replaces
the segment `[lo, hi]` of the working array with `msort` of that segment and
leaves the rest alone (the auxiliary buffer keeps its length). -/
theorem pmergeSortHelper_eq (lo hi : ℕ) (a aux : List ℕ)
    (hlo : lo ≤ hi) (hhi : hi < a.length) (hlenx : hi < aux.length) :
    (pmergeSortHelper lo hi a aux).1
        = a.take lo ++ (msort (seg a lo hi) ++ a.drop (hi + 1))
      ∧ (pmergeSortHelper lo hi a aux).2.length = aux.length := by
  induction lo, hi, a, aux using pmergeSortHelper.induct with
  | case1 lo hi a aux hge =>
    rw [pmergeSortHelper, if_pos hge]
    have heq : lo = hi := by omega
    subst heq
    constructor
    · rw [msort, if_pos (by rw [length_seg _ _ _ hhi (by omega)]; omega)]
      rw [seg_decomp a lo lo (by omega)]
    · rfl
  | case2 lo hi a aux hge a2 aux2 heq2 a3 aux3 heq3 ih1 ih2 =>
    have hmid1 : lo ≤ (lo + hi) / 2 := by omega
    have hmid1' : lo ≤ (lo + hi) / 2 + 1 := by omega
    have hmid2 : (lo + hi) / 2 < hi := by omega
    have hmidr : (lo + hi) / 2 + 1 ≤ hi + 1 := by omega
    have hihA : (lo + hi) / 2 < a.length := by omega
    have hihB : (lo + hi) / 2 < aux.length := by omega
    obtain ⟨ih1a, ih1b⟩ := ih1 hmid1 hihA hihB
    rw [heq2] at ih1a ih1b
    simp only at ih1a ih1b
    have hlen2 : a2.length = a.length := by
      rw [ih1a]
      simp only [List.length_append, List.length_take, length_msort,
        length_seg a lo ((lo + hi) / 2) hihA hmid1', List.length_drop]
      omega
    have hihC : (lo + hi) / 2 + 1 ≤ hi := by omega
    have hihD : hi < a2.length := by omega
    have hihE : hi < aux2.length := by rw [ih1b]; omega
    obtain ⟨ih2a, ih2b⟩ := ih2 hihC hihD hihE
    rw [heq3] at ih2a ih2b
    simp only at ih2a ih2b
    have hX : (a.take lo ++ msort (seg a lo ((lo + hi) / 2))).length = (lo + hi) / 2 + 1 := by
      simp only [List.length_append, List.length_take, length_msort,
        length_seg a lo ((lo + hi) / 2) hihA hmid1']
      omega
    have ha2 : a2 = (a.take lo ++ msort (seg a lo ((lo + hi) / 2))) ++ a.drop ((lo + hi) / 2 + 1) := by
      rw [ih1a, List.append_assoc]
    have hdrop2 : a2.drop ((lo + hi) / 2 + 1) = a.drop ((lo + hi) / 2 + 1) := by
      rw [ha2, List.drop_left' hX]
    have hseg2 : seg a2 ((lo + hi) / 2 + 1) hi = seg a ((lo + hi) / 2 + 1) hi := by
      unfold seg
      rw [hdrop2]
    have hdrop2hi : a2.drop (hi + 1) = a.drop (hi + 1) := by
      have e1 : a2.drop (hi + 1) = (a2.drop ((lo + hi) / 2 + 1)).drop (hi - (lo + hi) / 2) := by
        rw [List.drop_drop]
        congr 1
        omega
      rw [e1, hdrop2, List.drop_drop]
      congr 1
      omega
    have htake2 : a2.take ((lo + hi) / 2 + 1) = a.take lo ++ msort (seg a lo ((lo + hi) / 2)) := by
      rw [ha2, List.take_left' hX]
    have ha3 : a3 = a.take lo ++ (msort (seg a lo ((lo + hi) / 2))
        ++ (msort (seg a ((lo + hi) / 2 + 1) hi) ++ a.drop (hi + 1))) := by
      rw [ih2a, htake2, hseg2, hdrop2hi, List.append_assoc]
    have hY : (a.take lo).length = lo := by
      rw [List.length_take]
      omega
    have hZ : (msort (seg a lo ((lo + hi) / 2))).length = (lo + hi) / 2 + 1 - lo := by
      rw [length_msort, length_seg a lo ((lo + hi) / 2) hihA hmid1']
    have hW : (msort (seg a ((lo + hi) / 2 + 1) hi)).length = hi - (lo + hi) / 2 := by
      rw [length_msort, length_seg a ((lo + hi) / 2 + 1) hi hhi hmidr]
      omega
    have htake3 : a3.take lo = a.take lo := by
      rw [ha3, List.take_left' hY]
    have hdroplo : a3.drop lo = msort (seg a lo ((lo + hi) / 2))
        ++ (msort (seg a ((lo + hi) / 2 + 1) hi) ++ a.drop (hi + 1)) := by
      rw [ha3, List.drop_left' hY]
    have hseg3L : seg a3 lo ((lo + hi) / 2) = msort (seg a lo ((lo + hi) / 2)) := by
      rw [seg_eq]
      rw [hdroplo]
      rw [show (lo + hi) / 2 + 1 - lo = (msort (seg a lo ((lo + hi) / 2))).length from hZ.symm]
      rw [List.take_left]
    have hdropmid3 : a3.drop ((lo + hi) / 2 + 1)
        = msort (seg a ((lo + hi) / 2 + 1) hi) ++ a.drop (hi + 1) := by
      rw [ha3, ← List.append_assoc]
      refine List.drop_left' ?_
      rw [List.length_append, hY, hZ]
      omega
    have hseg3R : seg a3 ((lo + hi) / 2 + 1) hi = msort (seg a ((lo + hi) / 2 + 1) hi) := by
      rw [seg_eq]
      rw [hdropmid3]
      rw [show hi + 1 - ((lo + hi) / 2 + 1) = (msort (seg a ((lo + hi) / 2 + 1) hi)).length
        by rw [hW]; omega]
      rw [List.take_left]
    have hdrop3hi : a3.drop (hi + 1) = a.drop (hi + 1) := by
      rw [ha3, ← List.append_assoc, ← List.append_assoc]
      refine List.drop_left' ?_
      rw [List.length_append, List.length_append, hY, hZ, hW]
      omega
    have hlohi1 : lo ≤ hi + 1 := by omega
    have hsegLlen : (seg a lo ((lo + hi) / 2)).length = (lo + hi) / 2 + 1 - lo :=
      length_seg a lo ((lo + hi) / 2) hihA hmid1'
    have hsplit : msort (seg a lo hi)
        = mergePure (msort (seg a lo ((lo + hi) / 2))) (msort (seg a ((lo + hi) / 2 + 1) hi)) := by
      rw [msort]
      rw [if_neg (by rw [length_seg a lo hi hhi hlohi1]; omega)]
      rw [length_seg a lo hi hhi hlohi1]
      rw [seg_split a lo ((lo + hi) / 2) hi hmid1' (by omega)]
      rw [show (hi + 1 - lo + 1) / 2 = (lo + hi) / 2 + 1 - lo by omega]
      rw [List.take_left' hsegLlen, List.drop_left' hsegLlen]
    have hlen3 : a3.length = a.length := by
      rw [ha3]
      simp only [List.length_append, List.length_take, length_msort,
        length_seg a lo ((lo + hi) / 2) hihA hmid1',
        length_seg a ((lo + hi) / 2 + 1) hi hhi hmidr, List.length_drop]
      omega
    rw [pmergeSortHelper, if_neg hge, heq2]
    simp only
    rw [heq3]
    simp only
    constructor
    · rw [pmergeArrays_fst lo ((lo + hi) / 2) hi a3 aux3 hmid1 hmid2 (by omega)
        (by rw [ih2b, ih1b]; omega)]
      rw [hseg3L, hseg3R, htake3, hdrop3hi, hsplit]
    · rw [pmergeArrays_snd_length, ih2b, ih1b]


theorem pmergeSort_eq (a : List ℕ) : pmergeSort a = msort a := by
  unfold pmergeSort
  by_cases h : a.length = 0
  · have ha : a = [] := List.length_eq_zero.mp h
    subst ha
    rw [pmergeSortHelper, if_pos (by simp)]
    rw [msort, if_pos (by simp)]
  · have h1 := pmergeSortHelper_eq 0 (a.length - 1) a (List.replicate a.length 0)
      (by omega) (by omega) (by rw [List.length_replicate]; omega)
    rw [h1.1]
    have hseg : seg a 0 (a.length - 1) = a := by
      unfold seg
      rw [List.drop_zero, show a.length - 1 + 1 - 0 = a.length by omega, List.take_length]
    rw [hseg, show a.length - 1 + 1 = a.length by omega, List.drop_length,
      List.take_zero, List.nil_append, List.append_nil]

theorem pmergeSort_perm (a : List ℕ) : List.Perm (pmergeSort a) a := by
  rw [pmergeSort_eq]
  exact msort_perm a

theorem pmergeSort_sorted (a : List ℕ) : List.Sorted (· ≤ ·) (pmergeSort a) := by
  rw [pmergeSort_eq]
  exact msort_sorted a


/-! ### Insertion step: pointwise characterization and permutation -/

theorem pinsFind_ge (i : ℕ) (j : ℤ) (a : List ℕ) (h : -1 ≤ j) :
    -1 ≤ pinsFind i j a := by
  induction j, a using pinsFind.induct i with
  | case1 j a hj hc ih =>
    rw [pinsFind, if_pos hj, if_pos hc]
    exact ih (by omega)
  | case2 j a hj hc =>
    rw [pinsFind, if_pos hj, if_neg hc]
    omega
  | case3 j a hj =>
    rw [pinsFind, if_neg hj]
    exact h

theorem pinsFind_le (i : ℕ) (j : ℤ) (a : List ℕ) : pinsFind i j a ≤ j := by
  induction j, a using pinsFind.induct i with
  | case1 j a hj hc ih =>
    rw [pinsFind, if_pos hj, if_pos hc]
    omega
  | case2 j a hj hc =>
    rw [pinsFind, if_pos hj, if_neg hc]
  | case3 j a hj =>
    rw [pinsFind, if_neg hj]

theorem pinsFind_stop (i : ℕ) (j : ℤ) (a : List ℕ)
    (h : 0 ≤ pinsFind i j a) :
    aget a (pinsFind i j a).toNat ≤ aget a i := by
  induction j, a using pinsFind.induct i with
  | case1 j a hj hc ih =>
    rw [pinsFind, if_pos hj, if_pos hc] at h ⊢
    exact ih h
  | case2 j a hj hc =>
    rw [pinsFind, if_pos hj, if_neg hc] at h ⊢
    rw [cmpInt_pos_iff] at hc
    omega
  | case3 j a hj =>
    rw [pinsFind, if_neg hj] at h
    omega

theorem pinsFind_scanned (i : ℕ) (j : ℤ) (a : List ℕ) (t : ℤ)
    (h1 : pinsFind i j a < t) (h2 : t ≤ j) :
    aget a i < aget a t.toNat := by
  induction j, a using pinsFind.induct i with
  | case1 j a hj hc ih =>
    rw [pinsFind, if_pos hj, if_pos hc] at h1
    by_cases ht : t ≤ j - 1
    · exact ih h1 ht
    · have : t = j := by omega
      subst this
      rw [cmpInt_pos_iff] at hc
      exact hc
  | case2 j a hj hc =>
    rw [pinsFind, if_pos hj, if_neg hc] at h1
    omega
  | case3 j a hj =>
    rw [pinsFind, if_neg hj] at h1
    omega

theorem length_pinsShift (stop k : ℕ) (a : List ℕ) :
    (pinsShift stop k a).length = a.length := by
  induction k, a using pinsShift.induct stop with
  | case1 k a hk ih =>
    rw [pinsShift, if_pos hk, ih, length_aset]
  | case2 k a hk =>
    rw [pinsShift, if_neg hk]

theorem pinsShift_aget (stop k : ℕ) (a : List ℕ) (hk : k < a.length) (t : ℕ) :
    aget (pinsShift stop k a) t
      = if stop < t ∧ t ≤ k then aget a (t - 1) else aget a t := by
  induction k, a using pinsShift.induct stop with
  | case1 k a hk2 ih =>
    rw [pinsShift, if_pos hk2]
    rw [ih (by rw [length_aset]; omega)]
    by_cases ht : stop < t ∧ t ≤ k - 1
    · rw [if_pos ht, if_pos (show stop < t ∧ t ≤ k by omega),
        aget_aset_ne _ _ _ _ (by omega)]
    · by_cases htk : t = k
      · subst htk
        rw [if_neg ht, if_pos (show stop < t ∧ t ≤ t by omega),
          aget_aset_self _ _ _ hk]
      · rw [if_neg ht, if_neg (show ¬(stop < t ∧ t ≤ k) by omega),
          aget_aset_ne _ _ _ _ (by omega)]
  | case2 k a hk2 =>
    rw [pinsShift, if_neg hk2, if_neg (by omega)]

theorem length_pinsPlace (i : ℕ) (j : ℤ) (a : List ℕ) :
    (pinsPlace i j a).length = a.length := by
  unfold pinsPlace
  rw [length_aset, length_pinsShift]

theorem pinsPlace_aget (i : ℕ) (j : ℤ) (a : List ℕ) (hi : i < a.length)
    (hji : (j + 1).toNat ≤ i) (t : ℕ) :
    aget (pinsPlace i j a) t
      = if t = (j + 1).toNat then aget a i
        else if (j + 1).toNat < t ∧ t ≤ i then aget a (t - 1)
        else aget a t := by
  unfold pinsPlace
  by_cases ht : t = (j + 1).toNat
  · subst ht
    rw [if_pos rfl, aget_aset_self]
    rw [length_pinsShift]
    omega
  · rw [if_neg ht, aget_aset_ne _ _ _ _ (Ne.symm ht)]
    rw [pinsShift_aget _ _ _ hi t]

theorem seg_snoc (a : List ℕ) (lo hi : ℕ) (hlo : lo ≤ hi) (hhi : hi < a.length)
    (hhi1 : 1 ≤ hi) :
    seg a lo hi = seg a lo (hi - 1) ++ [aget a hi] := by
  rw [seg_split a lo (hi - 1) hi (by omega) (by omega)]
  congr 1
  rw [show hi - 1 + 1 = hi by omega]
  rw [seg_cons a hi hi le_rfl hhi, seg_nil a (hi + 1) hi (by omega)]

theorem pinsPlace_seg_perm (i : ℕ) (j : ℤ) (a : List ℕ) (hi : i < a.length)
    (hji : (j + 1).toNat ≤ i) (hi1 : 1 ≤ i) :
    List.Perm (seg (pinsPlace i j a) ((j + 1).toNat) i) (seg a ((j + 1).toNat) i) := by
  have hlenp : i < (pinsPlace i j a).length := by rw [length_pinsPlace]; exact hi
  have hstop1 : (j + 1).toNat ≤ i + 1 := by omega
  have hls : (seg (pinsPlace i j a) ((j + 1).toNat) i).length = i + 1 - (j + 1).toNat :=
    length_seg (pinsPlace i j a) ((j + 1).toNat) i hlenp hstop1
  have him1 : i - 1 < a.length := by omega
  have hstop2 : (j + 1).toNat ≤ (i - 1) + 1 := by omega
  have hchar : seg (pinsPlace i j a) ((j + 1).toNat) i
      = aget a i :: seg a ((j + 1).toNat) (i - 1) := by
    apply List.ext_getElem
    · rw [hls, List.length_cons, length_seg a ((j + 1).toNat) (i - 1) him1 hstop2]
      omega
    · intro t h1 h2
      rw [getElem_seg _ _ _ _ h1]
      rw [pinsPlace_aget i j a hi hji]
      match t with
      | 0 =>
        rw [if_pos (by omega)]
        rw [List.getElem_cons_zero]
      | t + 1 =>
        have hlt : t + 1 < i + 1 - (j + 1).toNat := by
          have h1' := h1
          rw [hls] at h1'
          exact h1'
        rw [if_neg (by omega), if_pos (by omega)]
        rw [List.getElem_cons_succ]
        have h2' : t < (seg a ((j + 1).toNat) (i - 1)).length := by
          rw [length_seg a ((j + 1).toNat) (i - 1) him1 hstop2]
          omega
        rw [getElem_seg _ _ _ _ h2']
        congr 1
  rw [hchar]
  by_cases hcase : (j + 1).toNat ≤ i - 1
  · rw [seg_snoc a ((j + 1).toNat) i (by omega) hi hi1]
    exact (List.perm_append_singleton (aget a i) (seg a ((j + 1).toNat) (i - 1))).symm
  · have hji' : (j + 1).toNat = i := by omega
    rw [hji']
    rw [seg_nil a i (i - 1) (by omega)]
    rw [seg_cons a i i le_rfl hi, seg_nil a (i + 1) i (by omega)]

theorem pinsPlace_perm (i : ℕ) (j : ℤ) (a : List ℕ) (hi : i < a.length)
    (hji : (j + 1).toNat ≤ i) (hi1 : 1 ≤ i) :
    List.Perm (pinsPlace i j a) a := by
  apply perm_of_seg_perm _ _ ((j + 1).toNat) i (by omega) (length_pinsPlace i j a)
  · intro t ht
    rw [pinsPlace_aget i j a hi hji]
    rcases ht with ht | ht
    · rw [if_neg (by omega), if_neg (by omega)]
    · rw [if_neg (by omega), if_neg (by omega)]
  · exact pinsPlace_seg_perm i j a hi hji hi1

theorem pinsOuter_perm (n i : ℕ) (a : List ℕ) (hn : n ≤ a.length) (hi1 : 1 ≤ i) :
    List.Perm (pinsOuter n i a) a := by
  induction i, a using pinsOuter.induct n with
  | case1 i a hi ih =>
    rw [pinsOuter, if_pos hi]
    have hfind_le := pinsFind_le i ((i : ℤ) - 1) a
    have hstep : List.Perm (pinsPlace i (pinsFind i ((i : ℤ) - 1) a) a) a :=
      pinsPlace_perm i _ a (by omega) (by omega) hi1
    exact (ih (by rw [hstep.length_eq]; exact hn) (by omega)).trans hstep
  | case2 i a hi =>
    rw [pinsOuter, if_neg hi]

theorem pinsertionSort_perm (a : List ℕ) : List.Perm (pinsertionSort a) a :=
  pinsOuter_perm a.length 1 a le_rfl le_rfl

/-! ### Sortedness of the pure views

`SortedFrom a k` states that the suffix of `a` from index `k` on is
non-decreasing, `SortedTo a k` that the prefix strictly below `k` is
non-decreasing, and `DomFrom a k` that every element strictly below `k` is
bounded by every element from `k` on.  Together they support the loop
invariants of the six sorting algorithms. -/

def SortedFrom (a : List ℕ) (k : ℕ) : Prop :=
  ∀ t u : ℕ, k ≤ t → t < u → u < a.length → aget a t ≤ aget a u

def SortedTo (a : List ℕ) (k : ℕ) : Prop :=
  ∀ t u : ℕ, t < u → u < k → aget a t ≤ aget a u

def DomFrom (a : List ℕ) (k : ℕ) : Prop :=
  ∀ t u : ℕ, t < k → k ≤ u → u < a.length → aget a t ≤ aget a u

theorem sorted_of_sortedFrom (a : List ℕ) (h : SortedFrom a 0) :
    List.Sorted (· ≤ ·) a := by
  apply List.pairwise_iff_getElem.mpr
  intro t u ht hu htu
  rw [← aget_eq_getElem a t ht, ← aget_eq_getElem a u hu]
  exact h t u (Nat.zero_le t) htu hu

/-! #### Bubble sort -/

theorem pbubbleInner_untouched (n i j : ℕ) (a : List ℕ) :
    ∀ t : ℕ, t < j ∨ n - i - 1 < t → aget (pbubbleInner n i j a) t = aget a t := by
  induction j, a using pbubbleInner.induct n i with
  | case1 j a hj ih =>
    intro t ht
    rw [pbubbleInner, if_pos hj]
    simp only [dite_eq_ite] at ih
    rw [ih t (by omega)]
    split_ifs with hc
    · exact aget_aswap_other a j (j+1) t (by omega) (by omega)
    · rfl
  | case2 j a hj =>
    intro t ht
    rw [pbubbleInner, if_neg hj]

theorem pbubbleInner_max (n i j : ℕ) (a : List ℕ) :
    n ≤ a.length → j ≤ n - i - 1 → (∀ t, t ≤ j → aget a t ≤ aget a j) →
    ∀ t, t ≤ n - i - 1 →
      aget (pbubbleInner n i j a) t ≤ aget (pbubbleInner n i j a) (n - i - 1) := by
  induction j, a using pbubbleInner.induct n i with
  | case1 j a hj ih =>
    intro hn hjm hmax t htm
    rw [pbubbleInner, if_pos hj]
    simp only [dite_eq_ite] at ih
    refine ih ?_ (by omega) ?_ t htm
    · split_ifs with hc
      · rw [length_aswap]; exact hn
      · exact hn
    · intro t2 ht2
      have hj1 : j + 1 < a.length := by omega
      split_ifs with hc
      · rw [cmpInt_pos_iff] at hc
        rw [aget_aswap_snd a j (j+1) hj1]
        by_cases h1 : t2 = j
        · rw [h1]
          rw [aget_aswap_fst a j (j+1) (by omega) hj1]
          omega
        · by_cases h2 : t2 = j + 1
          · subst h2
            rw [aget_aswap_snd a j (j+1) hj1]
          · rw [aget_aswap_other a j (j+1) t2 h1 h2]
            exact le_trans (hmax t2 (by omega)) (by omega)
      · rw [cmpInt_pos_iff] at hc
        push_neg at hc
        by_cases h2 : t2 = j + 1
        · subst h2; rfl
        · exact le_trans (hmax t2 (by omega)) hc
  | case2 j a hj =>
    intro hn hjm hmax t htm
    rw [pbubbleInner, if_neg hj]
    have hje : j = n - i - 1 := by omega
    subst hje
    exact hmax t htm

theorem pbubbleInner_dom (n i j : ℕ) (a : List ℕ) :
    n ≤ a.length → DomFrom a (n - i) → DomFrom (pbubbleInner n i j a) (n - i) := by
  induction j, a using pbubbleInner.induct n i with
  | case1 j a hj ih =>
    intro hn hdom
    rw [pbubbleInner, if_pos hj]
    simp only [dite_eq_ite] at ih
    refine ih ?_ ?_
    · split_ifs with hc
      · rw [length_aswap]; exact hn
      · exact hn
    · split_ifs with hc
      · intro t u htk hku hul
        rw [length_aswap] at hul
        have hj1 : j + 1 < a.length := by omega
        rw [aget_aswap_other a j (j+1) u (by omega) (by omega)]
        by_cases h1 : t = j
        · rw [h1]
          rw [aget_aswap_fst a j (j+1) (by omega) hj1]
          exact hdom (j+1) u (by omega) hku hul
        · by_cases h2 : t = j + 1
          · subst h2
            rw [aget_aswap_snd a j (j+1) hj1]
            exact hdom j u (by omega) hku hul
          · rw [aget_aswap_other a j (j+1) t h1 h2]
            exact hdom t u htk hku hul
      · exact hdom
  | case2 j a hj =>
    intro hn hdom
    rw [pbubbleInner, if_neg hj]
    exact hdom

theorem pbubbleOuter_sorted (n i : ℕ) (a : List ℕ) :
    n = a.length → DomFrom a (n - i) → SortedFrom a (n - i) →
    SortedFrom (pbubbleOuter n i a) 0 := by
  induction i, a using pbubbleOuter.induct n with
  | case1 i a hi ih =>
    intro hn hdom hsort
    rw [pbubbleOuter, if_pos hi]
    have hblen : (pbubbleInner n i 0 a).length = a.length :=
      (pbubbleInner_perm n i 0 a (by omega)).length_eq
    have hdb : DomFrom (pbubbleInner n i 0 a) (n - i) :=
      pbubbleInner_dom n i 0 a (by omega) hdom
    have hmax : ∀ t, t ≤ n - i - 1 →
        aget (pbubbleInner n i 0 a) t ≤ aget (pbubbleInner n i 0 a) (n - i - 1) :=
      pbubbleInner_max n i 0 a (by omega) (by omega)
        (fun t ht => by
          have ht0 : t = 0 := by omega
          subst ht0
          exact le_rfl)
    refine ih ?_ ?_ ?_
    · rw [hblen]; exact hn
    · intro t u htk hku hul
      by_cases hu : u = n - i - 1
      · subst hu
        exact hmax t (by omega)
      · exact hdb t u (by omega) (by omega) hul
    · intro t u htk htu hul
      by_cases htm : t = n - i - 1
      · subst htm
        exact hdb (n - i - 1) u (by omega) (by omega) hul
      · rw [pbubbleInner_untouched n i 0 a t (Or.inr (by omega)),
          pbubbleInner_untouched n i 0 a u (Or.inr (by omega))]
        exact hsort t u (by omega) htu (by rw [hblen] at hul; exact hul)
  | case2 i a hi =>
    intro hn hdom hsort
    rw [pbubbleOuter, if_neg hi]
    intro t u _ htu hul
    by_cases h0 : n - i = 0
    · exact hsort t u (by omega) htu hul
    · by_cases h2 : t = 0
      · subst h2
        exact hdom 0 u (by omega) (by omega) hul
      · exact hsort t u (by omega) htu hul

theorem pbubbleSort_sorted (a : List ℕ) : List.Sorted (· ≤ ·) (pbubbleSort a) := by
  apply sorted_of_sortedFrom
  unfold pbubbleSort
  apply pbubbleOuter_sorted a.length 0 a rfl
  · intro t u ht hu hul
    omega
  · intro t u ht htu hul
    omega

/-! #### Selection sort -/

theorem pselInner_min (n j minIdx : ℕ) (a : List ℕ) :
    aget a (pselInner n j minIdx a) ≤ aget a minIdx
    ∧ ∀ t, j ≤ t → t < n → aget a (pselInner n j minIdx a) ≤ aget a t := by
  induction j, minIdx, a using pselInner.induct n with
  | case1 j minIdx a hj ih =>
    rw [pselInner, if_pos hj]
    simp only [dite_eq_ite] at ih
    by_cases hc : cmpInt (aget a j) (aget a minIdx) < 0
    · rw [if_pos hc] at ih ⊢
      rw [cmpInt_neg_iff] at hc
      refine ⟨le_trans ih.1 (le_of_lt hc), ?_⟩
      intro t htj htn
      rcases Nat.eq_or_lt_of_le htj with h1 | h1
      · rw [← h1]; exact ih.1
      · exact ih.2 t (by omega) htn
    · rw [if_neg hc] at ih ⊢
      rw [cmpInt_neg_iff] at hc
      push_neg at hc
      refine ⟨ih.1, ?_⟩
      intro t htj htn
      rcases Nat.eq_or_lt_of_le htj with h1 | h1
      · rw [← h1]; exact le_trans ih.1 hc
      · exact ih.2 t (by omega) htn
  | case2 j minIdx a hj =>
    rw [pselInner, if_neg hj]
    refine ⟨le_rfl, ?_⟩
    intro t htj htn
    omega

theorem pselInner_range (n j minIdx : ℕ) (a : List ℕ) :
    pselInner n j minIdx a = minIdx
    ∨ (j ≤ pselInner n j minIdx a ∧ pselInner n j minIdx a < n) := by
  induction j, minIdx, a using pselInner.induct n with
  | case1 j minIdx a hj ih =>
    rw [pselInner, if_pos hj]
    simp only [dite_eq_ite] at ih
    by_cases hc : cmpInt (aget a j) (aget a minIdx) < 0
    · rw [if_pos hc] at ih ⊢
      rcases ih with h | h
      · right; omega
      · right; omega
    · rw [if_neg hc] at ih ⊢
      rcases ih with h | h
      · left; exact h
      · right; omega
  | case2 j minIdx a hj =>
    rw [pselInner, if_neg hj]
    left; rfl

theorem pselOuter_sorted (n i : ℕ) (a : List ℕ) :
    n = a.length → SortedTo a i → DomFrom a i → SortedFrom (pselOuter n i a) 0 := by
  induction i, a using pselOuter.induct n with
  | case1 i a hi ih =>
    intro hn hst hdom
    rw [pselOuter, if_pos hi]
    simp only [dite_eq_ite] at ih
    have hrange := pselInner_range n (i+1) i a
    have hmlt : pselInner n (i+1) i a < n := pselInner_lt n (i+1) i a (by omega)
    have hmge : i ≤ pselInner n (i+1) i a := by
      rcases hrange with h | h <;> omega
    have hmin1 := (pselInner_min n (i+1) i a).1
    have hmin2 := (pselInner_min n (i+1) i a).2
    set m := pselInner n (i+1) i a with hmdef
    by_cases hne : m = i
    · rw [if_neg (not_not_intro hne)] at ih ⊢
      refine ih hn ?_ ?_
      · intro t u htu hui
        by_cases hu : u = i
        · rw [hu]
          exact hdom t i (by omega) le_rfl (by omega)
        · exact hst t u htu (by omega)
      · intro t u hti hiu hul
        by_cases ht : t = i
        · rw [ht]
          rw [hne] at hmin2
          exact hmin2 u (by omega) (by omega)
        · exact hdom t u (by omega) (by omega) hul
    · rw [if_pos hne] at ih ⊢
      have him : i < m := by omega
      have hilen : i < a.length := by omega
      have hmlen : m < a.length := by omega
      have hbi : aget (aswap a i m) i = aget a m := aget_aswap_fst a i m hilen hmlen
      have hbm : aget (aswap a i m) m = aget a i := aget_aswap_snd a i m hmlen
      refine ih (by rw [length_aswap]; exact hn) ?_ ?_
      · intro t u htu hui
        have ht_lt : t < i := by omega
        rw [aget_aswap_other a i m t (by omega) (by omega)]
        by_cases hu : u = i
        · rw [hu, hbi]
          exact hdom t m ht_lt (by omega) hmlen
        · rw [aget_aswap_other a i m u (by omega) (by omega)]
          exact hst t u htu (by omega)
      · intro t u hti hiu hul
        rw [length_aswap] at hul
        have hbu : aget (aswap a i m) u = if u = m then aget a i else aget a u := by
          by_cases hum : u = m
          · rw [hum, if_pos rfl]; exact hbm
          · rw [if_neg hum]
            exact aget_aswap_other a i m u (by omega) hum
        by_cases ht : t = i
        · rw [ht, hbi, hbu]
          split_ifs with hum
          · exact hmin1
          · exact hmin2 u (by omega) (by omega)
        · have ht_lt : t < i := by omega
          rw [aget_aswap_other a i m t (by omega) (by omega), hbu]
          split_ifs with hum
          · exact hdom t i ht_lt le_rfl hilen
          · exact hdom t u ht_lt (by omega) hul
  | case2 i a hi =>
    intro hn hst hdom
    rw [pselOuter, if_neg hi]
    intro t u _ htu hul
    by_cases hui : u < i
    · exact hst t u htu hui
    · by_cases hti : t < i
      · exact hdom t u hti (by omega) hul
      · omega

theorem pselectionSort_sorted (a : List ℕ) :
    List.Sorted (· ≤ ·) (pselectionSort a) := by
  apply sorted_of_sortedFrom
  unfold pselectionSort
  apply pselOuter_sorted a.length 0 a rfl
  · intro t u htu hu
    omega
  · intro t u ht hu hul
    omega

/-! #### Insertion sort -/

theorem pinsOuter_sorted (n i : ℕ) (a : List ℕ) :
    n = a.length → 1 ≤ i → SortedTo a i → SortedFrom (pinsOuter n i a) 0 := by
  induction i, a using pinsOuter.induct n with
  | case1 i a hi ih =>
    intro hn hi1 hst
    rw [pinsOuter, if_pos hi]
    have hjge : -1 ≤ pinsFind i ((i:ℤ) - 1) a :=
      pinsFind_ge i ((i:ℤ) - 1) a (by omega)
    have hjle : pinsFind i ((i:ℤ) - 1) a ≤ (i:ℤ) - 1 :=
      pinsFind_le i ((i:ℤ) - 1) a
    have hstople : (pinsFind i ((i:ℤ) - 1) a + 1).toNat ≤ i := by omega
    have hilen : i < a.length := by omega
    have hpref : ∀ w v : ℕ, w < v → v < i → aget a w ≤ aget a v :=
      fun w v h1 h2 => hst w v h1 h2
    have hs1 : ∀ w : ℕ, w + 1 = (pinsFind i ((i:ℤ) - 1) a + 1).toNat →
        aget a w ≤ aget a i := by
      intro w hw
      have hjf0 : 0 ≤ pinsFind i ((i:ℤ) - 1) a := by omega
      have he : (pinsFind i ((i:ℤ) - 1) a).toNat = w := by omega
      rw [← he]
      exact pinsFind_stop i ((i:ℤ) - 1) a hjf0
    have hs2 : ∀ w : ℕ, (pinsFind i ((i:ℤ) - 1) a + 1).toNat ≤ w → w + 1 ≤ i →
        aget a i < aget a w := by
      intro w h1 h2
      have h3 := pinsFind_scanned i ((i:ℤ) - 1) a (w : ℤ) (by omega) (by omega)
      have h4 : ((w : ℤ)).toNat = w := by omega
      rw [h4] at h3
      exact h3
    have hle_st : ∀ w : ℕ, w < (pinsFind i ((i:ℤ) - 1) a + 1).toNat →
        aget a w ≤ aget a i := by
      intro w hw
      rcases Nat.lt_or_ge (w+1) ((pinsFind i ((i:ℤ) - 1) a + 1).toNat) with h1 | h1
      · refine le_trans
          (hpref w ((pinsFind i ((i:ℤ) - 1) a + 1).toNat - 1) (by omega) (by omega)) ?_
        exact hs1 ((pinsFind i ((i:ℤ) - 1) a + 1).toNat - 1) (by omega)
      · exact hs1 w (by omega)
    refine ih ?_ (by omega) ?_
    · rw [length_pinsPlace]; exact hn
    · intro t u htu hui1
      have hui : u ≤ i := by omega
      rw [pinsPlace_aget i (pinsFind i ((i:ℤ) - 1) a) a hilen hstople,
          pinsPlace_aget i (pinsFind i ((i:ℤ) - 1) a) a hilen hstople]
      by_cases ht1 : t = (pinsFind i ((i:ℤ) - 1) a + 1).toNat
      · rw [if_pos ht1]
        by_cases hu1 : u = (pinsFind i ((i:ℤ) - 1) a + 1).toNat
        · exfalso; omega
        · rw [if_neg hu1,
            if_pos (show (pinsFind i ((i:ℤ) - 1) a + 1).toNat < u ∧ u ≤ i by omega)]
          exact le_of_lt (hs2 (u-1) (by omega) (by omega))
      · rw [if_neg ht1]
        by_cases ht2 : (pinsFind i ((i:ℤ) - 1) a + 1).toNat < t ∧ t ≤ i
        · rw [if_pos ht2]
          by_cases hu1 : u = (pinsFind i ((i:ℤ) - 1) a + 1).toNat
          · exfalso; omega
          · rw [if_neg hu1,
              if_pos (show (pinsFind i ((i:ℤ) - 1) a + 1).toNat < u ∧ u ≤ i by omega)]
            exact hpref (t-1) (u-1) (by omega) (by omega)
        · rw [if_neg ht2]
          have ht3 : t < (pinsFind i ((i:ℤ) - 1) a + 1).toNat := by omega
          by_cases hu1 : u = (pinsFind i ((i:ℤ) - 1) a + 1).toNat
          · rw [if_pos hu1]
            exact hle_st t ht3
          · rw [if_neg hu1]
            by_cases hu2 : (pinsFind i ((i:ℤ) - 1) a + 1).toNat < u ∧ u ≤ i
            · rw [if_pos hu2]
              exact hpref t (u-1) (by omega) (by omega)
            · rw [if_neg hu2]
              exact hpref t u htu (by omega)
  | case2 i a hi =>
    intro hn hi1 hst
    rw [pinsOuter, if_neg hi]
    intro t u _ htu hul
    exact hst t u htu (by omega)

theorem pinsertionSort_sorted (a : List ℕ) :
    List.Sorted (· ≤ ·) (pinsertionSort a) := by
  apply sorted_of_sortedFrom
  unfold pinsertionSort
  apply pinsOuter_sorted a.length 1 a rfl le_rfl
  intro t u htu hu
  omega

/-! #### Quick sort -/

theorem ppartitionLoop_untouched (high : ℕ) (i : ℤ) (j : ℕ) (a : List ℕ) (lo : ℕ) :
    (lo:ℤ) - 1 ≤ i → i < (j:ℤ) → ∀ t : ℕ, t < lo ∨ high ≤ t →
      aget (ppartitionLoop high i j a).2 t = aget a t := by
  induction i, j, a using ppartitionLoop.induct high with
  | case1 i j a hj hc ih =>
    intro hlo hij t ht
    rw [ppartitionLoop, if_pos hj, if_pos hc]
    rw [ih (by omega) (by omega) t ht]
    exact aget_aswap_other a ((i+1).toNat) j t (by omega) (by omega)
  | case2 i j a hj hc ih =>
    intro hlo hij t ht
    rw [ppartitionLoop, if_pos hj, if_neg hc]
    exact ih hlo (by omega) t ht
  | case3 i j a hj =>
    intro hlo hij t ht
    rw [ppartitionLoop, if_neg hj]

theorem ppartitionLoop_srcIn (high : ℕ) (i : ℤ) (j : ℕ) (a : List ℕ) (lo : ℕ) :
    high < a.length → (lo:ℤ) - 1 ≤ i → i < (j:ℤ) → lo ≤ j →
    ∀ t : ℕ, lo ≤ t → t ≤ high →
      ∃ u : ℕ, lo ≤ u ∧ u ≤ high ∧ aget (ppartitionLoop high i j a).2 t = aget a u := by
  induction i, j, a using ppartitionLoop.induct high with
  | case1 i j a hj hc ih =>
    intro hlen hlo hij hloj t ht1 ht2
    rw [ppartitionLoop, if_pos hj, if_pos hc]
    obtain ⟨u, hu1, hu2, hu3⟩ :=
      ih (by rw [length_aswap]; exact hlen) (by omega) (by omega) (by omega) t ht1 ht2
    rw [hu3]
    by_cases h1 : u = (i+1).toNat
    · refine ⟨j, by omega, by omega, ?_⟩
      rw [h1]
      exact aget_aswap_fst a ((i+1).toNat) j (by omega) (by omega)
    · by_cases h2 : u = j
      · refine ⟨(i+1).toNat, by omega, by omega, ?_⟩
        rw [h2]
        exact aget_aswap_snd a ((i+1).toNat) j (by omega)
      · exact ⟨u, hu1, hu2, by rw [aget_aswap_other a ((i+1).toNat) j u h1 h2]⟩
  | case2 i j a hj hc ih =>
    intro hlen hlo hij hloj t ht1 ht2
    rw [ppartitionLoop, if_pos hj, if_neg hc]
    exact ih hlen hlo (by omega) (by omega) t ht1 ht2
  | case3 i j a hj =>
    intro hlen hlo hij hloj t ht1 ht2
    rw [ppartitionLoop, if_neg hj]
    exact ⟨t, ht1, ht2, rfl⟩

theorem ppartitionLoop_post (high : ℕ) (i : ℤ) (j : ℕ) (a : List ℕ) (lo : ℕ) :
    high < a.length → (lo:ℤ) - 1 ≤ i → i < (j:ℤ) → lo ≤ j → j ≤ high →
    (∀ t : ℕ, lo ≤ t → (t:ℤ) ≤ i → aget a t < aget a high) →
    (∀ t : ℕ, i < (t:ℤ) → t < j → aget a high ≤ aget a t) →
    (∀ t : ℕ, lo ≤ t → (t:ℤ) ≤ (ppartitionLoop high i j a).1 →
        aget (ppartitionLoop high i j a).2 t < aget (ppartitionLoop high i j a).2 high)
    ∧ (∀ t : ℕ, (ppartitionLoop high i j a).1 < (t:ℤ) → t < high →
        aget (ppartitionLoop high i j a).2 high ≤ aget (ppartitionLoop high i j a).2 t)
    ∧ aget (ppartitionLoop high i j a).2 high = aget a high := by
  induction i, j, a using ppartitionLoop.induct high with
  | case1 i j a hj hc ih =>
    intro hlen hlo hij hloj hjh inv1 inv2
    rw [ppartitionLoop, if_pos hj, if_pos hc]
    rw [cmpInt_neg_iff] at hc
    have hbhigh : aget (aswap a ((i+1).toNat) j) high = aget a high :=
      aget_aswap_other a ((i+1).toNat) j high (by omega) (by omega)
    have hbk : aget (aswap a ((i+1).toNat) j) ((i+1).toNat) = aget a j :=
      aget_aswap_fst a ((i+1).toNat) j (by omega) (by omega)
    have hinv1 : ∀ t : ℕ, lo ≤ t → (t:ℤ) ≤ i + 1 →
        aget (aswap a ((i+1).toNat) j) t < aget (aswap a ((i+1).toNat) j) high := by
      intro t ht1 ht2
      rw [hbhigh]
      by_cases hte : (t:ℤ) = i + 1
      · have he : t = (i+1).toNat := by omega
        rw [he, hbk]
        exact hc
      · rw [aget_aswap_other a ((i+1).toNat) j t (by omega) (by omega)]
        exact inv1 t ht1 (by omega)
    have hinv2 : ∀ t : ℕ, i + 1 < (t:ℤ) → t < j + 1 →
        aget (aswap a ((i+1).toNat) j) high ≤ aget (aswap a ((i+1).toNat) j) t := by
      intro t ht1 ht2
      rw [hbhigh]
      by_cases htj : t = j
      · rw [htj, aget_aswap_snd a ((i+1).toNat) j (by omega)]
        exact inv2 ((i+1).toNat) (by omega) (by omega)
      · rw [aget_aswap_other a ((i+1).toNat) j t (by omega) (by omega)]
        exact inv2 t (by omega) (by omega)
    have hrec := ih (by rw [length_aswap]; exact hlen) (by omega) (by omega)
      (by omega) (by omega) hinv1 hinv2
    refine ⟨hrec.1, hrec.2.1, ?_⟩
    rw [hrec.2.2]
    exact hbhigh
  | case2 i j a hj hc ih =>
    intro hlen hlo hij hloj hjh inv1 inv2
    rw [ppartitionLoop, if_pos hj, if_neg hc]
    rw [cmpInt_neg_iff] at hc
    push_neg at hc
    refine ih hlen hlo (by omega) (by omega) (by omega) inv1 ?_
    intro t ht1 ht2
    by_cases htj : t = j
    · rw [htj]; exact hc
    · exact inv2 t ht1 (by omega)
  | case3 i j a hj =>
    intro hlen hlo hij hloj hjh inv1 inv2
    rw [ppartitionLoop, if_neg hj]
    refine ⟨?_, ?_, rfl⟩
    · intro t ht1 ht2
      exact inv1 t ht1 ht2
    · intro t ht1 ht2
      exact inv2 t ht1 (by omega)

theorem ppartitionQ_main (low high : ℕ) (a : List ℕ)
    (hlh : low < high) (hlen : high < a.length) :
    (∀ t : ℕ, low ≤ t → t < (ppartitionQ low high a).1 →
        aget (ppartitionQ low high a).2 t
          < aget (ppartitionQ low high a).2 (ppartitionQ low high a).1)
    ∧ (∀ t : ℕ, (ppartitionQ low high a).1 < t → t ≤ high →
        aget (ppartitionQ low high a).2 (ppartitionQ low high a).1
          ≤ aget (ppartitionQ low high a).2 t) := by
  have hge := ppartitionLoop_i_ge high ((low : ℤ) - 1) low a
  have hlt := ppartitionLoop_i_lt high ((low : ℤ) - 1) low a (by omega) (by omega)
  have hplen : (ppartitionLoop high ((low : ℤ) - 1) low a).2.length = a.length :=
    (ppartitionLoop_perm high ((low : ℤ) - 1) low a hlen (by omega)).length_eq
  have hpost := ppartitionLoop_post high ((low : ℤ) - 1) low a low hlen (by omega)
    (by omega) le_rfl (by omega)
    (fun t h1 h2 => by exfalso; omega)
    (fun t h1 h2 => by exfalso; omega)
  unfold ppartitionQ
  simp only
  constructor
  · intro t ht1 ht2
    have htp : t ≠ ((ppartitionLoop high ((low : ℤ) - 1) low a).1 + 1).toNat := by omega
    have hth : t ≠ high := by omega
    rw [aget_aswap_other _ _ high t htp hth,
      aget_aswap_fst _ _ high (by omega) (by omega)]
    exact hpost.1 t ht1 (by omega)
  · intro t ht1 ht2
    rw [aget_aswap_fst _ _ high (by omega) (by omega)]
    by_cases hth : t = high
    · rw [hth, aget_aswap_snd _ _ high (by omega)]
      exact hpost.2.1 _ (by omega) (by omega)
    · rw [aget_aswap_other _ _ high t (by omega) hth]
      exact hpost.2.1 t (by omega) (by omega)

theorem ppartitionQ_untouched (low high : ℕ) (a : List ℕ)
    (hlh : low < high) (hlen : high < a.length) :
    ∀ t : ℕ, t < low ∨ high < t →
      aget (ppartitionQ low high a).2 t = aget a t := by
  have hge := ppartitionLoop_i_ge high ((low : ℤ) - 1) low a
  have hlt := ppartitionLoop_i_lt high ((low : ℤ) - 1) low a (by omega) (by omega)
  have hunt := ppartitionLoop_untouched high ((low : ℤ) - 1) low a low (by omega)
    (by omega)
  unfold ppartitionQ
  simp only
  intro t ht
  rw [aget_aswap_other _ _ high t (by omega) (by omega)]
  exact hunt t (by omega)

theorem ppartitionQ_srcIn (low high : ℕ) (a : List ℕ)
    (hlh : low < high) (hlen : high < a.length) :
    ∀ t : ℕ, low ≤ t → t ≤ high →
      ∃ u : ℕ, low ≤ u ∧ u ≤ high ∧ aget (ppartitionQ low high a).2 t = aget a u := by
  have hge := ppartitionLoop_i_ge high ((low : ℤ) - 1) low a
  have hlt := ppartitionLoop_i_lt high ((low : ℤ) - 1) low a (by omega) (by omega)
  have hplen : (ppartitionLoop high ((low : ℤ) - 1) low a).2.length = a.length :=
    (ppartitionLoop_perm high ((low : ℤ) - 1) low a hlen (by omega)).length_eq
  have hsrc := ppartitionLoop_srcIn high ((low : ℤ) - 1) low a low hlen (by omega)
    (by omega) le_rfl
  unfold ppartitionQ
  simp only
  intro t ht1 ht2
  by_cases h1 : t = ((ppartitionLoop high ((low : ℤ) - 1) low a).1 + 1).toNat
  · rw [h1, aget_aswap_fst _ _ high (by omega) (by omega)]
    exact hsrc high (by omega) le_rfl
  · by_cases h2 : t = high
    · rw [h2, aget_aswap_snd _ _ high (by omega)]
      exact hsrc _ (by omega) (by omega)
    · rw [aget_aswap_other _ _ high t h1 h2]
      exact hsrc t ht1 ht2

theorem ppartitionQ_len (low high : ℕ) (a : List ℕ)
    (hlh : low < high) (hlen : high < a.length) :
    (ppartitionQ low high a).2.length = a.length :=
  (ppartitionQ_perm low high a hlh hlen).length_eq

theorem pquickSortHelper_main (low : ℕ) (high : ℤ) (a : List ℕ) :
    high < (a.length : ℤ) →
    (∀ t : ℕ, (t:ℤ) < (low:ℤ) ∨ high < (t:ℤ) →
        aget (pquickSortHelper low high a) t = aget a t)
    ∧ (∀ t : ℕ, low ≤ t → (t:ℤ) ≤ high →
        ∃ u : ℕ, low ≤ u ∧ (u:ℤ) ≤ high ∧
          aget (pquickSortHelper low high a) t = aget a u)
    ∧ (∀ t u : ℕ, low ≤ t → t < u → (u:ℤ) ≤ high →
        aget (pquickSortHelper low high a) t ≤ aget (pquickSortHelper low high a) u) := by
  induction low, high, a using pquickSortHelper.induct with
  | case1 low high a hlh ih1 ih2 =>
    intro hlen
    rw [pquickSortHelper, dif_pos hlh]
    have hlh' : low < high.toNat := by omega
    have hlen' : high.toNat < a.length := by omega
    have hbounds := ppartitionQ_bounds low high.toNat a hlh'
    have hmain := ppartitionQ_main low high.toNat a hlh' hlen'
    have hunt := ppartitionQ_untouched low high.toNat a hlh' hlen'
    have hsrc := ppartitionQ_srcIn low high.toNat a hlh' hlen'
    have hblen := ppartitionQ_len low high.toNat a hlh' hlen'
    obtain ⟨L_unt, L_src, L_sorted⟩ := ih1 (by rw [hblen]; omega)
    have hclen : (pquickSortHelper low (((ppartitionQ low high.toNat a).1 : ℤ) - 1)
        (ppartitionQ low high.toNat a).2).length = a.length := by
      rw [(pquickSortHelper_perm low (((ppartitionQ low high.toNat a).1 : ℤ) - 1)
        (ppartitionQ low high.toNat a).2 (by rw [hblen]; omega)).length_eq]
      exact hblen
    obtain ⟨R_unt, R_src, R_sorted⟩ := ih2 (by rw [hclen]; omega)
    have hpc : aget (pquickSortHelper low (((ppartitionQ low high.toNat a).1 : ℤ) - 1)
        (ppartitionQ low high.toNat a).2) (ppartitionQ low high.toNat a).1
        = aget (ppartitionQ low high.toNat a).2 (ppartitionQ low high.toNat a).1 :=
      L_unt (ppartitionQ low high.toNat a).1 (Or.inr (by omega))
    have hpd : aget (pquickSortHelper ((ppartitionQ low high.toNat a).1 + 1) high
        (pquickSortHelper low (((ppartitionQ low high.toNat a).1 : ℤ) - 1)
          (ppartitionQ low high.toNat a).2)) (ppartitionQ low high.toNat a).1
        = aget (pquickSortHelper low (((ppartitionQ low high.toNat a).1 : ℤ) - 1)
            (ppartitionQ low high.toNat a).2) (ppartitionQ low high.toNat a).1 :=
      R_unt (ppartitionQ low high.toNat a).1 (Or.inl (by omega))
    have hleft : ∀ t : ℕ, low ≤ t → t < (ppartitionQ low high.toNat a).1 →
        aget (pquickSortHelper ((ppartitionQ low high.toNat a).1 + 1) high
          (pquickSortHelper low (((ppartitionQ low high.toNat a).1 : ℤ) - 1)
            (ppartitionQ low high.toNat a).2)) t
        < aget (pquickSortHelper ((ppartitionQ low high.toNat a).1 + 1) high
            (pquickSortHelper low (((ppartitionQ low high.toNat a).1 : ℤ) - 1)
              (ppartitionQ low high.toNat a).2)) (ppartitionQ low high.toNat a).1 := by
      intro t h1 h2
      rw [hpd, hpc, R_unt t (Or.inl (by omega))]
      obtain ⟨u, hu1, hu2, hu3⟩ := L_src t h1 (by omega)
      rw [hu3]
      exact hmain.1 u hu1 (by omega)
    have hright : ∀ t : ℕ, (ppartitionQ low high.toNat a).1 < t → (t:ℤ) ≤ high →
        aget (pquickSortHelper ((ppartitionQ low high.toNat a).1 + 1) high
          (pquickSortHelper low (((ppartitionQ low high.toNat a).1 : ℤ) - 1)
            (ppartitionQ low high.toNat a).2)) (ppartitionQ low high.toNat a).1
        ≤ aget (pquickSortHelper ((ppartitionQ low high.toNat a).1 + 1) high
            (pquickSortHelper low (((ppartitionQ low high.toNat a).1 : ℤ) - 1)
              (ppartitionQ low high.toNat a).2)) t := by
      intro t h1 h2
      rw [hpd, hpc]
      obtain ⟨u, hu1, hu2, hu3⟩ := R_src t (by omega) h2
      rw [hu3, L_unt u (Or.inr (by omega))]
      exact hmain.2 u (by omega) (by omega)
    refine ⟨?_, ?_, ?_⟩
    · intro t ht
      rcases ht with h | h
      · rw [R_unt t (Or.inl (by omega)), L_unt t (Or.inl (by omega))]
        exact hunt t (Or.inl (by omega))
      · rw [R_unt t (Or.inr (by omega)), L_unt t (Or.inr (by omega))]
        exact hunt t (Or.inr (by omega))
    · intro t h1 h2
      by_cases hc1 : t < (ppartitionQ low high.toNat a).1
      · rw [R_unt t (Or.inl (by omega))]
        obtain ⟨u, hu1, hu2, hu3⟩ := L_src t h1 (by omega)
        obtain ⟨w, hw1, hw2, hw3⟩ := hsrc u hu1 (by omega)
        exact ⟨w, hw1, by omega, by rw [hu3, hw3]⟩
      · by_cases hc2 : t = (ppartitionQ low high.toNat a).1
        · obtain ⟨w, hw1, hw2, hw3⟩ := hsrc (ppartitionQ low high.toNat a).1
            hbounds.1 hbounds.2
          refine ⟨w, hw1, by omega, ?_⟩
          rw [hc2, hpd, hpc, hw3]
        · obtain ⟨u, hu1, hu2, hu3⟩ := R_src t (by omega) h2
          obtain ⟨w, hw1, hw2, hw3⟩ := hsrc u (by omega) (by omega)
          refine ⟨w, hw1, by omega, ?_⟩
          rw [hu3, L_unt u (Or.inr (by omega)), hw3]
    · intro t u h1 h2 h3
      by_cases hu1 : u < (ppartitionQ low high.toNat a).1
      · rw [R_unt t (Or.inl (by omega)), R_unt u (Or.inl (by omega))]
        exact L_sorted t u h1 h2 (by omega)
      · by_cases hu2 : u = (ppartitionQ low high.toNat a).1
        · rw [hu2]
          exact le_of_lt (hleft t h1 (by omega))
        · by_cases ht1 : t < (ppartitionQ low high.toNat a).1
          · exact le_trans (le_of_lt (hleft t h1 ht1)) (hright u (by omega) h3)
          · by_cases ht2 : t = (ppartitionQ low high.toNat a).1
            · rw [ht2]
              exact hright u (by omega) h3
            · exact R_sorted t u (by omega) h2 h3
  | case2 low high a hlh =>
    intro hlen
    rw [pquickSortHelper, dif_neg hlh]
    refine ⟨fun t ht => rfl, fun t h1 h2 => ⟨t, h1, h2, rfl⟩, ?_⟩
    intro t u h1 h2 h3
    exfalso
    omega

theorem pquickSort_sorted (a : List ℕ) : List.Sorted (· ≤ ·) (pquickSort a) := by
  apply sorted_of_sortedFrom
  unfold pquickSort
  have hlen : (pquickSortHelper 0 ((a.length : ℤ) - 1) a).length = a.length :=
    (pquickSortHelper_perm 0 ((a.length : ℤ) - 1) a (by omega)).length_eq
  have h := (pquickSortHelper_main 0 ((a.length : ℤ) - 1) a (by omega)).2.2
  intro t u ht htu hul
  rw [hlen] at hul
  exact h t u (by omega) htu (by omega)

/-! #### Heap sort -/

theorem psiftLeft_max (m i : ℕ) (a : List ℕ) :
    aget a i ≤ aget a (psiftLeft m i a)
    ∧ (2*i + 1 < m → aget a (2*i + 1) ≤ aget a (psiftLeft m i a)) := by
  unfold psiftLeft
  split_ifs with h1 h2
  · rw [cmpInt_pos_iff] at h2
    exact ⟨le_of_lt h2, fun _ => le_rfl⟩
  · rw [cmpInt_pos_iff] at h2
    push_neg at h2
    exact ⟨le_rfl, fun _ => h2⟩
  · exact ⟨le_rfl, fun h => absurd h h1⟩

theorem psiftTarget_max (m i : ℕ) (a : List ℕ) :
    aget a i ≤ aget a (psiftTarget m i a)
    ∧ (2*i + 1 < m → aget a (2*i + 1) ≤ aget a (psiftTarget m i a))
    ∧ (2*i + 2 < m → aget a (2*i + 2) ≤ aget a (psiftTarget m i a)) := by
  have hl := psiftLeft_max m i a
  unfold psiftTarget
  split_ifs with h1 h2
  · rw [cmpInt_pos_iff] at h2
    exact ⟨le_trans hl.1 (le_of_lt h2), fun h => le_trans (hl.2 h) (le_of_lt h2),
      fun _ => le_rfl⟩
  · rw [cmpInt_pos_iff] at h2
    push_neg at h2
    exact ⟨hl.1, hl.2, fun _ => h2⟩
  · exact ⟨hl.1, hl.2, fun h => absurd h h1⟩

theorem psiftTarget_mem (m i : ℕ) (a : List ℕ) :
    psiftTarget m i a = i ∨ psiftTarget m i a = 2*i + 1 ∨ psiftTarget m i a = 2*i + 2 := by
  unfold psiftTarget psiftLeft
  split_ifs <;> omega

theorem psiftTarget_self (m i : ℕ) (a : List ℕ) (h : psiftTarget m i a = i) :
    (2*i + 1 < m → aget a (2*i + 1) ≤ aget a i)
    ∧ (2*i + 2 < m → aget a (2*i + 2) ≤ aget a i) := by
  have ht := psiftTarget_max m i a
  rw [h] at ht
  exact ⟨ht.2.1, ht.2.2⟩

/-- Subtree membership in the implicit binary heap layout: `inSub s t` holds
iff repeatedly taking parents `(t-1)/2` from `t` reaches `s`. -/
def inSub (s t : ℕ) : Bool :=
  if t < s then false
  else if t = s then true
  else inSub s ((t - 1) / 2)
termination_by t
decreasing_by omega

theorem inSub_self (s : ℕ) : inSub s s = true := by
  rw [inSub]
  rw [if_neg (by omega), if_pos rfl]

theorem inSub_le (s t : ℕ) (h : inSub s t = true) : s ≤ t := by
  by_contra hc
  push_neg at hc
  rw [inSub, if_pos hc] at h
  exact absurd h (by decide)

theorem not_inSub_of_lt (s t : ℕ) (h : t < s) : inSub s t = false := by
  rw [inSub, if_pos h]

theorem inSub_parent (s t : ℕ) (hne : t ≠ s) (h : inSub s t = true) :
    inSub s ((t - 1) / 2) = true := by
  by_cases h1 : t < s
  · rw [inSub, if_pos h1] at h
    exact absurd h (by decide)
  · rw [inSub, if_neg h1, if_neg hne] at h
    exact h

theorem inSub_of_parent (s t : ℕ) (hst : s < t) (h : inSub s ((t - 1) / 2) = true) :
    inSub s t = true := by
  rw [inSub, if_neg (by omega), if_neg (by omega)]
  exact h

theorem inSub_trans (i s : ℕ) (his : inSub i s = true) :
    ∀ t, inSub s t = true → inSub i t = true := by
  intro t
  induction t using Nat.strong_induction_on with
  | _ t ih =>
    intro hst
    by_cases hts : t = s
    · rw [hts]; exact his
    · have h1 : s < t := lt_of_le_of_ne (inSub_le s t hst) (fun he => hts he.symm)
      have h2 := inSub_parent s t hts hst
      have h3 := ih ((t - 1) / 2) (by omega) h2
      have h4 : i ≤ s := inSub_le i s his
      exact inSub_of_parent i t (by omega) h3

/-- The max-heap property at every node from `lo` on, within heap size `m`. -/
def HeapFrom (a : List ℕ) (m lo : ℕ) : Prop :=
  ∀ t : ℕ, lo ≤ t →
    (2*t + 1 < m → aget a (2*t + 1) ≤ aget a t)
    ∧ (2*t + 2 < m → aget a (2*t + 2) ≤ aget a t)

theorem pheapify_untouched (m i : ℕ) (a : List ℕ) :
    ∀ t : ℕ, inSub i t = false → aget (pheapify m i a) t = aget a t := by
  induction i, a using pheapify.induct m with
  | case1 i a hne ih =>
    intro t ht
    rw [pheapify, if_pos hne]
    have hmem := psiftTarget_mem m i a
    have hs : i < psiftTarget m i a ∧ psiftTarget m i a < m := by
      rcases psiftTarget_range m i a with h | h
      · exact absurd h hne
      · exact h
    have hit : inSub i (psiftTarget m i a) = true := by
      apply inSub_of_parent i _ hs.1
      have hp : (psiftTarget m i a - 1) / 2 = i := by
        rcases hmem with h | h | h
        · exact absurd h hne
        · rw [h]; omega
        · rw [h]; omega
      rw [hp]
      exact inSub_self i
    have hnt : inSub (psiftTarget m i a) t = false := by
      by_cases h1 : t < psiftTarget m i a
      · exact not_inSub_of_lt _ t h1
      · by_contra hc
        simp only [Bool.not_eq_false] at hc
        have h2 := inSub_trans i _ hit t hc
        rw [ht] at h2
        exact absurd h2 (by decide)
    rw [ih t hnt]
    have hti : t ≠ i := by
      intro he
      rw [he, inSub_self i] at ht
      exact absurd ht (by decide)
    have htt : t ≠ psiftTarget m i a := by
      intro he
      rw [he, inSub_self] at hnt
      exact absurd hnt (by decide)
    exact aget_aswap_other a i (psiftTarget m i a) t hti htt
  | case2 i a hne =>
    intro t ht
    rw [pheapify, if_neg hne]

theorem pheapify_untouched_ge (m i : ℕ) (a : List ℕ) :
    ∀ t : ℕ, m ≤ t → aget (pheapify m i a) t = aget a t := by
  induction i, a using pheapify.induct m with
  | case1 i a hne ih =>
    intro t ht
    rw [pheapify, if_pos hne]
    have hs : i < psiftTarget m i a ∧ psiftTarget m i a < m := by
      rcases psiftTarget_range m i a with h | h
      · exact absurd h hne
      · exact h
    rw [ih t ht]
    exact aget_aswap_other a i _ t (by omega) (by omega)
  | case2 i a hne =>
    intro t ht
    rw [pheapify, if_neg hne]

theorem pheapify_src (m i : ℕ) (a : List ℕ) :
    m ≤ a.length →
    ∀ t : ℕ, t < m → ∃ u : ℕ, u < m ∧ aget (pheapify m i a) t = aget a u := by
  induction i, a using pheapify.induct m with
  | case1 i a hne ih =>
    intro hml t ht
    rw [pheapify, if_pos hne]
    have hs : i < psiftTarget m i a ∧ psiftTarget m i a < m := by
      rcases psiftTarget_range m i a with h | h
      · exact absurd h hne
      · exact h
    obtain ⟨u, hu1, hu2⟩ := ih (by rw [length_aswap]; exact hml) t ht
    rw [hu2]
    by_cases h1 : u = i
    · refine ⟨psiftTarget m i a, hs.2, ?_⟩
      rw [h1]
      exact aget_aswap_fst a i _ (by omega) (by omega)
    · by_cases h2 : u = psiftTarget m i a
      · refine ⟨i, by omega, ?_⟩
        rw [h2]
        exact aget_aswap_snd a i _ (by omega)
      · exact ⟨u, hu1, aget_aswap_other a i _ u h1 h2⟩
  | case2 i a hne =>
    intro hml t ht
    rw [pheapify, if_neg hne]
    exact ⟨t, ht, rfl⟩

theorem pheapify_src_sub (m i : ℕ) (a : List ℕ) :
    m ≤ a.length →
    ∀ t : ℕ, inSub i t = true → t < m →
      ∃ u : ℕ, inSub i u = true ∧ u < m ∧ aget (pheapify m i a) t = aget a u := by
  induction i, a using pheapify.induct m with
  | case1 i a hne ih =>
    intro hml t hit ht
    rw [pheapify, if_pos hne]
    have hmem := psiftTarget_mem m i a
    have hs : i < psiftTarget m i a ∧ psiftTarget m i a < m := by
      rcases psiftTarget_range m i a with h | h
      · exact absurd h hne
      · exact h
    have hpar : (psiftTarget m i a - 1) / 2 = i := by
      rcases hmem with h | h | h
      · exact absurd h hne
      · rw [h]; omega
      · rw [h]; omega
    have hisub : inSub i (psiftTarget m i a) = true := by
      apply inSub_of_parent i _ hs.1
      rw [hpar]
      exact inSub_self i
    by_cases hsub : inSub (psiftTarget m i a) t = true
    · obtain ⟨u, hu1, hu2, hu3⟩ := ih (by rw [length_aswap]; exact hml) t hsub ht
      rw [hu3]
      by_cases h1 : u = psiftTarget m i a
      · refine ⟨i, inSub_self i, by omega, ?_⟩
        rw [h1]
        exact aget_aswap_snd a i _ (by omega)
      · have h2 : u ≠ i := by
          intro he
          rw [he] at hu1
          have := inSub_le _ _ hu1
          omega
        refine ⟨u, inSub_trans i _ hisub u hu1, hu2, ?_⟩
        exact aget_aswap_other a i _ u h2 h1
    · have hf : inSub (psiftTarget m i a) t = false := by
        simp only [Bool.not_eq_true] at hsub
        exact hsub
      rw [pheapify_untouched m (psiftTarget m i a) (aswap a i (psiftTarget m i a)) t hf]
      by_cases h1 : t = i
      · refine ⟨psiftTarget m i a, hisub, hs.2, ?_⟩
        rw [h1]
        exact aget_aswap_fst a i _ (by omega) (by omega)
      · have h2 : t ≠ psiftTarget m i a := by
          intro he
          rw [he, inSub_self] at hf
          exact absurd hf (by decide)
        refine ⟨t, hit, ht, ?_⟩
        exact aget_aswap_other a i _ t h1 h2
  | case2 i a hne =>
    intro hml t hit ht
    rw [pheapify, if_neg hne]
    exact ⟨t, hit, ht, rfl⟩

theorem subtree_bound (a : List ℕ) (m lo s : ℕ) (hheap : HeapFrom a m lo)
    (hlos : lo ≤ s) :
    ∀ t : ℕ, inSub s t = true → t < m → aget a t ≤ aget a s := by
  intro t
  induction t using Nat.strong_induction_on with
  | _ t ih =>
    intro hst htm
    by_cases hts : t = s
    · rw [hts]
    · have h1 : s < t := lt_of_le_of_ne (inSub_le s t hst) (fun he => hts he.symm)
      have hpar := inSub_parent s t hts hst
      have hp_ge : s ≤ (t - 1) / 2 := inSub_le s _ hpar
      have hdom := hheap ((t - 1) / 2) (by omega)
      have hchild : t = 2 * ((t - 1) / 2) + 1 ∨ t = 2 * ((t - 1) / 2) + 2 := by omega
      have hle : aget a t ≤ aget a ((t - 1) / 2) := by
        rcases hchild with h | h
        · have h2 := hdom.1 (by omega)
          rw [← h] at h2
          exact h2
        · have h2 := hdom.2 (by omega)
          rw [← h] at h2
          exact h2
      exact le_trans hle (ih ((t - 1) / 2) (by omega) hpar (by omega))

theorem heap_root_max (a : List ℕ) (m : ℕ) (hheap : HeapFrom a m 0) :
    ∀ t : ℕ, t < m → aget a t ≤ aget a 0 := by
  intro t
  induction t using Nat.strong_induction_on with
  | _ t ih =>
    intro htm
    by_cases ht0 : t = 0
    · rw [ht0]
    · have hdom := hheap ((t - 1) / 2) (Nat.zero_le _)
      have hchild : t = 2 * ((t - 1) / 2) + 1 ∨ t = 2 * ((t - 1) / 2) + 2 := by omega
      have hle : aget a t ≤ aget a ((t - 1) / 2) := by
        rcases hchild with h | h
        · have h2 := hdom.1 (by omega)
          rw [← h] at h2
          exact h2
        · have h2 := hdom.2 (by omega)
          rw [← h] at h2
          exact h2
      exact le_trans hle (ih ((t - 1) / 2) (by omega) (by omega))

theorem pheapify_heap (m i : ℕ) (a : List ℕ) :
    m ≤ a.length → HeapFrom a m (i + 1) → HeapFrom (pheapify m i a) m i := by
  induction i, a using pheapify.induct m with
  | case2 i a hne =>
    intro hml hheap
    rw [pheapify, if_neg hne]
    push_neg at hne
    have hself := psiftTarget_self m i a hne
    intro t ht
    by_cases hti : t = i
    · rw [hti]
      exact hself
    · exact hheap t (by omega)
  | case1 i a hne ih =>
    intro hml hheap
    rw [pheapify, if_pos hne]
    have hmem := psiftTarget_mem m i a
    have hmax := psiftTarget_max m i a
    have hs : i < psiftTarget m i a ∧ psiftTarget m i a < m := by
      rcases psiftTarget_range m i a with h | h
      · exact absurd h hne
      · exact h
    have hilen : i < a.length := by omega
    have hslen : psiftTarget m i a < a.length := by omega
    have hisub : inSub i (psiftTarget m i a) = true := by
      apply inSub_of_parent i _ hs.1
      have hp : (psiftTarget m i a - 1) / 2 = i := by
        rcases hmem with h | h | h
        · exact absurd h hne
        · rw [h]; omega
        · rw [h]; omega
      rw [hp]
      exact inSub_self i
    have hbheap : HeapFrom (aswap a i (psiftTarget m i a)) m ((psiftTarget m i a) + 1) := by
      intro t ht
      have hbt : aget (aswap a i (psiftTarget m i a)) t = aget a t :=
        aget_aswap_other a i _ t (by omega) (by omega)
      have hb1 : aget (aswap a i (psiftTarget m i a)) (2*t+1) = aget a (2*t+1) :=
        aget_aswap_other a i _ _ (by omega) (by omega)
      have hb2 : aget (aswap a i (psiftTarget m i a)) (2*t+2) = aget a (2*t+2) :=
        aget_aswap_other a i _ _ (by omega) (by omega)
      rw [hbt, hb1, hb2]
      exact hheap t (by omega)
    have hrec := ih (by rw [length_aswap]; exact hml) hbheap
    have hunt := pheapify_untouched m (psiftTarget m i a) (aswap a i (psiftTarget m i a))
    intro t ht
    by_cases hts : psiftTarget m i a ≤ t
    · exact hrec t hts
    · by_cases hti : t = i
      · have hri : aget (pheapify m (psiftTarget m i a) (aswap a i (psiftTarget m i a))) i
            = aget a (psiftTarget m i a) := by
          rw [hunt i (not_inSub_of_lt _ i hs.1)]
          exact aget_aswap_fst a i _ hilen hslen
        have hrtar : aget (pheapify m (psiftTarget m i a) (aswap a i (psiftTarget m i a)))
            (psiftTarget m i a) ≤ aget a (psiftTarget m i a) := by
          obtain ⟨u, hu1, hu2, hu3⟩ := pheapify_src_sub m (psiftTarget m i a)
            (aswap a i (psiftTarget m i a)) (by rw [length_aswap]; exact hml)
            (psiftTarget m i a) (inSub_self _) hs.2
          rw [hu3]
          by_cases hu : u = psiftTarget m i a
          · rw [hu, aget_aswap_snd a i _ hslen]
            exact hmax.1
          · have hui : u ≠ i := by
              have := inSub_le _ _ hu1
              omega
            rw [aget_aswap_other a i _ u hui hu]
            exact subtree_bound a m (i+1) (psiftTarget m i a) hheap (by omega) u hu1 hu2
        have hother : ∀ c : ℕ, c ≠ psiftTarget m i a → (c = 2*i+1 ∨ c = 2*i+2) →
            aget (pheapify m (psiftTarget m i a) (aswap a i (psiftTarget m i a))) c
              = aget a c := by
          intro c hc hcc
          have hns : inSub (psiftTarget m i a) c = false := by
            by_cases ho : c < psiftTarget m i a
            · exact not_inSub_of_lt _ _ ho
            · have hcp : (c - 1) / 2 = i := by
                rcases hcc with h2 | h2 <;> omega
              rw [inSub, if_neg ho, if_neg hc, hcp]
              exact not_inSub_of_lt _ i hs.1
          rw [hunt c hns]
          exact aget_aswap_other a i _ c (by omega) hc
        rw [hti]
        constructor
        · intro hc1
          rw [hri]
          by_cases hc : 2*i + 1 = psiftTarget m i a
          · rw [hc]
            exact hrtar
          · rw [hother (2*i+1) hc (Or.inl rfl)]
            exact hmax.2.1 hc1
        · intro hc2
          rw [hri]
          by_cases hc : 2*i + 2 = psiftTarget m i a
          · rw [hc]
            exact hrtar
          · rw [hother (2*i+2) hc (Or.inr rfl)]
            exact hmax.2.2 hc2
      · have hit : i < t := by omega
        have htf : inSub (psiftTarget m i a) t = false := not_inSub_of_lt _ t (by omega)
        have hrt : aget (pheapify m (psiftTarget m i a) (aswap a i (psiftTarget m i a))) t
            = aget a t := by
          rw [hunt t htf]
          exact aget_aswap_other a i _ t (by omega) (by omega)
        have hchild_unt : ∀ c : ℕ, (c = 2*t+1 ∨ c = 2*t+2) →
            aget (pheapify m (psiftTarget m i a) (aswap a i (psiftTarget m i a))) c
              = aget a c := by
          intro c hcc
          have hgt : psiftTarget m i a < c := by
            rcases hmem with h | h | h
            · exact absurd h hne
            · rcases hcc with h2 | h2 <;> omega
            · rcases hcc with h2 | h2 <;> omega
          have hcp : (c - 1) / 2 = t := by
            rcases hcc with h2 | h2 <;> omega
          have hns : inSub (psiftTarget m i a) c = false := by
            rw [inSub, if_neg (by omega), if_neg (by omega), hcp]
            exact htf
          rw [hunt c hns]
          exact aget_aswap_other a i _ c (by omega) (by omega)
        constructor
        · intro hc1
          rw [hrt, hchild_unt (2*t+1) (Or.inl rfl)]
          exact (hheap t (by omega)).1 hc1
        · intro hc2
          rw [hrt, hchild_unt (2*t+2) (Or.inr rfl)]
          exact (hheap t (by omega)).2 hc2

theorem pbuildHeap_heap (n : ℕ) (i : ℤ) (a : List ℕ) :
    n ≤ a.length → HeapFrom a n (i + 1).toNat → HeapFrom (pbuildHeap n i a) n 0 := by
  induction i, a using pbuildHeap.induct n with
  | case1 i a hi ih =>
    intro hml hheap
    rw [pbuildHeap, if_pos hi]
    apply ih
    · rw [(pheapify_perm n i.toNat a hml).length_eq]
      exact hml
    · have h1 : ((i - 1) + 1).toNat = i.toNat := by omega
      rw [h1]
      apply pheapify_heap n i.toNat a hml
      have h2 : (i + 1).toNat = i.toNat + 1 := by omega
      rw [h2] at hheap
      exact hheap
  | case2 i a hi =>
    intro hml hheap
    rw [pbuildHeap, if_neg hi]
    have h1 : (i + 1).toNat = 0 := by omega
    rw [h1] at hheap
    exact hheap

theorem pextractLoop_sorted (i : ℕ) (a : List ℕ) :
    i < a.length → HeapFrom a (i + 1) 0 → SortedFrom a (i + 1) → DomFrom a (i + 1) →
    SortedFrom (pextractLoop i a) 0 := by
  induction i, a using pextractLoop.induct with
  | case1 i a hi ih =>
    intro hlen hheap hsort hdom
    rw [pextractLoop, if_pos hi]
    have hblen : (aswap a 0 i).length = a.length := length_aswap a 0 i
    have hclen : (pheapify i 0 (aswap a 0 i)).length = a.length := by
      rw [(pheapify_perm i 0 (aswap a 0 i) (by omega)).length_eq]
      exact hblen
    have hroot := heap_root_max a (i+1) hheap
    have hb0 : aget (aswap a 0 i) 0 = aget a i := aget_aswap_fst a 0 i (by omega) hlen
    have hbi : aget (aswap a 0 i) i = aget a 0 := aget_aswap_snd a 0 i hlen
    have hbother : ∀ t, t ≠ 0 → t ≠ i → aget (aswap a 0 i) t = aget a t :=
      fun t h1 h2 => aget_aswap_other a 0 i t h1 h2
    have hcge : ∀ t, i ≤ t → aget (pheapify i 0 (aswap a 0 i)) t = aget (aswap a 0 i) t :=
      fun t htt => pheapify_untouched_ge i 0 (aswap a 0 i) t htt
    have hcsrc := pheapify_src i 0 (aswap a 0 i) (by omega)
    have hbh : HeapFrom (aswap a 0 i) i 1 := by
      intro t htt
      constructor
      · intro hg
        rw [hbother t (by omega) (by omega), hbother (2*t+1) (by omega) (by omega)]
        exact (hheap t (Nat.zero_le t)).1 (by omega)
      · intro hg
        rw [hbother t (by omega) (by omega), hbother (2*t+2) (by omega) (by omega)]
        exact (hheap t (Nat.zero_le t)).2 (by omega)
    have hch : HeapFrom (pheapify i 0 (aswap a 0 i)) i 0 :=
      pheapify_heap i 0 (aswap a 0 i) (by omega) hbh
    have he : i - 1 + 1 = i := by omega
    refine ih ?_ ?_ ?_ ?_
    · rw [hclen]
      omega
    · rw [he]
      exact hch
    · rw [he]
      intro t u htt htu hul
      rw [hclen] at hul
      rw [hcge t htt, hcge u (by omega)]
      by_cases hti : t = i
      · rw [hti, hbi, hbother u (by omega) (by omega)]
        exact hdom 0 u (by omega) (by omega) hul
      · rw [hbother t (by omega) hti, hbother u (by omega) (by omega)]
        exact hsort t u (by omega) htu hul
    · rw [he]
      intro t u htt hut hul
      rw [hclen] at hul
      obtain ⟨w, hw1, hw2⟩ := hcsrc t htt
      rw [hw2, hcge u hut]
      have hbw : aget (aswap a 0 i) w ≤ aget a 0 := by
        by_cases hw0 : w = 0
        · rw [hw0, hb0]
          exact hroot i (by omega)
        · rw [hbother w hw0 (by omega)]
          exact hroot w (by omega)
      by_cases hui : u = i
      · rw [hui, hbi]
        exact hbw
      · rw [hbother u (by omega) hui]
        exact le_trans hbw (hdom 0 u (by omega) (by omega) hul)
  | case2 i a hi =>
    intro hlen hheap hsort hdom
    rw [pextractLoop, if_neg hi]
    intro t u _ htu hul
    by_cases ht0 : t = 0
    · rw [ht0]
      exact hdom 0 u (by omega) (by omega) hul
    · exact hsort t u (by omega) htu hul

theorem pheapSort_sorted (a : List ℕ) : List.Sorted (· ≤ ·) (pheapSort a) := by
  apply sorted_of_sortedFrom
  have hlen : (pheapSort a).length = a.length := (pheapSort_perm a).length_eq
  by_cases h0 : a.length = 0
  · intro t u _ htu hul
    exfalso
    omega
  · unfold pheapSort
    have hblen : (pbuildHeap a.length ((a.length : ℤ)/2 - 1) a).length = a.length :=
      (pbuildHeap_perm a.length ((a.length : ℤ)/2 - 1) a le_rfl).length_eq
    have hbh : HeapFrom (pbuildHeap a.length ((a.length : ℤ)/2 - 1) a) a.length 0 := by
      apply pbuildHeap_heap a.length ((a.length : ℤ)/2 - 1) a le_rfl
      intro t htt
      constructor
      · intro hg
        exfalso
        omega
      · intro hg
        exfalso
        omega
    refine pextractLoop_sorted (a.length - 1)
      (pbuildHeap a.length ((a.length : ℤ)/2 - 1) a) ?_ ?_ ?_ ?_
    · rw [hblen]
      omega
    · have he : a.length - 1 + 1 = a.length := by omega
      rw [he]
      exact hbh
    · intro t u htt htu hul
      rw [hblen] at hul
      exfalso
      omega
    · intro t u htt hut hul
      rw [hblen] at hul
      exfalso
      omega

/-- C1: for every algorithm in the registry (Bubble Sort, Insertion Sort,
Selection Sort, Quick Sort, Merge Sort, Heap Sort) and every input array of
size at least 2, driving the unit to exhaustion through the access layer
leaves the working array in non-decreasing order. -/
theorem C1_registry_sorts (name : String) (f : HState → HState)
    (hmem : (name, f) ∈ algorithms) (l : List ℕ) (hlen : 2 ≤ l.length) :
    List.Sorted (· ≤ ·) (runUnit f l).arr := by
  simp only [algorithms, List.mem_cons, List.not_mem_nil, or_false,
    Prod.mk.injEq] at hmem
  rcases hmem with ⟨h1, h2⟩ | ⟨h1, h2⟩ | ⟨h1, h2⟩ | ⟨h1, h2⟩ | ⟨h1, h2⟩ | ⟨h1, h2⟩
  · subst h2; unfold runUnit; rw [bubbleSort_arr]; exact pbubbleSort_sorted l
  · subst h2; unfold runUnit; rw [insertionSort_arr]; exact pinsertionSort_sorted l
  · subst h2; unfold runUnit; rw [selectionSort_arr]; exact pselectionSort_sorted l
  · subst h2; unfold runUnit; rw [quickSort_arr]; exact pquickSort_sorted l
  · subst h2; unfold runUnit; rw [mergeSort_arr]; exact pmergeSort_sorted l
  · subst h2; unfold runUnit; rw [heapSort_arr]; exact pheapSort_sorted l

/-- C1 witness: the Bubble Sort registry entry on the concrete input `[3,1]`
of size 2. -/
theorem C1_registry_sorts_witness :
    ("Bubble Sort", bubbleSort) ∈ algorithms ∧ 2 ≤ ([3,1] : List ℕ).length ∧
    List.Sorted (· ≤ ·) (runUnit bubbleSort [3,1]).arr :=
  ⟨by unfold algorithms; exact List.Mem.head _,
   by decide,
   C1_registry_sorts "Bubble Sort" bubbleSort
     (by unfold algorithms; exact List.Mem.head _) [3,1] (by decide)⟩

/-- C3: for every algorithm in the registry and every input array, the final
array after driving the unit to exhaustion is a permutation of the input
array. -/
theorem C3_registry_perm (name : String) (f : HState → HState)
    (hmem : (name, f) ∈ algorithms) (l : List ℕ) :
    List.Perm (runUnit f l).arr l := by
  simp only [algorithms, List.mem_cons, List.not_mem_nil, or_false,
    Prod.mk.injEq] at hmem
  rcases hmem with ⟨h1, h2⟩ | ⟨h1, h2⟩ | ⟨h1, h2⟩ | ⟨h1, h2⟩ | ⟨h1, h2⟩ | ⟨h1, h2⟩
  · subst h2; unfold runUnit; rw [bubbleSort_arr]; exact pbubbleSort_perm l
  · subst h2; unfold runUnit; rw [insertionSort_arr]; exact pinsertionSort_perm l
  · subst h2; unfold runUnit; rw [selectionSort_arr]; exact pselectionSort_perm l
  · subst h2; unfold runUnit; rw [quickSort_arr]; exact pquickSort_perm l
  · subst h2; unfold runUnit; rw [mergeSort_arr]; exact pmergeSort_perm l
  · subst h2; unfold runUnit; rw [heapSort_arr]; exact pheapSort_perm l

/-- C3 witness: the Bubble Sort registry entry on the concrete input
`[2,0,1]`. -/
theorem C3_registry_perm_witness :
    ("Bubble Sort", bubbleSort) ∈ algorithms ∧
    List.Perm (runUnit bubbleSort [2,0,1]).arr [2,0,1] :=
  ⟨by unfold algorithms; exact List.Mem.head _,
   C3_registry_perm "Bubble Sort" bubbleSort
     (by unfold algorithms; exact List.Mem.head _) [2,0,1]⟩

/-! ### Structural-event replay

`applyStruct` interprets a single emitted event on a plain array exactly as
the claim prescribes: a `swap` event exchanges the two indexed slots, a
`write` event stores its value at its index, and every other event kind is
ignored.  `replay` folds a trace (which is in emission = id order) over an
array. -/

def applyStruct (a : List ℕ) (e : SortEvent) : List ℕ :=
  match e with
  | SortEvent.swapE i j => aswap a i j
  | SortEvent.writeE i v => aset a i v
  | _ => a

def replay (a : List ℕ) (es : List SortEvent) : List ℕ := es.foldl applyStruct a

theorem replay_append (a : List ℕ) (t1 t2 : List SortEvent) :
    replay a (t1 ++ t2) = replay (replay a t1) t2 :=
  List.foldl_append _ _ _ _

/-- `ReplayExt s x`: state `x` extends state `s` by a trace suffix whose
structural events replay `s.arr` into `x.arr`. -/
def ReplayExt (s x : HState) : Prop :=
  ∃ t, x.trace = s.trace ++ t ∧ x.arr = replay s.arr t

theorem replayExt_refl (s : HState) : ReplayExt s s :=
  ⟨[], (List.append_nil _).symm, rfl⟩

theorem replayExt_trans {s x y : HState} (h1 : ReplayExt s x) (h2 : ReplayExt x y) :
    ReplayExt s y := by
  obtain ⟨t1, h1a, h1b⟩ := h1
  obtain ⟨t2, h2a, h2b⟩ := h2
  refine ⟨t1 ++ t2, ?_, ?_⟩
  · rw [h2a, h1a, List.append_assoc]
  · rw [h2b, h1b, replay_append]

theorem replayExt_compareH (i j : ℕ) (s : HState) : ReplayExt s (compareH i j s).2 :=
  ⟨[SortEvent.compareE i j (cmpInt (aget s.arr i) (aget s.arr j))], rfl, rfl⟩

theorem replayExt_compareValues (v1 v2 i1 i2 : ℕ) (s : HState) :
    ReplayExt s (compareValues v1 v2 i1 i2 s).2 :=
  ⟨[SortEvent.compareE i1 i2 (cmpInt v1 v2)], rfl, rfl⟩

theorem replayExt_swapH (i j : ℕ) (s : HState) : ReplayExt s (swapH i j s) :=
  ⟨[SortEvent.swapE i j], rfl, rfl⟩

theorem replayExt_readH (i : ℕ) (s : HState) : ReplayExt s (readH i s).2 :=
  ⟨[SortEvent.readE i (aget s.arr i)], rfl, rfl⟩

theorem replayExt_writeH (i v : ℕ) (s : HState) : ReplayExt s (writeH i v s) :=
  ⟨[SortEvent.writeE i v], rfl, rfl⟩

theorem replayExt_pivotH (i : ℕ) (s : HState) : ReplayExt s (pivotH i s) :=
  ⟨[SortEvent.pivotE i], rfl, rfl⟩

theorem replayExt_partitionH (lo hi : ℕ) (s : HState) : ReplayExt s (partitionH lo hi s) :=
  ⟨[SortEvent.partitionE lo hi], rfl, rfl⟩

theorem replayExt_rangeH (lo hi : ℕ) (label : String) (s : HState) :
    ReplayExt s (rangeH lo hi label s) :=
  ⟨[SortEvent.rangeE lo hi label], rfl, rfl⟩

theorem replayExt_mergeH (lo mid hi : ℕ) (s : HState) : ReplayExt s (mergeH lo mid hi s) :=
  ⟨[SortEvent.mergeE lo mid hi], rfl, rfl⟩

theorem replayExt_checkpointH (label : String) (s : HState) :
    ReplayExt s (checkpointH label s) :=
  ⟨[SortEvent.checkpointE label], rfl, rfl⟩

theorem bubbleInner_ext (n i j : ℕ) (s : HState) : ReplayExt s (bubbleInner n i j s) := by
  induction j, s using bubbleInner.induct n i with
  | case1 j s hj ih =>
    rw [bubbleInner, if_pos hj]
    simp only [dite_eq_ite] at ih
    by_cases hc : (compareH j (j+1) s).1 > 0
    · rw [if_pos hc] at ih ⊢
      exact replayExt_trans (replayExt_trans (replayExt_compareH j (j+1) s)
        (replayExt_swapH j (j+1) (compareH j (j+1) s).2)) ih
    · rw [if_neg hc] at ih ⊢
      exact replayExt_trans (replayExt_compareH j (j+1) s) ih
  | case2 j s hj =>
    rw [bubbleInner, if_neg hj]
    exact replayExt_refl s

theorem bubbleOuter_ext (n i : ℕ) (s : HState) : ReplayExt s (bubbleOuter n i s) := by
  induction i, s using bubbleOuter.induct n with
  | case1 i s hi ih =>
    rw [bubbleOuter, if_pos hi]
    exact replayExt_trans (replayExt_trans (replayExt_rangeH 0 (n - i - 1) "unsorted" s)
      (bubbleInner_ext n i 0 (rangeH 0 (n - i - 1) "unsorted" s))) ih
  | case2 i s hi =>
    rw [bubbleOuter, if_neg hi]
    exact replayExt_refl s

theorem bubbleSort_ext (s : HState) : ReplayExt s (bubbleSort s) := by
  unfold bubbleSort
  exact bubbleOuter_ext (lengthH s) 0 s

theorem insFind_ext (i : ℕ) (j : ℤ) (s : HState) : ReplayExt s (insFind i j s).2 := by
  induction j, s using insFind.induct i with
  | case1 j s hj hc ih =>
    rw [insFind, if_pos hj, if_pos hc]
    exact replayExt_trans (replayExt_compareH j.toNat i s) ih
  | case2 j s hj hc =>
    rw [insFind, if_pos hj, if_neg hc]
    exact replayExt_compareH j.toNat i s
  | case3 j s hj =>
    rw [insFind, if_neg hj]
    exact replayExt_refl s

theorem insShift_ext (stop k : ℕ) (s : HState) : ReplayExt s (insShift stop k s) := by
  induction k, s using insShift.induct stop with
  | case1 k s hk ih =>
    rw [insShift, if_pos hk]
    exact replayExt_trans (replayExt_trans (replayExt_readH (k - 1) s)
      (replayExt_writeH k (readH (k - 1) s).1 (readH (k - 1) s).2)) ih
  | case2 k s hk =>
    rw [insShift, if_neg hk]
    exact replayExt_refl s

theorem insPlace_ext (i : ℕ) (f : ℤ × HState) : ReplayExt f.2 (insPlace i f) := by
  unfold insPlace
  exact replayExt_trans (replayExt_trans (replayExt_readH i f.2)
    (insShift_ext ((f.1 + 1).toNat) i (readH i f.2).2))
    (replayExt_writeH ((f.1 + 1).toNat) (readH i f.2).1
      (insShift ((f.1 + 1).toNat) i (readH i f.2).2))

theorem insOuter_ext (n i : ℕ) (s : HState) : ReplayExt s (insOuter n i s) := by
  induction i, s using insOuter.induct n with
  | case1 i s hi ih =>
    rw [insOuter, if_pos hi]
    refine replayExt_trans ?_ ih
    refine replayExt_trans ?_ (insPlace_ext i
      (insFind i ((i : ℤ) - 1) (readH i (rangeH 0 i "sorted" s)).2))
    refine replayExt_trans (replayExt_trans (replayExt_rangeH 0 i "sorted" s)
      (replayExt_readH i (rangeH 0 i "sorted" s))) ?_
    exact insFind_ext i ((i : ℤ) - 1) (readH i (rangeH 0 i "sorted" s)).2
  | case2 i s hi =>
    rw [insOuter, if_neg hi]
    exact replayExt_refl s

theorem insertionSort_ext (s : HState) : ReplayExt s (insertionSort s) := by
  unfold insertionSort
  exact insOuter_ext (lengthH s) 1 s

theorem selInner_ext (n j minIdx : ℕ) (s : HState) : ReplayExt s (selInner n j minIdx s).2 := by
  induction j, minIdx, s using selInner.induct n with
  | case1 j minIdx s hj ih =>
    rw [selInner, if_pos hj]
    simp only [dite_eq_ite] at ih
    exact replayExt_trans (replayExt_compareH j minIdx s) ih
  | case2 j minIdx s hj =>
    rw [selInner, if_neg hj]
    exact replayExt_refl s

theorem selSwap_ext (i : ℕ) (m : ℕ × HState) : ReplayExt m.2 (selSwap i m) := by
  unfold selSwap
  split_ifs with h
  · exact replayExt_swapH i m.1 m.2
  · exact replayExt_refl m.2

theorem selOuter_ext (n i : ℕ) (s : HState) : ReplayExt s (selOuter n i s) := by
  induction i, s using selOuter.induct n with
  | case1 i s hi ih =>
    rw [selOuter, if_pos hi]
    refine replayExt_trans ?_ ih
    refine replayExt_trans ?_ (selSwap_ext i (selInner n (i+1) i (rangeH i (n - 1) "unsorted" s)))
    exact replayExt_trans (replayExt_rangeH i (n - 1) "unsorted" s)
      (selInner_ext n (i+1) i (rangeH i (n - 1) "unsorted" s))
  | case2 i s hi =>
    rw [selOuter, if_neg hi]
    exact replayExt_refl s

theorem selectionSort_ext (s : HState) : ReplayExt s (selectionSort s) := by
  unfold selectionSort
  exact selOuter_ext (lengthH s) 0 s

theorem partitionLoop_ext (high : ℕ) (i : ℤ) (j : ℕ) (s : HState) :
    ReplayExt s (partitionLoop high i j s).2 := by
  induction i, j, s using partitionLoop.induct high with
  | case1 i j s hj hc ih =>
    rw [partitionLoop, if_pos hj, if_pos hc]
    exact replayExt_trans (replayExt_trans (replayExt_compareH j high s)
      (replayExt_swapH ((i + 1).toNat) j (compareH j high s).2)) ih
  | case2 i j s hj hc ih =>
    rw [partitionLoop, if_pos hj, if_neg hc]
    exact replayExt_trans (replayExt_compareH j high s) ih
  | case3 i j s hj =>
    rw [partitionLoop, if_neg hj]
    exact replayExt_refl s

theorem partitionQ_ext (low high : ℕ) (s : HState) : ReplayExt s (partitionQ low high s).2 := by
  unfold partitionQ
  refine replayExt_trans (replayExt_trans (replayExt_pivotH high s)
    (partitionLoop_ext high ((low : ℤ) - 1) low (pivotH high s))) ?_
  exact replayExt_swapH _ high (partitionLoop high ((low : ℤ) - 1) low (pivotH high s)).2

theorem quickSortHelper_ext (low : ℕ) (high : ℤ) (s : HState) :
    ReplayExt s (quickSortHelper low high s) := by
  induction low, high, s using quickSortHelper.induct with
  | case1 low high s hlh ih1 ih2 =>
    rw [quickSortHelper, dif_pos hlh]
    exact replayExt_trans (replayExt_trans (replayExt_trans
      (replayExt_partitionH low high.toNat s)
      (partitionQ_ext low high.toNat (partitionH low high.toNat s))) ih1) ih2
  | case2 low high s hlh =>
    rw [quickSortHelper, dif_neg hlh]
    exact replayExt_refl s

theorem quickSort_ext (s : HState) : ReplayExt s (quickSort s) := by
  unfold quickSort
  exact quickSortHelper_ext 0 ((lengthH s : ℤ) - 1) s

theorem copyAux_ext (hi k : ℕ) (s : HState) (aux : List ℕ) :
    ReplayExt s (copyAux hi k s aux).1 := by
  induction k, s, aux using copyAux.induct hi with
  | case1 k s aux hk ih =>
    rw [copyAux, if_pos hk]
    exact replayExt_trans (replayExt_readH k s) ih
  | case2 k s aux hk =>
    rw [copyAux, if_neg hk]
    exact replayExt_refl s

theorem mergeLoop_ext (aux : List ℕ) (mid hi i j k : ℕ) (s : HState) :
    ReplayExt s (mergeLoop aux mid hi i j k s) := by
  induction i, j, k, s using mergeLoop.induct aux mid hi with
  | case1 i j k s hk hi2 ih =>
    rw [mergeLoop, if_pos hk, if_pos hi2]
    exact replayExt_trans (replayExt_writeH k (aget aux j) s) ih
  | case2 i j k s hk hi2 hj2 ih =>
    rw [mergeLoop, if_pos hk, if_neg hi2, if_pos hj2]
    exact replayExt_trans (replayExt_writeH k (aget aux i) s) ih
  | case3 i j k s hk hi2 hj2 hc ih =>
    rw [mergeLoop, if_pos hk, if_neg hi2, if_neg hj2, if_pos hc]
    exact replayExt_trans (replayExt_trans
      (replayExt_compareValues (aget aux j) (aget aux i) j i s)
      (replayExt_writeH k (aget aux i) (compareValues (aget aux j) (aget aux i) j i s).2)) ih
  | case4 i j k s hk hi2 hj2 hc hlt ih =>
    rw [mergeLoop, if_pos hk, if_neg hi2, if_neg hj2, if_neg hc, if_pos hlt]
    exact replayExt_trans (replayExt_trans
      (replayExt_compareValues (aget aux j) (aget aux i) j i s)
      (replayExt_writeH k (aget aux j) (compareValues (aget aux j) (aget aux i) j i s).2)) ih
  | case5 i j k s hk hi2 hj2 hc hlt ih =>
    rw [mergeLoop, if_pos hk, if_neg hi2, if_neg hj2, if_neg hc, if_neg hlt]
    exact replayExt_trans (replayExt_trans
      (replayExt_compareValues (aget aux j) (aget aux i) j i s)
      (replayExt_writeH k (aget aux i) (compareValues (aget aux j) (aget aux i) j i s).2)) ih
  | case6 i j k s hk =>
    rw [mergeLoop, if_neg hk]
    exact replayExt_refl s

theorem mergeArrays_ext (lo mid hi : ℕ) (s : HState) (aux : List ℕ) :
    ReplayExt s (mergeArrays lo mid hi s aux).1 := by
  unfold mergeArrays
  rw [show copyAux hi lo (mergeH lo mid hi s) aux
      = ((copyAux hi lo (mergeH lo mid hi s) aux).1,
         (copyAux hi lo (mergeH lo mid hi s) aux).2) from rfl]
  simp only
  exact replayExt_trans (replayExt_trans (replayExt_mergeH lo mid hi s)
    (copyAux_ext hi lo (mergeH lo mid hi s) aux))
    (mergeLoop_ext (copyAux hi lo (mergeH lo mid hi s) aux).2 mid hi lo (mid+1) lo
      (copyAux hi lo (mergeH lo mid hi s) aux).1)

theorem mergeSortHelper_ext (lo hi : ℕ) (s : HState) (aux : List ℕ) :
    ReplayExt s (mergeSortHelper lo hi s aux).1 := by
  induction lo, hi, s, aux using mergeSortHelper.induct with
  | case1 lo hi s aux hlh =>
    rw [mergeSortHelper, if_pos hlh]
    exact replayExt_refl s
  | case2 lo hi s aux hlh a2 aux2 heq2 a3 aux3 heq3 ih1 ih2 =>
    have h1 : ReplayExt (rangeH lo hi "divide" s) a2 := by
      rw [heq2] at ih1
      exact ih1
    have h2 : ReplayExt a2 a3 := by
      rw [heq3] at ih2
      exact ih2
    rw [mergeSortHelper, if_neg hlh, heq2]
    simp only
    rw [heq3]
    simp only
    exact replayExt_trans (replayExt_trans (replayExt_trans
      (replayExt_rangeH lo hi "divide" s) h1) h2)
      (mergeArrays_ext lo ((lo + hi) / 2) hi a3 aux3)

theorem mergeSort_ext (s : HState) : ReplayExt s (mergeSort s) := by
  unfold mergeSort
  exact mergeSortHelper_ext 0 (lengthH s - 1) s (List.replicate (lengthH s) 0)

theorem siftLeft_ext (m i : ℕ) (s : HState) : ReplayExt s (siftLeft m i s).2 := by
  unfold siftLeft
  split_ifs
  · exact replayExt_compareH (2*i + 1) i s
  · exact replayExt_compareH (2*i + 1) i s
  · exact replayExt_refl s

theorem siftTarget_ext (m i : ℕ) (s : HState) : ReplayExt s (siftTarget m i s).2 := by
  unfold siftTarget
  split_ifs
  · exact replayExt_trans (siftLeft_ext m i s)
      (replayExt_compareH (2*i + 2) (siftLeft m i s).1 (siftLeft m i s).2)
  · exact replayExt_trans (siftLeft_ext m i s)
      (replayExt_compareH (2*i + 2) (siftLeft m i s).1 (siftLeft m i s).2)
  · exact siftLeft_ext m i s

theorem heapify_ext (m i : ℕ) (s : HState) : ReplayExt s (heapify m i s) := by
  have main : ∀ (d i : ℕ) (s : HState), m - i ≤ d → ReplayExt s (heapify m i s) := by
    intro d
    induction d with
    | zero =>
      intro i s hd
      have hst := siftTarget_spec m i s
      have hr := psiftTarget_range m i s.arr
      rw [heapify_eq]
      have hne : ¬ (siftTarget m i s).1 ≠ i := by
        rw [hst.1]
        omega
      rw [if_neg hne]
      exact siftTarget_ext m i s
    | succ d ih =>
      intro i s hd
      have hst := siftTarget_spec m i s
      have hr := psiftTarget_range m i s.arr
      rw [heapify_eq]
      by_cases hne : (siftTarget m i s).1 ≠ i
      · rw [if_pos hne]
        refine replayExt_trans (replayExt_trans (siftTarget_ext m i s)
          (replayExt_swapH i (siftTarget m i s).1 (siftTarget m i s).2)) ?_
        refine ih (siftTarget m i s).1 _ ?_
        rw [hst.1] at hne ⊢
        omega
      · rw [if_neg hne]
        exact siftTarget_ext m i s
  exact main (m - i) i s le_rfl

theorem buildHeap_ext (n : ℕ) (i : ℤ) (s : HState) : ReplayExt s (buildHeap n i s) := by
  induction i, s using buildHeap.induct n with
  | case1 i s hi ih =>
    rw [buildHeap, if_pos hi]
    exact replayExt_trans (heapify_ext n i.toNat s) ih
  | case2 i s hi =>
    rw [buildHeap, if_neg hi]
    exact replayExt_refl s

theorem extractLoop_ext (i : ℕ) (s : HState) : ReplayExt s (extractLoop i s) := by
  induction i, s using extractLoop.induct with
  | case1 i s hi ih =>
    rw [extractLoop, if_pos hi]
    exact replayExt_trans (replayExt_trans (replayExt_swapH 0 i s)
      (heapify_ext i 0 (swapH 0 i s))) ih
  | case2 i s hi =>
    rw [extractLoop, if_neg hi]
    exact replayExt_refl s

theorem heapSort_ext (s : HState) : ReplayExt s (heapSort s) := by
  unfold heapSort
  exact replayExt_trans (buildHeap_ext (lengthH s) ((lengthH s : ℤ) / 2 - 1) s)
    (extractLoop_ext (lengthH s - 1) (buildHeap (lengthH s) ((lengthH s : ℤ) / 2 - 1) s))

/-- C2: for every run of every registry algorithm, applying only the emitted
structural events — each `swap` event as an exchange of the two indexed
slots and each `write` event as storing its value at its index, in
increasing event id (= emission) order, every other event kind ignored — to
a copy of the original input array produces exactly the final array the
unit delivers at completion. -/
theorem C2_replay_structural (name : String) (f : HState → HState)
    (hmem : (name, f) ∈ algorithms) (l : List ℕ) :
    replay l (runUnit f l).trace = (runUnit f l).arr := by
  simp only [algorithms, List.mem_cons, List.not_mem_nil, or_false,
    Prod.mk.injEq] at hmem
  rcases hmem with ⟨h1, h2⟩ | ⟨h1, h2⟩ | ⟨h1, h2⟩ | ⟨h1, h2⟩ | ⟨h1, h2⟩ | ⟨h1, h2⟩
  · subst h2
    unfold runUnit
    obtain ⟨t, ht, ha⟩ := bubbleSort_ext { arr := l, trace := [] }
    rw [ht, ha]
    rfl
  · subst h2
    unfold runUnit
    obtain ⟨t, ht, ha⟩ := insertionSort_ext { arr := l, trace := [] }
    rw [ht, ha]
    rfl
  · subst h2
    unfold runUnit
    obtain ⟨t, ht, ha⟩ := selectionSort_ext { arr := l, trace := [] }
    rw [ht, ha]
    rfl
  · subst h2
    unfold runUnit
    obtain ⟨t, ht, ha⟩ := quickSort_ext { arr := l, trace := [] }
    rw [ht, ha]
    rfl
  · subst h2
    unfold runUnit
    obtain ⟨t, ht, ha⟩ := mergeSort_ext { arr := l, trace := [] }
    rw [ht, ha]
    rfl
  · subst h2
    unfold runUnit
    obtain ⟨t, ht, ha⟩ := heapSort_ext { arr := l, trace := [] }
    rw [ht, ha]
    rfl

/-- C2 witness: the Bubble Sort registry entry on the concrete input
`[1,0]`. -/
theorem C2_replay_structural_witness :
    ("Bubble Sort", bubbleSort) ∈ algorithms ∧
    replay [1,0] (runUnit bubbleSort [1,0]).trace = (runUnit bubbleSort [1,0]).arr :=
  ⟨by unfold algorithms; exact List.Mem.head _,
   C2_replay_structural "Bubble Sort" bubbleSort
     (by unfold algorithms; exact List.Mem.head _) [1,0]⟩

/-! ### Merge-sort stability (C4)

`mergeTrace` is the event suffix the merge loop emits, read off the source:
it depends only on the auxiliary copy and the loop counters, never on the
live array being overwritten.  `mergePureT`/`msortT` are the same merge and
split recursions lifted to value-tag pairs (the spec's "distinct
original-position markers"), comparing values only, with the source's
left-first tie-break. -/

def mergeTrace (aux : List ℕ) (mid hi i j k : ℕ) : List SortEvent :=
  if k ≤ hi then
    if i > mid then
      SortEvent.writeE k (aget aux j) :: mergeTrace aux mid hi i (j+1) (k+1)
    else if j > hi then
      SortEvent.writeE k (aget aux i) :: mergeTrace aux mid hi (i+1) j (k+1)
    else if cmpInt (aget aux j) (aget aux i) ≥ 0 then
      SortEvent.compareE j i (cmpInt (aget aux j) (aget aux i))
        :: SortEvent.writeE k (aget aux i) :: mergeTrace aux mid hi (i+1) j (k+1)
    else if aget aux j < aget aux i then
      SortEvent.compareE j i (cmpInt (aget aux j) (aget aux i))
        :: SortEvent.writeE k (aget aux j) :: mergeTrace aux mid hi i (j+1) (k+1)
    else
      SortEvent.compareE j i (cmpInt (aget aux j) (aget aux i))
        :: SortEvent.writeE k (aget aux i) :: mergeTrace aux mid hi (i+1) j (k+1)
  else []
termination_by hi + 1 - k

theorem mergeLoop_trace (aux : List ℕ) (mid hi i j k : ℕ) (s : HState) :
    (mergeLoop aux mid hi i j k s).trace = s.trace ++ mergeTrace aux mid hi i j k := by
  induction i, j, k, s using mergeLoop.induct aux mid hi with
  | case1 i j k s hk hi2 ih =>
    rw [mergeLoop, if_pos hk, if_pos hi2, ih]
    conv_rhs => rw [mergeTrace, if_pos hk, if_pos hi2]
    simp [writeH]
  | case2 i j k s hk hi2 hj2 ih =>
    rw [mergeLoop, if_pos hk, if_neg hi2, if_pos hj2, ih]
    conv_rhs => rw [mergeTrace, if_pos hk, if_neg hi2, if_pos hj2]
    simp [writeH]
  | case3 i j k s hk hi2 hj2 hc ih =>
    have hc' : cmpInt (aget aux j) (aget aux i) ≥ 0 := by
      rw [compareValues_fst] at hc
      exact hc
    rw [mergeLoop, if_pos hk, if_neg hi2, if_neg hj2, if_pos hc, ih]
    conv_rhs => rw [mergeTrace, if_pos hk, if_neg hi2, if_neg hj2, if_pos hc']
    simp [writeH, compareValues]
  | case4 i j k s hk hi2 hj2 hc hlt ih =>
    have hc' : ¬ cmpInt (aget aux j) (aget aux i) ≥ 0 := by
      rw [compareValues_fst] at hc
      exact hc
    rw [mergeLoop, if_pos hk, if_neg hi2, if_neg hj2, if_neg hc, if_pos hlt, ih]
    conv_rhs => rw [mergeTrace, if_pos hk, if_neg hi2, if_neg hj2, if_neg hc', if_pos hlt]
    simp [writeH, compareValues]
  | case5 i j k s hk hi2 hj2 hc hlt ih =>
    have hc' : ¬ cmpInt (aget aux j) (aget aux i) ≥ 0 := by
      rw [compareValues_fst] at hc
      exact hc
    rw [mergeLoop, if_pos hk, if_neg hi2, if_neg hj2, if_neg hc, if_neg hlt, ih]
    conv_rhs => rw [mergeTrace, if_pos hk, if_neg hi2, if_neg hj2, if_neg hc', if_neg hlt]
    simp [writeH, compareValues]
  | case6 i j k s hk =>
    rw [mergeLoop, if_neg hk]
    conv_rhs => rw [mergeTrace, if_neg hk]
    simp

/-- Left-biased merge on value-tag pairs (ties take the left element). -/
def mergePureT : List (ℕ × ℕ) → List (ℕ × ℕ) → List (ℕ × ℕ)
  | [], ys => ys
  | x :: xs, [] => x :: xs
  | x :: xs, y :: ys =>
      if x.1 ≤ y.1 then x :: mergePureT xs (y :: ys) else y :: mergePureT (x :: xs) ys
termination_by xs ys => xs.length + ys.length

theorem mergePureT_nil_left (ys : List (ℕ × ℕ)) : mergePureT [] ys = ys := by
  rw [mergePureT]

theorem mergePureT_nil_right (xs : List (ℕ × ℕ)) : mergePureT xs [] = xs := by
  match xs with
  | [] => rw [mergePureT]
  | x :: xs => rw [mergePureT]

theorem mergePureT_cons_cons (x y : ℕ × ℕ) (xs ys : List (ℕ × ℕ)) :
    mergePureT (x :: xs) (y :: ys)
      = if x.1 ≤ y.1 then x :: mergePureT xs (y :: ys)
        else y :: mergePureT (x :: xs) ys := by
  rw [mergePureT]

theorem mergePureT_perm (xs ys : List (ℕ × ℕ)) :
    List.Perm (mergePureT xs ys) (xs ++ ys) := by
  induction xs, ys using mergePureT.induct with
  | case1 ys => rw [mergePureT_nil_left]; exact List.Perm.refl _
  | case2 x xs => rw [mergePureT_nil_right, List.append_nil]
  | case3 x xs y ys hle ih =>
    rw [mergePureT_cons_cons, if_pos hle]
    exact List.Perm.cons x ih
  | case4 x xs y ys hle ih =>
    rw [mergePureT_cons_cons, if_neg hle]
    exact (List.Perm.cons y ih).trans List.perm_middle.symm

theorem mem_mergePureT (z : ℕ × ℕ) (xs ys : List (ℕ × ℕ)) :
    z ∈ mergePureT xs ys ↔ z ∈ xs ∨ z ∈ ys := by
  rw [(mergePureT_perm xs ys).mem_iff, List.mem_append]

/-- Tagged top-down merge sort with the same split point as `msort`. -/
def msortT (l : List (ℕ × ℕ)) : List (ℕ × ℕ) :=
  if l.length ≤ 1 then l
  else
    mergePureT (msortT (l.take ((l.length + 1) / 2))) (msortT (l.drop ((l.length + 1) / 2)))
termination_by l.length
decreasing_by
  · rw [List.length_take]
    omega
  · rw [List.length_drop]
    omega

theorem msortT_perm (l : List (ℕ × ℕ)) : List.Perm (msortT l) l := by
  induction l using msortT.induct with
  | case1 l h => rw [msortT, if_pos h]
  | case2 l h ih1 ih2 =>
    rw [msortT, if_neg h]
    refine (mergePureT_perm _ _).trans ?_
    refine List.Perm.trans (List.Perm.append ih1 ih2) ?_
    rw [List.take_append_drop]

theorem map_fst_mergePureT (xs ys : List (ℕ × ℕ)) :
    (mergePureT xs ys).map Prod.fst = mergePure (xs.map Prod.fst) (ys.map Prod.fst) := by
  induction xs, ys using mergePureT.induct with
  | case1 ys => rw [mergePureT_nil_left, List.map_nil, mergePure_nil_left]
  | case2 x xs => rw [mergePureT_nil_right, List.map_nil, mergePure_nil_right]
  | case3 x xs y ys hle ih =>
    rw [mergePureT_cons_cons, if_pos hle, List.map_cons, List.map_cons, List.map_cons,
      mergePure_cons_cons, if_pos hle, ih, List.map_cons]
  | case4 x xs y ys hle ih =>
    rw [mergePureT_cons_cons, if_neg hle, List.map_cons, List.map_cons, List.map_cons,
      mergePure_cons_cons, if_neg hle, ih, List.map_cons]

theorem map_fst_msortT (l : List (ℕ × ℕ)) :
    (msortT l).map Prod.fst = msort (l.map Prod.fst) := by
  induction l using msortT.induct with
  | case1 l h =>
    rw [msortT, if_pos h, msort, if_pos (by rw [List.length_map]; exact h)]
  | case2 l h ih1 ih2 =>
    rw [msortT, if_neg h, msort, if_neg (by rw [List.length_map]; exact h)]
    rw [map_fst_mergePureT, ih1, ih2, List.length_map, List.map_take, List.map_drop]

theorem msortT_sorted_val (l : List (ℕ × ℕ)) :
    List.Pairwise (fun p q : ℕ × ℕ => p.1 ≤ q.1) (msortT l) := by
  have h := msort_sorted (l.map Prod.fst)
  rw [← map_fst_msortT] at h
  exact List.pairwise_map.mp h

theorem mergePureT_stable (xs ys : List (ℕ × ℕ))
    (hxs_val : List.Pairwise (fun p q : ℕ × ℕ => p.1 ≤ q.1) xs)
    (hys_val : List.Pairwise (fun p q : ℕ × ℕ => p.1 ≤ q.1) ys)
    (hxs : List.Pairwise (fun p q : ℕ × ℕ => p.1 = q.1 → p.2 < q.2) xs)
    (hys : List.Pairwise (fun p q : ℕ × ℕ => p.1 = q.1 → p.2 < q.2) ys)
    (hcross : ∀ p ∈ xs, ∀ q ∈ ys, p.1 = q.1 → p.2 < q.2) :
    List.Pairwise (fun p q : ℕ × ℕ => p.1 = q.1 → p.2 < q.2) (mergePureT xs ys) := by
  induction xs, ys using mergePureT.induct with
  | case1 ys =>
    rw [mergePureT_nil_left]
    exact hys
  | case2 x xs =>
    rw [mergePureT_nil_right]
    exact hxs
  | case3 x xs y ys hle ih =>
    rw [mergePureT_cons_cons, if_pos hle]
    rw [List.pairwise_cons] at hxs hxs_val ⊢
    refine ⟨?_, ih hxs_val.2 hys_val hxs.2 hys ?_⟩
    · intro b hb
      rw [mem_mergePureT] at hb
      rcases hb with hb | hb
      · exact hxs.1 b hb
      · exact hcross x (List.mem_cons_self x xs) b hb
    · intro p hp q hq
      exact hcross p (List.mem_cons_of_mem x hp) q hq
  | case4 x xs y ys hle ih =>
    rw [mergePureT_cons_cons, if_neg hle]
    rw [List.pairwise_cons] at hys hys_val ⊢
    push_neg at hle
    refine ⟨?_, ih hxs_val hys_val.2 hxs hys.2 ?_⟩
    · intro b hb heq
      rw [mem_mergePureT] at hb
      rcases hb with hb | hb
      · exfalso
        rcases List.mem_cons.mp hb with hb2 | hb2
        · rw [hb2] at heq
          omega
        · have hxb := (List.pairwise_cons.mp hxs_val).1 b hb2
          omega
      · exact hys.1 b hb heq
    · intro p hp q hq
      exact hcross p hp q (List.mem_cons_of_mem y hq)

theorem msortT_stable (l : List (ℕ × ℕ))
    (h : List.Pairwise (fun p q : ℕ × ℕ => p.2 < q.2) l) :
    List.Pairwise (fun p q : ℕ × ℕ => p.1 = q.1 → p.2 < q.2) (msortT l) := by
  induction l using msortT.induct with
  | case1 l hl =>
    rw [msortT, if_pos hl]
    exact h.imp (fun hpq => fun (_ : Prod.fst _ = Prod.fst _) => hpq)
  | case2 l hl ih1 ih2 =>
    rw [msortT, if_neg hl]
    have hsplit : List.Pairwise (fun p q : ℕ × ℕ => p.2 < q.2)
        (l.take ((l.length + 1) / 2) ++ l.drop ((l.length + 1) / 2)) := by
      rw [List.take_append_drop]
      exact h
    rw [List.pairwise_append] at hsplit
    obtain ⟨h1, h2, h3⟩ := hsplit
    apply mergePureT_stable
    · exact msortT_sorted_val _
    · exact msortT_sorted_val _
    · exact ih1 h1
    · exact ih2 h2
    · intro p hp q hq heq
      exact h3 p ((msortT_perm _).mem_iff.mp hp) q ((msortT_perm _).mem_iff.mp hq)

/-- C4: Merge Sort stability.  (1) The merge loop's whole event suffix is a
function of the auxiliary copy and the loop counters alone — every
comparison is `compareValues` against the aux copy, never `compare` against
the live array being overwritten; (2) when the two merge candidates are
equal, the step writes the left-subarray element first; (3) the engine's
merge sort computes the left-biased list-level `msort`; (4) that sort is
stable: tagging an input with strictly increasing markers, the output value
sequence is exactly the untagged sort and equal-valued elements keep their
relative input order. -/
theorem C4_mergeSort_stable :
    (∀ (aux : List ℕ) (mid hi i j k : ℕ) (s : HState),
        (mergeLoop aux mid hi i j k s).trace = s.trace ++ mergeTrace aux mid hi i j k)
    ∧ (∀ (aux : List ℕ) (mid hi i j k : ℕ) (a : List ℕ),
        k ≤ hi → ¬ i > mid → ¬ j > hi → aget aux i = aget aux j →
        pmergeLoop aux mid hi i j k a
          = pmergeLoop aux mid hi (i+1) j (k+1) (aset a k (aget aux i)))
    ∧ (∀ a : List ℕ, pmergeSort a = msort a)
    ∧ (∀ l : List (ℕ × ℕ), List.Pairwise (fun p q : ℕ × ℕ => p.2 < q.2) l →
        (msortT l).map Prod.fst = msort (l.map Prod.fst)
        ∧ List.Pairwise (fun p q : ℕ × ℕ => p.1 = q.1 → p.2 < q.2) (msortT l)) := by
  refine ⟨mergeLoop_trace, ?_, pmergeSort_eq, ?_⟩
  · intro aux mid hi i j k a hk hi2 hj2 heq
    rw [pmergeLoop, if_pos hk, if_neg hi2, if_neg hj2,
      if_pos (show cmpInt (aget aux j) (aget aux i) ≥ 0 by rw [cmpInt_nonneg_iff]; omega)]
  · intro l hl
    exact ⟨map_fst_msortT l, msortT_stable l hl⟩

end SV
